import Mathlib

/-!
# go-cache: the tiered loop, the cache operations and the tag index over a shallow embedding

The Go program is embedded as pure functions over an explicit `World`:

* a Go `Storage` interface value is a reference (`Storage := Nat`) into `World.heap`, which
  holds the state of each storage object: the in-memory storage of `in_memory.go`
  (`StorageState.InMem`) or the test double of `cache_test.go` (`StorageState.mock`);
* `time.Now()` reads `World.now`: all the clock reads of one call see the same instant, and
  time passes between calls by changing that field;
* a Go panic (nil dereference, failed type assertion) is the result `none`;
* every call of a `Storage` method appends an `Event` to `World.log`, and `Loop` returns the
  list of the handler invocations it made (`LoopOut.calls`); both are ghost data used only to
  state which storages were visited, read or written;
* the libraries `mapstructure`, `encoding/json` and `cast` are not part of the repository: the
  functions whose behaviour the program relies on are the fields of `Lib`; the one function
  of `go-multierror` that `Loop` calls is written out (`Append`), because the claims are
  about the error list of the aggregate it builds;
* Go slices are lists; `time.Time` and `time.Duration` are integers (nanoseconds).
-/

namespace GoCache

/-! ## errors and `go-multierror` -/

/-- Go `error` values: the two sentinels of `cache.go`, any other plain error, and the
aggregate `*multierror.Error` with its `Errors` field. -/
inductive Error
  | keyNotExist
  | notJSONMarshalable
  | other (msg : String)
  | multi (errs : List Error)
deriving Repr

mutual
/-- Decidable equality of errors (the type is nested, so it is written by hand). -/
def Error.decEq : (a b : Error) → Decidable (a = b)
  | .keyNotExist, .keyNotExist => isTrue rfl
  | .notJSONMarshalable, .notJSONMarshalable => isTrue rfl
  | .other a, .other b =>
    if h : a = b then isTrue (by rw [h]) else isFalse (by intro e; cases e; exact h rfl)
  | .multi as, .multi bs =>
    match Error.decEqList as bs with
    | isTrue h => isTrue (by rw [h])
    | isFalse h => isFalse (by intro e; cases e; exact h rfl)
  | .keyNotExist, .notJSONMarshalable => isFalse (by intro e; cases e)
  | .keyNotExist, .other _ => isFalse (by intro e; cases e)
  | .keyNotExist, .multi _ => isFalse (by intro e; cases e)
  | .notJSONMarshalable, .keyNotExist => isFalse (by intro e; cases e)
  | .notJSONMarshalable, .other _ => isFalse (by intro e; cases e)
  | .notJSONMarshalable, .multi _ => isFalse (by intro e; cases e)
  | .other _, .keyNotExist => isFalse (by intro e; cases e)
  | .other _, .notJSONMarshalable => isFalse (by intro e; cases e)
  | .other _, .multi _ => isFalse (by intro e; cases e)
  | .multi _, .keyNotExist => isFalse (by intro e; cases e)
  | .multi _, .notJSONMarshalable => isFalse (by intro e; cases e)
  | .multi _, .other _ => isFalse (by intro e; cases e)
/-- Decidable equality of lists of errors. -/
def Error.decEqList : (a b : List Error) → Decidable (a = b)
  | [], [] => isTrue rfl
  | [], _ :: _ => isFalse (by intro e; cases e)
  | _ :: _, [] => isFalse (by intro e; cases e)
  | a :: as, b :: bs =>
    match Error.decEq a b, Error.decEqList as bs with
    | isTrue h, isTrue h2 => isTrue (by rw [h, h2])
    | isFalse h, _ => isFalse (by intro e; cases e; exact h rfl)
    | _, isFalse h2 => isFalse (by intro e; cases e; exact h2 rfl)
end

instance : DecidableEq Error := Error.decEq

/-- What `multierror.Append` adds to the aggregate for one appended error: the members of an
aggregate (it is flattened one level), the error itself otherwise. -/
def Error.flatten : Error → List Error
  | .multi errs => errs
  | e => [e]

/-- The errors a Go `error` result carries: none for `nil`, the members for an aggregate, the
error itself otherwise. -/
def errorsOf : Option Error → List Error
  | none => []
  | some e => e.flatten

/-- Go `multierror.Append(e, err)` for a non-nil `err`, the only use `cache.go` makes of it: the
result is always an aggregate; an aggregate `e` is extended, a `nil` one starts empty, and a
plain `e` becomes the first member. -/
def Append (e : Option Error) (err : Error) : Error :=
  match e with
  | none => .multi err.flatten
  | some (.multi errs) => .multi (errs ++ err.flatten)
  | some e0 => .multi (e0 :: err.flatten)

/-- An error that is not an aggregate. -/
def Error.isPlain : Error → Bool
  | .multi _ => false
  | _ => true

/-! ## values, items and storages (`types.go`, `in_memory.go`, the `mock` of `cache_test.go`) -/

/-- Storage priority (`cache.go` constants; `types.go`). -/
inductive Priority
  | PriorityMedium
  | PriorityHigh
deriving DecidableEq, Repr

/-- Go `interface{}` values as far as the program distinguishes them: `nil`, scalars, `string`,
`[]byte` (its text), `[]string`, and the `item` struct. -/
inductive Value
  | nil
  | int (n : Int)
  | bool (b : Bool)
  | str (s : String)
  | bytes (b : String)
  | strs (l : List String)
  | item (Key : String) (Val : Value) (Created : Int) (Expires : Int)
deriving DecidableEq, Repr

/-- The struct `item` of `types.go`. -/
structure item where
  Key : String
  Val : Value
  Created : Int
  Expires : Int
deriving DecidableEq, Repr

/-- An `item` stored in an `interface{}`. -/
def item.toValue (i : item) : Value := .item i.Key i.Val i.Created i.Expires

/-- The zero value `item{}`. -/
def item.zero : item := ⟨"", .nil, 0, 0⟩

/-- Go `item.expired` at the instant `now` (`types.go`). -/
def item.expired (i : item) (now : Int) : Bool :=
  if i.Expires = 0 then false
  else decide (i.Created + i.Expires < now)

/-- A Go `Storage` interface value: a reference to a storage object of the world. -/
abbrev Storage := Nat

/-- A call of a `Storage` method, with its arguments. -/
inductive Op
  | Read (key : String)
  | Write (key : String) (v : Value) (ttl : Int)
  | Delete (key : String)
  | Flush
  | Close
deriving DecidableEq, Repr

/-- Ghost record of one `Storage` method call. -/
structure Event where
  storage : Storage
  op : Op
deriving DecidableEq, Repr

/-- The state of a storage object: `InMem` with its two maps, or the test double `mock` with
its three fields. -/
inductive StorageState
  | InMem (data : String → Option Value) (expire : String → Option Int)
  | mock (err : Option Error) (closed : Bool) (val : Value)

/-- The program state: the clock, the storage objects, and the ghost log of storage calls. -/
structure World where
  now : Int
  heap : Storage → StorageState
  log : List Event

/-- Appends a storage call to the ghost log. -/
def World.record (w : World) (s : Storage) (op : Op) : World :=
  { w with log := w.log ++ [⟨s, op⟩] }

/-- Replaces the state of one storage object. -/
def World.setStorage (w : World) (s : Storage) (st : StorageState) : World :=
  { w with heap := fun r => if r = s then st else w.heap r }

/-- Go map assignment `m[key] = v`. -/
def mapSet {α : Type} (m : String → Option α) (key : String) (v : α) : String → Option α :=
  fun k => if k = key then some v else m k

/-- Go `delete(m, key)`. -/
def mapDelete {α : Type} (m : String → Option α) (key : String) : String → Option α :=
  fun k => if k = key then none else m k

/-- Go `InMemory()`: a storage with two empty maps. -/
def InMemory : StorageState := .InMem (fun _ => none) (fun _ => none)

/-- Go `InMem.Write` (`in_memory.go`): the expiry entry is set only when `d != 0`. -/
def InMem.Write (data : String → Option Value) (expire : String → Option Int) (now : Int)
    (key : String) (v : Value) (d : Int) : Option Error × StorageState :=
  (none, .InMem (mapSet data key v) (if d ≠ 0 then mapSet expire key (now + d) else expire))

/-- Go `InMem.Read`: an entry whose expiry instant is before now is deleted and reported
absent. -/
def InMem.Read (data : String → Option Value) (expire : String → Option Int) (now : Int)
    (key : String) : (Value × Option Error) × StorageState :=
  match data key with
  | none => ((.nil, some .keyNotExist), .InMem data expire)
  | some v =>
    match expire key with
    | some t =>
      if t < now then
        ((.nil, some .keyNotExist), .InMem (mapDelete data key) (mapDelete expire key))
      else ((v, none), .InMem data expire)
    | none => ((v, none), .InMem data expire)

/-- Go `InMem.Delete` (through `InMem.del`). -/
def InMem.Delete (data : String → Option Value) (expire : String → Option Int)
    (key : String) : Option Error × StorageState :=
  (none, .InMem (mapDelete data key) (mapDelete expire key))

/-- Go `InMem.Flush`. -/
def InMem.Flush : Option Error × StorageState := (none, InMemory)

/-- Go `Write` of a storage object: `InMem.Write`, or `mock.Write`, which returns `m.err`. -/
def StorageState.Write (st : StorageState) (now : Int) (key : String) (v : Value) (d : Int) :
    Option Error × StorageState :=
  match st with
  | .InMem data expire => InMem.Write data expire now key v d
  | .mock err closed val => (err, .mock err closed val)

/-- Go `Read` of a storage object: `InMem.Read`, or `mock.Read`, which returns
`m.val, m.err`. -/
def StorageState.Read (st : StorageState) (now : Int) (key : String) :
    (Value × Option Error) × StorageState :=
  match st with
  | .InMem data expire => InMem.Read data expire now key
  | .mock err closed val => ((val, err), .mock err closed val)

/-- Go `Delete` of a storage object. -/
def StorageState.Delete (st : StorageState) (key : String) : Option Error × StorageState :=
  match st with
  | .InMem data expire => InMem.Delete data expire key
  | .mock err closed val => (err, .mock err closed val)

/-- Go `Flush` of a storage object. -/
def StorageState.Flush (st : StorageState) : Option Error × StorageState :=
  match st with
  | .InMem _ _ => InMem.Flush
  | .mock err closed val => (err, .mock err closed val)

/-- Go `s.Write(key, v, d)` on the storage a reference denotes. -/
def Storage.Write (s : Storage) (key : String) (v : Value) (d : Int) (w : World) :
    Option Error × World :=
  match (w.heap s).Write w.now key v d with
  | (err, st) => (err, (w.record s (.Write key v d)).setStorage s st)

/-- Go `s.Read(key)` on the storage a reference denotes. -/
def Storage.Read (s : Storage) (key : String) (w : World) : (Value × Option Error) × World :=
  match (w.heap s).Read w.now key with
  | (r, st) => (r, (w.record s (.Read key)).setStorage s st)

/-- Go `s.Delete(key)` on the storage a reference denotes. -/
def Storage.Delete (s : Storage) (key : String) (w : World) : Option Error × World :=
  match (w.heap s).Delete key with
  | (err, st) => (err, (w.record s (.Delete key)).setStorage s st)

/-- Go `s.Flush()` on the storage a reference denotes. -/
def Storage.Flush (s : Storage) (w : World) : Option Error × World :=
  match (w.heap s).Flush with
  | (err, st) => (err, (w.record s .Flush).setStorage s st)

/-! ## the cache and its construction (`cache.go`, `option.go`) -/

/-- The standard tagger `std` of `tagging.go` (its logger is not modelled). -/
structure std where
  ns : String
deriving DecidableEq, Repr

/-- The struct `Cache` (its logger is not modelled). -/
structure Cache where
  storage : Priority → List Storage
  tagger : std
  ns : String

/-- The type `Option` of `option.go`. -/
abbrev CacheOption := Cache → Cache

/-- Go `WithStorage`: the given storages become the high-priority list; no storage, no change. -/
def WithStorage (storage : List Storage) : CacheOption := fun c =>
  if storage.length = 0 then c
  else { c with storage := fun p => if p = .PriorityHigh then storage else c.storage p }

/-- Go `withPriorityStorage`: appends to the list of the given priority. -/
def withPriorityStorage (priority : Priority) (storage : List Storage) : CacheOption := fun c =>
  { c with storage := fun p => if p = priority then c.storage priority ++ storage
                              else c.storage p }

/-- Go `WithHighPriorityStorage`. -/
def WithHighPriorityStorage (storage : List Storage) : CacheOption :=
  withPriorityStorage .PriorityHigh storage

/-- Go `WithMediumPriorityStorage`. -/
def WithMediumPriorityStorage (storage : List Storage) : CacheOption :=
  withPriorityStorage .PriorityMedium storage

/-- Go `WithTagger`. -/
def WithTagger (tagger : std) : CacheOption := fun c => { c with tagger := tagger }

/-- Go `WithNamespace`. -/
def WithNamespace (ns : String) : CacheOption := fun c => { c with ns := ns }

/-- Go `newStdTagger`. -/
def newStdTagger (ns : String) : std := ⟨ns⟩

/-- Go `New`: the default tagger and namespace come first, then the given options in order. -/
def New (options : List CacheOption) : Cache :=
  ([WithTagger (newStdTagger "go:cache:tagger"), WithNamespace "go:cache"] ++ options).foldl
    (fun c o => o c) ⟨fun _ => [], ⟨""⟩, ""⟩

/-- Go `Cache.NsKey`: `fmt.Sprintf("%s:%s", c.ns, key)`. -/
def Cache.NsKey (c : Cache) (key : String) : String := c.ns ++ ":" ++ key

/-! ## the tiered loop (`cache.go`, `Loop`) -/

/-- A handler `func(s Storage) (bool, error)`: a closure over mutable state `σ`; `none` is
a panic. -/
abbrev Handler (σ : Type) := Storage → σ → Option ((Bool × Option Error) × σ)

/-- Ghost record of one handler invocation made by `Loop`. -/
structure Call where
  prio : Priority
  storage : Storage
  terminate : Bool
  err : Option Error
deriving DecidableEq, Repr

/-- Result of one of the two `for` statements of `Loop`: whether it executed `return nil`,
the value of the named result `e`, the state, and the invocations made. -/
structure Pass (σ : Type) where
  returned : Bool
  e : Option Error
  state : σ
  calls : List Call

/-- Prepends an invocation record to a pass result. -/
def Pass.addCall {σ : Type} (c : Call) (p : Pass σ) : Pass σ :=
  { p with calls := c :: p.calls }

/-- The first `for` of `Loop`, over the high-priority storages, with `e` the errors
accumulated so far. -/
def Loop.highPass {σ : Type} (high : Handler σ) : List Storage → Option Error → σ →
    Option (Pass σ)
  | [], e, w => some ⟨false, e, w, []⟩
  | s :: rest, e, w =>
    match high s w with
    | none => none
    | some ((terminate, some err), w') =>
      (Loop.highPass high rest (some (Append e err)) w').map
        (Pass.addCall ⟨.PriorityHigh, s, terminate, some err⟩)
    | some ((true, none), w') => some ⟨true, none, w', [⟨.PriorityHigh, s, true, none⟩]⟩
    | some ((false, none), w') =>
      (Loop.highPass high rest e w').map (Pass.addCall ⟨.PriorityHigh, s, false, none⟩)

/-- The second `for` of `Loop`, over the medium-priority storages: the error of the handler
is dropped, `e` is carried unchanged. -/
def Loop.mediumPass {σ : Type} (medium : Handler σ) (e : Option Error) : List Storage → σ →
    Option (Pass σ)
  | [], w => some ⟨false, e, w, []⟩
  | s :: rest, w =>
    match medium s w with
    | none => none
    | some ((true, err), w') => some ⟨true, none, w', [⟨.PriorityMedium, s, true, err⟩]⟩
    | some ((false, err), w') =>
      (Loop.mediumPass medium e rest w').map (Pass.addCall ⟨.PriorityMedium, s, false, err⟩)

/-- Result of `Loop`: the returned error, the state, and the handler invocations made. -/
structure LoopOut (σ : Type) where
  e : Option Error
  state : σ
  calls : List Call

/-- Go `Cache.Loop`: a `nil` medium handler is replaced by the high one; the high pass
aggregates errors and returns `nil` at a terminate without error; the medium pass drops
errors and returns `nil` at a terminate; otherwise the aggregate `e` is returned. -/
def Cache.Loop {σ : Type} (c : Cache) (high : Handler σ) (medium : Option (Handler σ))
    (w : σ) : Option (LoopOut σ) :=
  let medium := medium.getD high
  match Loop.highPass high (c.storage .PriorityHigh) none w with
  | none => none
  | some p =>
    if p.returned then some ⟨none, p.state, p.calls⟩
    else
      match Loop.mediumPass medium p.e (c.storage .PriorityMedium) p.state with
      | none => none
      | some q => some ⟨q.e, q.state, p.calls ++ q.calls⟩

/-! ## library functions the program calls -/

/-- Behaviour of the library calls that are outside the repository. `Decode input out` is
`mapstructure.Decode(input, out)`: the error, and what the caller's `out` holds afterwards.
`unmarshalItem data` is the `item` left by `json.Unmarshal(data, &item{})` (errors are ignored
by the callers); `unmarshalStrings data` is the slice left by `json.Unmarshal(data, &slice)` on a
nil `[]string`; `Fields` is `strings.Fields`; `castScalar v` is what `cast.ToStringSlice`
returns for a value that is neither nil, a string, a `[]string` nor a struct.
`DecodeSlice output out` is `mapstructure.Decode(output, out)` for the `[]interface{}` that
`ByTag` collects, and `DecodeSliceNil output` is the error of that call when the target is the
fresh `make([]interface{}, 0, 0)`; `decodeItem v` is the `item` left by
`mapstructure.Decode(v, &i)` on a zero `i`, for a value that is not nil. -/
structure Lib where
  Decode : Value → Value → Option Error × Value
  unmarshalItem : String → item
  unmarshalStrings : String → List String
  Fields : String → List String
  castScalar : Value → List String
  DecodeSlice : List Value → Value → Option Error × Value
  DecodeSliceNil : List Value → Option Error
  decodeItem : Value → item

/-- Go `cast.ToStringSlice`: a struct value cannot be cast, and the result is then empty. -/
def ToStringSlice (lib : Lib) : Value → List String
  | .nil => []
  | .strs l => l
  | .str x => lib.Fields x
  | .item _ _ _ _ => []
  | v => lib.castScalar v

/-- Go `slice` of `tagging.go` (no `[]interface{}` value exists in this model). -/
def slice (lib : Lib) : Value → List String
  | .strs x => x
  | .bytes x => lib.unmarshalStrings x
  | .str x => lib.unmarshalStrings x
  | _ => []

/-- The loop of `sort.Search`, with `fuel` bounding the number of iterations. -/
def Search.loop (f : Nat → Bool) : Nat → Nat → Nat → Nat
  | 0, i, _ => i
  | fuel + 1, i, j =>
    if i < j then
      let h := (i + j) / 2
      if !f h then Search.loop f fuel (h + 1) j else Search.loop f fuel i h
    else i

/-- Go `sort.Search(n, f)`: binary search on `[0, n)`; `n + 1` iterations are more than it
makes. -/
def Search (n : Nat) (f : Nat → Bool) : Nat := Search.loop f (n + 1) 0 n

/-- Go `insertIntoSorted` of `tagging.go`. The last three statements write `val` over
`slice[index]` in the shared backing array and keep the elements after it. -/
def insertIntoSorted (slice : List String) (val : String) : List String :=
  if slice.length = 0 then [val]
  else
    let index := Search slice.length (fun i => decide (val < slice.getD i ""))
    if index ≠ 0 ∧ slice.getD (index - 1) "" = val then slice
    else if index + 1 < slice.length ∧ slice.getD (index + 1) "" = val then slice
    else if index = slice.length then slice ++ [val]
    else slice.take index ++ [val] ++ slice.drop (index + 1)

/-! ## the standard tagger (`tagging.go`) -/

/-- Go `std.nsKey`. -/
def std.nsKey (t : std) (key : String) : String := t.ns ++ ":" ++ key

/-- Go `std.Tags`. -/
def std.Tags (lib : Lib) (t : std) (s : Storage) (key : String) (w : World) :
    (List String × Option Error) × World :=
  match Storage.Read s (t.nsKey ("key:" ++ key ++ ":tags")) w with
  | ((v, err), w1) =>
    if err ≠ none ∧ err ≠ some .keyNotExist then (([], err), w1)
    else ((ToStringSlice lib v, none), w1)

/-- Go `std.Keys`. -/
def std.Keys (lib : Lib) (t : std) (s : Storage) (tag : String) (w : World) :
    (List String × Option Error) × World :=
  match Storage.Read s (t.nsKey ("tag:" ++ tag ++ ":keys")) w with
  | ((v, err), w1) =>
    if err ≠ none ∧ err ≠ some .keyNotExist then (([], err), w1)
    else ((slice lib v, none), w1)

/-- Go `std.addTagsToKey`: when a tag is not yet in the list, the whole argument list is
appended. -/
def std.addTagsToKey (lib : Lib) (t : std) (s : Storage) (key : String) (tags : List String)
    (w : World) : Option Error × World :=
  match Storage.Read s (t.nsKey key) w with
  | ((v, err), w1) =>
    if err ≠ none ∧ err ≠ some .keyNotExist then (err, w1)
    else
      Storage.Write s (t.nsKey key)
        (.strs (tags.foldl (fun sl tag => if tag ∈ sl then sl else sl ++ tags) (slice lib v))) 0 w1

/-- Go `std.removeTagsFromKey`: the new list is made of the given tags that the key has. -/
def std.removeTagsFromKey (lib : Lib) (t : std) (s : Storage) (key : String)
    (tags : List String) (w : World) : Option Error × World :=
  match Storage.Read s (t.nsKey key) w with
  | ((v, err), w1) =>
    if err ≠ none ∧ err ≠ some .keyNotExist then (err, w1)
    else
      let newslice := tags.filter (fun tag => decide (tag ∈ ToStringSlice lib v))
      if newslice.length = 0 then Storage.Delete s (t.nsKey key) w1
      else Storage.Write s (t.nsKey key) (.strs newslice) 0 w1

/-- Go `std.addKeysToTag`. -/
def std.addKeysToTag (lib : Lib) (t : std) (s : Storage) (tag : String) (keys : List String)
    (w : World) : Option Error × World :=
  match Storage.Read s (t.nsKey tag) w with
  | ((v, err), w1) =>
    if err ≠ none ∧ err ≠ some .keyNotExist then (err, w1)
    else Storage.Write s (t.nsKey tag) (.strs (keys.foldl insertIntoSorted (slice lib v))) 0 w1

/-- One iteration of the `for` of `std.removeKeysFromTag`. -/
def removeAtSearch (tagKeys : List String) (key : String) : List String :=
  let index := Search tagKeys.length (fun i => decide (key < tagKeys.getD i ""))
  if index > 0 then tagKeys.take (index - 1) ++ tagKeys.drop index else tagKeys

/-- Go `std.removeKeysFromTag`. -/
def std.removeKeysFromTag (lib : Lib) (t : std) (s : Storage) (tag : String)
    (keys : List String) (w : World) : Option Error × World :=
  match Storage.Read s (t.nsKey tag) w with
  | ((v, err), w1) =>
    if err ≠ none ∧ err ≠ some .keyNotExist then (err, w1)
    else
      let tagKeys := keys.foldl removeAtSearch (ToStringSlice lib v)
      if tagKeys.length = 0 then Storage.Delete s (t.nsKey tag) w1
      else Storage.Write s (t.nsKey tag) (.strs tagKeys) 0 w1

/-- Go `std.Tag`: the errors of `addKeysToTag` are dropped. -/
def std.Tag (lib : Lib) (t : std) (s : Storage) (key : String) (tags : List String)
    (w : World) : Option Error × World :=
  match t.addTagsToKey lib s ("key:" ++ key ++ ":tags") tags w with
  | (some err, w1) => (some err, w1)
  | (none, w1) =>
    (none, tags.foldl (fun w2 tag => (t.addKeysToTag lib s ("tag:" ++ tag ++ ":keys") [key] w2).2) w1)

/-- Go `std.UnTag`: with no tag given, the tags of the key are looked up (the error of that
lookup is dropped); the errors of `removeKeysFromTag` are dropped. -/
def std.UnTag (lib : Lib) (t : std) (s : Storage) (key : String) (tags : List String)
    (w : World) : Option Error × World :=
  let (tags, w0) :=
    if tags.length = 0 then
      match t.Tags lib s key w with
      | ((l, _), w') => (l, w')
    else (tags, w)
  match t.removeTagsFromKey lib s ("key:" ++ key ++ ":tags") tags w0 with
  | (some err, w1) => (some err, w1)
  | (none, w1) =>
    Storage.Delete s (t.nsKey ("key:" ++ key ++ ":tags"))
      (tags.foldl (fun w2 tag => (t.removeKeysFromTag lib s ("tag:" ++ tag ++ ":keys") [key] w2).2)
        w1)

/-! ## cache operations (`cache.go`) -/

/-- Go `Cache.write`. -/
def Cache.write (lib : Lib) (c : Cache) (s : Storage) (key : String) (v : Value)
    (expiration : Int) (tags : List String) (w : World) : Option Error × World :=
  match Storage.Write s (c.NsKey key) v expiration w with
  | (some err, w1) => (some err, w1)
  | (none, w1) =>
    if tags.length > 0 then
      match c.tagger.Tag lib s key tags w1 with
      | (some err, w2) => (some err, w2)
      | (none, w2) => (none, w2)
    else (none, w1)

/-- The handler of `Cache.set`: write the item, never terminate. -/
def Cache.setHandler (lib : Lib) (c : Cache) (key : String) (item : item) (expiration : Int)
    (tags : List String) : Handler World := fun s w =>
  match c.write lib s key item.toValue expiration tags w with
  | (err, w1) => some ((false, err), w1)

/-- Go `Cache.set`: the item is built once, with the clock read once, and written through the
loop with the same handler for both tiers. -/
def Cache.set (lib : Lib) (c : Cache) (key : String) (v : Value) (expiration : Int)
    (tags : List String) (w : World) : Option (LoopOut World) :=
  c.Loop
    (c.setHandler lib key { Key := key, Val := v, Created := w.now, Expires := expiration }
      expiration tags)
    none w

/-- Go `Cache.Set`. -/
def Cache.Set (lib : Lib) (c : Cache) (key : String) (v : Value) (expiration : Int)
    (tags : List String) (w : World) : Option (LoopOut World) :=
  c.set lib key v expiration tags w

/-- The body of the handler of `Cache.del`: the keys in order, stopping at the first error. -/
def Cache.delKeys (lib : Lib) (c : Cache) (s : Storage) : List String → World →
    Option Error × World
  | [], w => (none, w)
  | key :: rest, w =>
    match Storage.Delete s (c.NsKey key) w with
    | (some err, w1) => (some err, w1)
    | (none, w1) =>
      match c.tagger.UnTag lib s key [] w1 with
      | (some err, w2) => (some err, w2)
      | (none, w2) => Cache.delKeys lib c s rest w2

/-- The handler of `Cache.del`: delete and untag the keys, never terminate. -/
def Cache.delHandler (lib : Lib) (c : Cache) (keys : List String) : Handler World := fun s w =>
  match c.delKeys lib s keys w with
  | (err, w1) => some ((false, err), w1)

/-- Go `Cache.del`. -/
def Cache.del (lib : Lib) (c : Cache) (keys : List String) (w : World) :
    Option (LoopOut World) :=
  c.Loop (c.delHandler lib keys) none w

/-- Go `Cache.Del`. -/
def Cache.Del (lib : Lib) (c : Cache) (keys : List String) (w : World) :
    Option (LoopOut World) :=
  c.del lib keys w

/-- The type switch of `Cache.read`: the stored item, or what `json.Unmarshal` makes of a
string or byte value, or the zero item. -/
def readItem (lib : Lib) : Value → item
  | .item k v cr ex => { Key := k, Val := v, Created := cr, Expires := ex }
  | .str x => lib.unmarshalItem x
  | .bytes x => lib.unmarshalItem x
  | _ => item.zero

/-- Go `Cache.read`: the item pointer (`none` is the nil pointer) and the error. For an
expired item the result is a nil pointer together with the error of `c.del(c.NsKey(key))`. -/
def Cache.read (lib : Lib) (c : Cache) (s : Storage) (key : String) (w : World) :
    Option ((Option item × Option Error) × World) :=
  match Storage.Read s (c.NsKey key) w with
  | ((_, some err), w1) => some ((none, some err), w1)
  | ((v, none), w1) =>
    if (readItem lib v).expired w1.now then
      match c.del lib [c.NsKey key] w1 with
      | none => none
      | some r => some ((none, r.e), r.state)
    else some ((some (readItem lib v), none), w1)

/-- The variables the handlers of `Cache.get` close over: the world, the propagation
candidates `p`, the found item `it`, the storage `w` it was found in, and the content of the
caller's `out`. -/
structure GetState where
  world : World
  p : List Storage
  it : Option item
  w : Option Storage
  out : Value

/-- The high-priority handler of `Cache.get`. Dereferencing the nil item that `read` returns
with a nil error is a panic. -/
def Cache.getHigh (lib : Lib) (c : Cache) (key : String) : Handler GetState := fun s st =>
  match c.read lib s key st.world with
  | none => none
  | some ((_, some err), w1) =>
    some ((false, some err),
      { st with world := w1, p := if err = .keyNotExist then st.p ++ [s] else st.p })
  | some ((none, none), _) => none
  | some ((some item, none), w1) =>
    match lib.Decode item.Val st.out with
    | (some err, out1) =>
      some ((false, some err), { st with world := w1, it := some item, w := some s, out := out1 })
    | (none, out1) =>
      some ((true, none), { st with world := w1, it := some item, w := some s, out := out1 })

/-- The medium-priority handler of `Cache.get`: as the high one, without recording
propagation candidates. -/
def Cache.getMedium (lib : Lib) (c : Cache) (key : String) : Handler GetState := fun s st =>
  match c.read lib s key st.world with
  | none => none
  | some ((_, some err), w1) => some ((false, some err), { st with world := w1 })
  | some ((none, none), _) => none
  | some ((some item, none), w1) =>
    match lib.Decode item.Val st.out with
    | (some err, out1) =>
      some ((false, some err), { st with world := w1, it := some item, w := some s, out := out1 })
    | (none, out1) =>
      some ((true, none), { st with world := w1, it := some item, w := some s, out := out1 })

/-- Go `Cache.propagate` for the single key `Cache.get` passes: the tags of the key are read
from `s2` (a nil `s2` is a panic), and the value is set in a new cache over `s1` with the
remaining time to live; the result of that `Set` is dropped. -/
def Cache.propagate (lib : Lib) (c : Cache) (s1 : Storage) (s2 : Option Storage) (it : item)
    (key : String) (w : World) : Option (Option Error × World) :=
  match s2 with
  | none => none
  | some s2 =>
    match c.tagger.Tags lib s2 key w with
    | ((_, some err), w1) => some (some err, w1)
    | ((tags, none), w1) =>
      match (New [WithStorage [s1], WithNamespace c.ns]).Set lib key it.Val
          (it.Expires - (w1.now - it.Created)) tags w1 with
      | none => none
      | some r => some (none, r.state)

/-- The `for` over the propagation candidates at the end of `Cache.get`; the error of
`propagate` is dropped. -/
def Cache.propagateAll (lib : Lib) (c : Cache) (s2 : Option Storage) (it : item)
    (key : String) : List Storage → World → Option World
  | [], w => some w
  | s :: rest, w =>
    match c.propagate lib s s2 it key w with
    | none => none
    | some (_, w1) => Cache.propagateAll lib c s2 it key rest w1

/-- Result of `Cache.Get`: the returned error, the content of `out`, the world, and the
handler invocations of the loop. -/
structure GetOut where
  e : Option Error
  out : Value
  world : World
  calls : List Call

/-- Go `Cache.get`: the loop with the two handlers, then the propagation of a found item into
the candidates; the error of the loop is returned. -/
def Cache.get (lib : Lib) (c : Cache) (key : String) (out : Value) (w : World) :
    Option GetOut :=
  match c.Loop (c.getHigh lib key) (some (c.getMedium lib key)) ⟨w, [], none, none, out⟩ with
  | none => none
  | some r =>
    match r.state.it with
    | none => some ⟨r.e, r.state.out, r.state.world, r.calls⟩
    | some it =>
      match c.propagateAll lib r.state.w it key r.state.p r.state.world with
      | none => none
      | some w1 => some ⟨r.e, r.state.out, w1, r.calls⟩

/-- Go `Cache.Get`. -/
def Cache.Get (lib : Lib) (c : Cache) (key : String) (out : Value) (w : World) :
    Option GetOut :=
  c.get lib key out w

/-! ## further cache operations (`cache.go`): `Extend`, `ByTag`, `DelByTag` -/

/-- The handler of `Cache.Extend`: the value is read under the namespaced key, asserted to be
an `item` (anything else is a panic), re-stamped, and written under the key as given. -/
def Cache.extendHandler (c : Cache) (key : String) (expiration : Int) : Handler World :=
  fun s w =>
    match Storage.Read s (c.NsKey key) w with
    | ((_, some err), w1) => some ((false, some err), w1)
    | ((.item k v _ _, none), w1) =>
      match Storage.Write s key (.item k v w1.now expiration) expiration w1 with
      | (err, w2) => some ((false, err), w2)
    | ((_, none), _) => none

/-- Go `Cache.Extend`. -/
def Cache.Extend (c : Cache) (key : String) (expiration : Int) (w : World) :
    Option (LoopOut World) :=
  c.Loop (c.extendHandler key expiration) none w

/-- Go `Cache.item`: the stored item, or what `json.Unmarshal` makes of a byte or string
value, or what `mapstructure.Decode` makes of any other value (of a nil value: nothing, the
zero item is returned). -/
def Cache.item (lib : Lib) (_c : Cache) : Value → item
  | .item k v cr ex => { Key := k, Val := v, Created := cr, Expires := ex }
  | .bytes x => lib.unmarshalItem x
  | .str x => lib.unmarshalItem x
  | .nil => item.zero
  | v => lib.decodeItem v

/-- The `for` over the keys in the handler of `Cache.ByTag`: each key is read, and the value
of its item is appended to `output` unless it is nil. The read errors are collected in a
variable that is not used afterwards. -/
def Cache.byTagRead (lib : Lib) (c : Cache) (s : Storage) :
    List String → List Value → World → List Value × World
  | [], output, w => (output, w)
  | key :: rest, output, w =>
    match Storage.Read s (c.NsKey key) w with
    | ((v, _), w1) =>
      Cache.byTagRead lib c s rest
        (if (c.item lib v).Val ≠ .nil then output ++ [(c.item lib v).Val] else output) w1

/-- The variables the handler of `Cache.ByTag` closes over: the world and the content of the
caller's `out`. -/
structure ByTagState where
  world : World
  out : Value

/-- The call `mapstructure.Decode(output, out)` of `Cache.ByTag`: the error, and what the
caller's `out` holds afterwards. For a nil `out` the target is a fresh empty slice that the
caller does not see. -/
def byTagDecode (lib : Lib) (output : List Value) (out : Value) : Option Error × Value :=
  if out = .nil then (lib.DecodeSliceNil output, out) else lib.DecodeSlice output out

/-- The handler of `Cache.ByTag`: look the keys of the tag up, read them, decode the values
found into `out`, and signal terminate together with the error of the decoding. -/
def Cache.byTagHandler (lib : Lib) (c : Cache) (tag : String) : Handler ByTagState :=
  fun s st =>
    match c.tagger.Keys lib s tag st.world with
    | ((_, some err), w1) => some ((false, some err), { st with world := w1 })
    | ((keys, none), w1) =>
      match c.byTagRead lib s keys [] w1 with
      | (output, w2) =>
        match byTagDecode lib output st.out with
        | (err, out1) => some ((true, err), { world := w2, out := out1 })

/-- Result of `Cache.ByTag`: the returned error, the content of `out`, the world, and the
handler invocations of the loop. -/
structure ByTagOut where
  e : Option Error
  out : Value
  world : World
  calls : List Call

/-- Go `Cache.ByTag`. -/
def Cache.ByTag (lib : Lib) (c : Cache) (tag : String) (out : Value) (w : World) :
    Option ByTagOut :=
  match c.Loop (c.byTagHandler lib tag) none ⟨w, out⟩ with
  | none => none
  | some r => some ⟨r.e, r.state.out, r.state.world, r.calls⟩

/-- The `for` over the tags in the handler of `Cache.DelByTag`: the keys of each tag are
looked up in the storage at hand and deleted, through `Cache.Del`, from every storage of the
cache; the first error stops the handler. -/
def Cache.delByTagTags (lib : Lib) (c : Cache) (s : Storage) :
    List String → World → Option (Option Error × World)
  | [], w => some (none, w)
  | tag :: rest, w =>
    match c.tagger.Keys lib s tag w with
    | ((_, some err), w1) => some (some err, w1)
    | ((keys, none), w1) =>
      match c.Del lib keys w1 with
      | none => none
      | some r =>
        match r.e with
        | some err => some (some err, r.state)
        | none => Cache.delByTagTags lib c s rest r.state

/-- The handler of `Cache.DelByTag`: never terminate. -/
def Cache.delByTagHandler (lib : Lib) (c : Cache) (tags : List String) : Handler World :=
  fun s w =>
    match c.delByTagTags lib s tags w with
    | none => none
    | some (err, w1) => some ((false, err), w1)

/-- Go `Cache.DelByTag`. -/
def Cache.DelByTag (lib : Lib) (c : Cache) (tags : List String) (w : World) :
    Option (LoopOut World) :=
  c.Loop (c.delByTagHandler lib tags) none w

/-! ## statement vocabulary -/

/-- The error `Loop` returns for a list of collected plain errors: `nil` for none, the
aggregate of the list otherwise. -/
def aggregate : List Error → Option Error
  | [] => none
  | errs => some (.multi errs)

/-- The tier and storage of each invocation of a full pass over both tiers. -/
def Cache.fullVisit (c : Cache) : List (Priority × Storage) :=
  (c.storage .PriorityHigh).map (fun s => (Priority.PriorityHigh, s)) ++
    (c.storage .PriorityMedium).map (fun s => (Priority.PriorityMedium, s))

/-- Invokes a handler once on each storage of the list, in order, threading the state and
ignoring what the handler returns. -/
def invokeEach {σ : Type} (h : Handler σ) : List Storage → σ → Option σ
  | [], w => some w
  | s :: rest, w =>
    match h s w with
    | none => none
    | some (_, w') => invokeEach h rest w'

/-- The errors returned by the high-priority invocations of a trace, in order. -/
def highErrors (calls : List Call) : List Error :=
  (calls.filter (fun call => decide (call.prio = .PriorityHigh))).filterMap (fun call => call.err)

/-- Appending the errors of a list to `e`, one `multierror.Append` after the other. -/
def appendAll (e : Option Error) (errs : List Error) : Option Error :=
  errs.foldl (fun acc err => some (Append acc err)) e

/-! ## concrete caches and handlers used to instantiate the theorems -/

/-- A cache with five high-priority and two medium-priority storages. -/
def exCache52 : Cache :=
  New [WithHighPriorityStorage [0, 1, 2, 3, 4], WithMediumPriorityStorage [5, 6]]

/-- A counting handler: it fails on its first two invocations and signals terminate,
without error, on the third. -/
def exTerminateThird : Handler Nat := fun _ n =>
  some ((decide (n = 2), if n < 2 then some (.other "high") else none), n + 1)

/-- A counting handler that always fails with a plain error and never terminates. -/
def exAlwaysFail : Handler Nat := fun s n => some ((false, some (.other (toString s))), n + 1)

/-- A counting handler that never fails and never terminates. -/
def exCount : Handler Nat := fun _ n => some ((false, none), n + 1)

/-- Whether a storage object is an in-memory storage. -/
def StorageState.isInMem : StorageState → Bool
  | .InMem _ _ => true
  | .mock _ _ _ => false

/-- The entry of the `data` map of an in-memory storage (as the tests read it,
`s.(*InMem).data[key]`); nothing for a storage of another kind. -/
def World.data (w : World) (s : Storage) (key : String) : Option Value :=
  match w.heap s with
  | .InMem data _ => data key
  | .mock _ _ _ => none

/-- The entry of the `expire` map of an in-memory storage. -/
def World.expire (w : World) (s : Storage) (key : String) : Option Int :=
  match w.heap s with
  | .InMem _ expire => expire key
  | .mock _ _ _ => none

/-- The error the methods of a storage return whatever the arguments: the `err` field of a
`mock`, nil for an in-memory storage (whose `Write`, `Delete` and `Flush` never fail). -/
def World.storageError (w : World) (s : Storage) : Option Error :=
  match w.heap s with
  | .InMem _ _ => none
  | .mock err _ _ => err

/-- The state after `Write(key, v, d)` on each storage of a list, in order. -/
def writeAll (key : String) (v : Value) (d : Int) (l : List Storage) (w : World) : World :=
  l.foldl (fun w1 s => (Storage.Write s key v d w1).2) w

/-- Stand-ins for the library functions, used at concrete inputs: `Decode` stores the
input in `out` and succeeds, except on the string `"undecodable"`, on which it fails and
leaves `out` as it is; the JSON and cast functions find nothing; `DecodeSlice` decodes a list
of strings into a `[]string` and fails on anything else. -/
def exLib : Lib where
  Decode := fun v out =>
    if v = .str "undecodable" then (some (.other "decode"), out) else (none, v)
  unmarshalItem := fun _ => item.zero
  unmarshalStrings := fun _ => []
  Fields := fun _ => []
  castScalar := fun _ => []
  DecodeSlice := fun output out =>
    if output.all (fun v => match v with | .str _ => true | _ => false) then
      (none, .strs (output.filterMap (fun v => match v with | .str x => some x | _ => none)))
    else (some (.other "decode"), out)
  DecodeSliceNil := fun _ => some (.other "result must be a pointer")
  decodeItem := fun _ => item.zero

/-- A world of empty in-memory storages at instant 0. -/
def exWorld : World := ⟨0, fun _ => InMemory, []⟩

/-- The cache of `TestCache_Set`: two high-priority and four medium-priority storages, with
the namespace `go:test`. -/
def exCache24 : Cache :=
  New [WithHighPriorityStorage [0, 1], WithMediumPriorityStorage [2, 3, 4, 5],
    WithNamespace "go:test"]

/-- A world whose storage 0 is a `mock` failing with an aggregate of two errors; the other
storages are empty in-memory storages. -/
def exWorldAggregate : World :=
  ⟨0, fun s => if s = 0 then .mock (some (.multi [.other "a", .other "b"])) false .nil
               else InMemory, []⟩

/-- A world as in `TestCache_SetPriorityError` and `TestCache_SetMediumStorageError`:
storages 1 and 3 are `mock`s failing with `some error`, the others are empty in-memory
storages. -/
def exWorldFailing : World :=
  ⟨0, fun s => if s = 1 ∨ s = 3 then .mock (some (.other "some error")) false .nil
               else InMemory, []⟩

/-- What `s.Read(key)` returns in a world (the value and the error). -/
def World.readResult (w : World) (s : Storage) (key : String) : Value × Option Error :=
  ((w.heap s).Read w.now key).1

/-- The state after `Read(key)` on each storage of a list, in order. -/
def readAll (key : String) (l : List Storage) (w : World) : World :=
  l.foldl (fun w1 s => (Storage.Read s key w1).2) w

/-- A storage that does not return an expired item for the key: its `Read` reports an error
or returns a value that `Cache.read` does not find expired. -/
def World.regular (lib : Lib) (w : World) (s : Storage) (key : String) : Prop :=
  ∀ v, w.readResult s key = (v, none) → (readItem lib v).expired w.now = false

/-- What a handler of `Cache.get` returns on a storage whose `Read` returned `rr` and that
holds no expired item, when `out` holds `o`: the read error, or the decode error, or
terminate. -/
def getOutcome (lib : Lib) (rr : Value × Option Error) (o : Value) : Bool × Option Error :=
  match rr with
  | (_, some err) => (false, some err)
  | (v, none) =>
    match lib.Decode (readItem lib v).Val o with
    | (some err, _) => (false, some err)
    | (none, _) => (true, none)

/-- The facts about the variables of `Cache.get` that hold throughout its loop when no
storage returns an expired item: reads return what they returned in the initial world `w0`,
the clock has not moved, and a found item comes with the storage it was found in. -/
def GetInv (w0 : World) (st : GetState) : Prop :=
  (∀ r k, st.world.readResult r k = w0.readResult r k) ∧ st.world.now = w0.now ∧
    (st.it.isSome = true → st.w.isSome = true)

/-- A world at instant 0 in which every storage is an in-memory storage holding, under
`go:cache:k`, a non-expiring item whose value `exLib` cannot decode. -/
def exWorldUndecodable : World :=
  ⟨0, fun _ => .InMem (mapSet (fun _ => none) "go:cache:k" (.item "k" (.str "undecodable") 0 0))
    (fun _ => none), []⟩

/-- The state of an optional loop result, or the given world after a panic. -/
def stateOr (r : Option (LoopOut World)) (w : World) : World :=
  match r with
  | some out => out.state
  | none => w

/-- A cache over the single storage 0, as `New(WithStorage(InMemory()))`. -/
def exSingle : Cache := New [WithStorage [0]]

/-- The single in-memory storage after `Set("k", 1, 1ns)` at instant 0, seen at instant 5. -/
def exWorldStale : World :=
  { stateOr (exSingle.Set exLib "k" (.int 1) 1 [] exWorld) exWorld with now := 5 }

/-- The same storage after a following `Set("k", 2, 0)` at instant 5. -/
def exWorldReset : World := stateOr (exSingle.Set exLib "k" (.int 2) 0 [] exWorldStale) exWorld

/-- The cache of the tier-fallback property: high tier `[A, B] = [0, 1]`, medium tier
`[C] = [2]`. -/
def exTiers : Cache :=
  New [WithHighPriorityStorage [0, 1], WithMediumPriorityStorage [2], WithNamespace "go:test"]

/-- Three in-memory storages where only `C` holds the key: `Set("key1", 12345, 0)` was made
at instant 0 through a cache over `C` alone; seen at instant 1. -/
def exWorldOnlyC : World :=
  { stateOr ((New [WithStorage [2], WithNamespace "go:test"]).Set exLib "key1" (.int 12345) 0 []
      exWorld) exWorld with now := 1 }

/-- The storage calls made between two worlds all satisfy `P`: the log of the second world
extends the log of the first by events satisfying `P`. -/
def World.logExt (P : Event → Prop) (w w' : World) : Prop :=
  ∃ evs, w'.log = w.log ++ evs ∧ ∀ ev ∈ evs, P ev

/-! ## the tag index: vocabulary and concrete states -/

/-- The entry a tagger keeps for the tag list of a key, in the `data` map of an in-memory
storage. -/
def World.tagList (w : World) (t : std) (s : Storage) (key : String) : Option Value :=
  w.data s (t.nsKey ("key:" ++ key ++ ":tags"))

/-- The entry a tagger keeps for the key-set of a tag, in the `data` map of an in-memory
storage. -/
def World.keySet (w : World) (t : std) (s : Storage) (tag : String) : Option Value :=
  w.data s (t.nsKey ("tag:" ++ tag ++ ":keys"))

/-- The default tagger of `New`. -/
def exTagger : std := newStdTagger "go:cache:tagger"

/-- A cache over the single storage 0 with the namespace `go:test` (and the default
tagger). -/
def exTest : Cache := New [WithStorage [0], WithNamespace "go:test"]

/-- An empty in-memory storage after `Tag(s, "key2", "t")` and then `Tag(s, "key1", "t")`. -/
def exWorldDescending : World :=
  (exTagger.Tag exLib 0 "key1" ["t"] (exTagger.Tag exLib 0 "key2" ["t"] exWorld).2).2

/-- An empty in-memory storage after `Tag(s, "k", "a")` and then `Tag(s, "k", "a", "b")`. -/
def exWorldOverlap : World :=
  (exTagger.Tag exLib 0 "k" ["a", "b"] (exTagger.Tag exLib 0 "k" ["a"] exWorld).2).2

/-- An empty in-memory storage after `Tag(s, "k", "a", "a")`. -/
def exWorldRepeat : World := (exTagger.Tag exLib 0 "k" ["a", "a"] exWorld).2

/-- An empty in-memory storage after `Tag(s, "k", "a", "b")`. -/
def exWorldTwoTags : World := (exTagger.Tag exLib 0 "k" ["a", "b"] exWorld).2

/-- An empty in-memory storage after `Tag(s, "a", "t")` and then `Tag(s, "c", "t")`: the
key-set of `t` is the sorted list `["a", "c"]`. -/
def exWorldAC : World :=
  (exTagger.Tag exLib 0 "c" ["t"] (exTagger.Tag exLib 0 "a" ["t"] exWorld).2).2

/-- The single storage of `exTest` after `Set("a", 1, 0, "t")` and then
`Set("k", 2, 0, "t", "t")`. -/
def exWorldSetRepeat : World :=
  stateOr (exTest.Set exLib "k" (.int 2) 0 ["t", "t"]
    (stateOr (exTest.Set exLib "a" (.int 1) 0 ["t"] exWorld) exWorld)) exWorld

/-- The single storage of `exTest` after `Set("key2", 2, 0, "t")` and then
`Set("key1", 1, 0, "t")`. -/
def exWorldSetDescending : World :=
  stateOr (exTest.Set exLib "key1" (.int 1) 0 ["t"]
    (stateOr (exTest.Set exLib "key2" (.int 2) 0 ["t"] exWorld) exWorld)) exWorld

/-- The single storage of `exTest` after `Set("key2", "acbd", 60s)` at instant 0, seen at
instant 7. -/
def exWorldMinute : World :=
  { stateOr (exTest.Set exLib "key2" (.str "acbd") 60000000000 [] exWorld) exWorld with now := 7 }

/-- What `ByTag` collects for a member of a key-set in a storage: the value of the item that
`Cache.item` makes of what `Read` returns for the namespaced key, unless that value is nil. -/
def Cache.taggedValue (lib : Lib) (c : Cache) (w : World) (s : Storage) (key : String) :
    Option Value :=
  if (c.item lib (w.readResult s (c.NsKey key)).1).Val = .nil then none
  else some (c.item lib (w.readResult s (c.NsKey key)).1).Val

/-- The single storage of `exTest` after `Set("key1", "v1", 0, "t")`, `Set("key2", nil, 0, "t")`
and `Set("key3", "v3", 0, "t")`, followed by a direct `Delete` of the value of `key1`. -/
def exWorldTagged : World :=
  (Storage.Delete 0 "go:test:key1"
    (stateOr (exTest.Set exLib "key3" (.str "v3") 0 ["t"]
      (stateOr (exTest.Set exLib "key2" .nil 0 ["t"]
        (stateOr (exTest.Set exLib "key1" (.str "v1") 0 ["t"] exWorld) exWorld)) exWorld))
      exWorld)).2

/-! ## states made by the tagger and the cache -/

/-- The states reachable from empty in-memory storages through the tagger `t` and through
caches that use it: `Tag` and `UnTag` on any storage, `Set` and `Del` of any cache whose
tagger is `t`, and the passing of time between calls. -/
inductive Reachable (lib : Lib) (t : std) : World → Prop
  | empty (w : World) (h : ∀ r, w.heap r = InMemory) : Reachable lib t w
  | tick (w : World) (now : Int) (h : Reachable lib t w) : Reachable lib t { w with now := now }
  | tag (w : World) (s : Storage) (key : String) (tags : List String)
      (h : Reachable lib t w) : Reachable lib t (t.Tag lib s key tags w).2
  | untag (w : World) (s : Storage) (key : String) (tags : List String)
      (h : Reachable lib t w) : Reachable lib t (t.UnTag lib s key tags w).2
  | set (w : World) (c : Cache) (key : String) (v : Value) (expiration : Int)
      (tags : List String) (r : LoopOut World) (hc : c.tagger = t) (h : Reachable lib t w)
      (hr : c.Set lib key v expiration tags w = some r) : Reachable lib t r.state
  | del (w : World) (c : Cache) (keys : List String) (r : LoopOut World) (hc : c.tagger = t)
      (h : Reachable lib t w) (hr : c.Del lib keys w = some r) : Reachable lib t r.state

/-- What the entry of a key-set holds in a reachable state: a strictly ascending `[]string`
written by the tagger, or an `item` written by `Set` under a cache key that coincides with
the key of the entry. -/
def keySetOK : Value → Prop
  | .strs l => l.Pairwise (· < ·)
  | .item _ _ _ _ => True
  | _ => False

/-- Facts that hold in every reachable state: every storage is an in-memory storage, an
expiry entry comes with a data entry, and every key-set entry is as `keySetOK` says. -/
structure TagInv (t : std) (w : World) : Prop where
  inMem : ∀ r, (w.heap r).isInMem = true
  expire_data : ∀ r k, w.data r k = none → w.expire r k = none
  keySets : ∀ r tag v, w.keySet t r tag = some v → keySetOK v

/-- The in-memory storage `s` holds `v` under `k`, and a `Read` at the present instant
returns it: the expiry entry of `k`, if any, is not past. -/
def World.Holds (w : World) (s : Storage) (k : String) (v : Value) : Prop :=
  (w.heap s).isInMem = true ∧ w.data s k = some v ∧ ∀ e, w.expire s k = some e → ¬ e < w.now

/-- The in-memory storage `s` holds, for the tag, a strictly ascending key-set that contains
the key, and a `Read` at the present instant returns it. -/
def World.HoldsKeyOf (w : World) (t : std) (s : Storage) (tag key : String) : Prop :=
  ∃ r, w.Holds s (t.nsKey ("tag:" ++ tag ++ ":keys")) (.strs r) ∧ r.Pairwise (· < ·) ∧ key ∈ r

/-! ## expiry and persisted representations: concrete states -/

/-- An in-memory storage after `Write("k", 1, 1ns)` at instant 0 and `Write("k", 2, 0)` at
instant 5. -/
def exStaleStorage : StorageState :=
  ((InMem.Write (fun _ => none) (fun _ => none) 0 "k" (.int 1) 1).2.Write 5 "k" (.int 2) 0).2

/-- A world at instant 5 in which every storage is an in-memory storage that holds, under
`go:cache:k`, an item created at instant 0 with `Expires = 1ns`, and has no expiry entry
for that key: a storage whose `Read` returns an expired item. -/
def exWorldExpired : World :=
  ⟨5, fun _ => .InMem (mapSet (fun _ => none) "go:cache:k" (.item "k" (.int 1) 0 1))
    (fun _ => none), []⟩

/-- Stand-ins for the library functions on the texts used below: `strings.Fields` splits
`"a b"` at its blank and leaves a text without white space in one piece; `json.Unmarshal`
decodes the JSON text of the list `["a", "b"]` and leaves the slice nil on a text that is not
JSON; `cast.ToStringSlice` makes a one-element list of the text of a `[]byte`. -/
def exLibText : Lib where
  Decode := fun v _ => (none, v)
  unmarshalItem := fun _ => item.zero
  unmarshalStrings := fun x => if x = "[\"a\",\"b\"]" then ["a", "b"] else []
  Fields := fun x => if x = "a b" then ["a", "b"] else [x]
  castScalar := fun v => match v with
    | .bytes b => [b]
    | _ => []
  DecodeSlice := fun _ out => (none, out)
  DecodeSliceNil := fun _ => none
  decodeItem := fun _ => item.zero

/-- A world in which every storage is a test double whose `Read` returns `v` with no
error. -/
def exWorldReturning (v : Value) : World := ⟨0, fun _ => .mock none false v, []⟩

/-- A counting handler that, on storage 2, returns terminate = true together with an error,
and on every other storage neither fails nor terminates. -/
def exTerminateWithError : Handler Nat := fun s n =>
  some ((decide (s = 2), if s = 2 then some (.other "boom") else none), n + 1)

/-- A cache over the two high-priority storages 0 and 1, with the namespace `go:test`. -/
def exTwoHigh : Cache := New [WithStorage [0, 1], WithNamespace "go:test"]

/-- The two storages of `exTwoHigh` after `Set("key1", 1, 0, "t")`. -/
def exWorldIntTagged : World :=
  stateOr (exTwoHigh.Set exLib "key1" (.int 1) 0 ["t"] exWorld) exWorld

/-! ## what `Get` writes: vocabulary -/

/-- Whether a storage call is a `Read`. -/
def Op.isRead : Op → Bool
  | .Read _ => true
  | _ => false

/-- Whether a storage call is a `Write`. -/
def Op.isWrite : Op → Bool
  | .Write _ _ _ => true
  | _ => false

/-- The storages of a list whose `Read` of the key reports `ErrKeyNotExist` in a world. -/
def missing (w : World) (k : String) (l : List Storage) : List Storage :=
  l.filter (fun s => decide ((w.readResult s k).2 = some .keyNotExist))

/-- The storages of the high-priority invocations of a trace, in order. -/
def highVisited (calls : List Call) : List Storage :=
  (calls.filter (fun call => decide (call.prio = .PriorityHigh))).map (fun call => call.storage)

/-- The candidates of the promotion at the end of `Cache.get`, in order, each with the world
in which its call of `propagate` starts. -/
def Cache.propagateStarts (lib : Lib) (c : Cache) (s2 : Option Storage) (it : GoCache.item)
    (key : String) : List Storage → World → List (Storage × World)
  | [], _ => []
  | s :: rest, w =>
    (s, w) ::
      match c.propagate lib s s2 it key w with
      | none => []
      | some (_, w1) => Cache.propagateStarts lib c s2 it key rest w1

/-- A cache over the two high-priority storages 0 and 1, with the default namespace. -/
def exTwoHighDefault : Cache := New [WithStorage [0, 1]]

/-- A world at instant 0 in which storage 0 holds, under `go:cache:k`, a non-expiring item
whose value `exLib` cannot decode, and every other storage is an empty in-memory storage. -/
def exWorldUndecodableFirst : World :=
  ⟨0, fun s =>
    if s = 0 then
      .InMem (mapSet (fun _ => none) "go:cache:k" (.item "k" (.str "undecodable") 0 0))
        (fun _ => none)
    else InMemory, []⟩

/-- Whether the key `k` begins with the string `p`. -/
def beginsWith (p k : String) : Bool := p.data.isPrefixOf k.data

/-- Whether the key that a storage call passes satisfies `q`; `Flush` and `Close` pass no
key. -/
def Op.keyAll (q : String → Bool) : Op → Bool
  | .Read k => q k
  | .Write k _ _ => q k
  | .Delete k => q k
  | .Flush => true
  | .Close => true

/-- Whether a key begins with the namespace of the cache and `:`, or with the namespace of
its tagger and `:`. -/
def Cache.ownKey (c : Cache) (k : String) : Bool :=
  beginsWith (c.ns ++ ":") k || beginsWith (c.tagger.ns ++ ":") k

/-! ## sequences of calls on an in-memory storage; the Redis storage and `Cache.Flush` -/

/-- A call of one of the four methods of `InMem`, with its arguments. -/
inductive InMemCall
  | Write (key : String) (v : Value) (d : Int)
  | Read (key : String)
  | Delete (key : String)
  | Flush
deriving DecidableEq, Repr

/-- The state of a storage object after one call made at the instant `now`. -/
def StorageState.after (st : StorageState) (now : Int) : InMemCall → StorageState
  | .Write key v d => (st.Write now key v d).2
  | .Read key => (st.Read now key).2
  | .Delete key => (st.Delete key).2
  | .Flush => st.Flush.2

/-- The state of a storage object after a sequence of calls, each made at its own instant. -/
def StorageState.afterAll (st : StorageState) (calls : List (Int × InMemCall)) : StorageState :=
  calls.foldl (fun st1 call => st1.after call.1 call.2) st

/-- Every key with an entry in the expiry map of an in-memory storage has an entry in its
data map. -/
def StorageState.expireWithinData : StorageState → Prop
  | .InMem data expire => ∀ k e, expire k = some e → ∃ v, data k = some v
  | .mock _ _ _ => False

/-- The struct `redis` of `redis.go`; the client is a handle. -/
structure redis where
  client : Nat
deriving DecidableEq, Repr

/-- Go `redis.Flush`, whose body is `return r.Flush()`: a call returns what the call it
makes returns. The number bounds the depth of the calls; `none` says that no result was
reached within the bound. -/
def redis.Flush (r : redis) : Nat → Option (Option Error)
  | 0 => none
  | fuel + 1 => redis.Flush r fuel

/-- Go `s.Flush()` on a storage reference, where `rs` tells which references denote a Redis
storage; the other references denote the storage objects of the world. -/
def Storage.FlushOf (rs : Storage → Option redis) (fuel : Nat) (s : Storage) (w : World) :
    Option (Option Error × World) :=
  match rs s with
  | some r => (r.Flush fuel).map (fun err => (err, w.record s .Flush))
  | none => some (Storage.Flush s w)

/-- The handler of `Cache.Flush`: `return false, s.Flush()`. -/
def Cache.flushHandler (rs : Storage → Option redis) (fuel : Nat) : Handler World :=
  fun s w =>
    match Storage.FlushOf rs fuel s w with
    | none => none
    | some (err, w1) => some ((false, err), w1)

/-- Go `Cache.Flush`. -/
def Cache.Flush (c : Cache) (rs : Storage → Option redis) (fuel : Nat) (w : World) :
    Option (LoopOut World) :=
  c.Loop (Cache.flushHandler rs fuel) none w

/-- The references of a cache over an in-memory storage 0 and a Redis storage 1. -/
def exRedisAt : Storage → Option redis := fun s => if s = 1 then some ⟨0⟩ else none

/-- The stored item value of a member of a key-set, as the specification of `ByTag` has it,
for what the storage returned for the member: nothing when the storage returned nil (as for
a missing key); the value of a stored `item`; the value of the item that the JSON text in a
string or `[]byte` encodes (what the Redis and Memcached storages return); the value of the
item that any other stored value decodes to; and nothing when that value is nil. -/
def storedItemValue (lib : Lib) : Value → Option Value
  | .nil => none
  | .item _ v _ _ => if v = .nil then none else some v
  | .str x => if (lib.unmarshalItem x).Val = .nil then none else some (lib.unmarshalItem x).Val
  | .bytes x => if (lib.unmarshalItem x).Val = .nil then none else some (lib.unmarshalItem x).Val
  | .int n => if (lib.decodeItem (.int n)).Val = .nil then none
    else some (lib.decodeItem (.int n)).Val
  | .bool b => if (lib.decodeItem (.bool b)).Val = .nil then none
    else some (lib.decodeItem (.bool b)).Val
  | .strs l => if (lib.decodeItem (.strs l)).Val = .nil then none
    else some (lib.decodeItem (.strs l)).Val

/-- The library stand-in `exLib` with a `json.Unmarshal` that decodes the JSON text of the
item with key `key4` and value `"v4"`. -/
def exLibItems : Lib :=
  { exLib with
    unmarshalItem := fun x =>
      if x = "\x7b\"key\":\"key4\",\"val\":\"v4\"\x7d" then ⟨"key4", .str "v4", 0, 0⟩
      else item.zero }

/-- The storage of `exWorldTagged` after `key4` was tagged `t` as well and its item was
stored as JSON text, the way the Redis storage returns it. -/
def exWorldTaggedText : World :=
  (Storage.Write 0 "go:test:key4" (.str "\x7b\"key\":\"key4\",\"val\":\"v4\"\x7d") 0
    (exTagger.Tag exLib 0 "key4" ["t"] exWorldTagged).2).2


/-! ## the promotion with the readings of the clock kept apart and `int64` durations -/

/-- The largest `time.Duration`, `1<<63 - 1` nanoseconds. -/
def maxDuration : Int := 9223372036854775807

/-- The smallest `time.Duration`, `-1 << 63` nanoseconds. -/
def minDuration : Int := -9223372036854775808

/-- The `int64` that the result of an `int64` operation wraps to. -/
def wrap64 (x : Int) : Int :=
  (x + 9223372036854775808) % 18446744073709551616 - 9223372036854775808

/-- Go `Time.Sub`: the difference of two instants as a `Duration`, saturated at the largest
and at the smallest `Duration`. -/
def Time.Sub (t u : Int) : Int :=
  if maxDuration < t - u then maxDuration
  else if t - u < minDuration then minDuration
  else t - u

/-- The time to live that `propagate` passes to `Set`,
`it.Expires - (time.Now().Sub(it.Created))`, when its `time.Now()` reads `t1`. -/
def propagateTTL (it : item) (t1 : Int) : Int := wrap64 (it.Expires - Time.Sub t1 it.Created)

/-- Go `Cache.set` when its `time.Now()` reads `t2`; the storage calls of the loop are made
in the world `w`, at the clock of `w`. -/
def Cache.setAt (lib : Lib) (c : Cache) (key : String) (v : Value) (expiration : Int)
    (tags : List String) (t2 : Int) (w : World) : Option (LoopOut World) :=
  c.Loop
    (c.setHandler lib key { Key := key, Val := v, Created := t2, Expires := expiration }
      expiration tags)
    none w

/-- Go `Cache.propagate` for one key, with the readings of the clock kept apart: the lookup
of the tags is made at the clock of `w`, the `time.Now()` of `propagate` reads `t1`, the
`time.Now()` of `set` reads `t2`, and the storage calls of the `Set` are made when the clock
shows `t3`. `Cache.propagate` is the case in which the clock does not move. -/
def Cache.propagateAt (lib : Lib) (c : Cache) (s1 : Storage) (s2 : Option Storage)
    (it : GoCache.item) (key : String) (t1 t2 t3 : Int) (w : World) :
    Option (Option Error × World) :=
  match s2 with
  | none => none
  | some s2 =>
    match c.tagger.Tags lib s2 key w with
    | ((_, some err), w1) => some (some err, w1)
    | ((tags, none), w1) =>
      match (New [WithStorage [s1], WithNamespace c.ns]).setAt lib key it.Val
          (propagateTTL it t1) tags t2 { w1 with now := t3 } with
      | none => none
      | some r => some (none, r.state)


/-! ## the loop: lemmas -/

theorem highPass_total {σ : Type} (high : Handler σ) (hH : ∀ s w, (high s w).isSome = true) :
    ∀ (l : List Storage) (e : Option Error) (w : σ), ∃ p, Loop.highPass high l e w = some p := by
  intro l
  induction l with
  | nil => intro e w; exact ⟨_, rfl⟩
  | cons s rest ih =>
    intro e w
    have h := hH s w
    cases hs : high s w with
    | none => rw [hs] at h; cases h
    | some r =>
      obtain ⟨⟨t, err⟩, w'⟩ := r
      cases err with
      | some err =>
        obtain ⟨p, hp⟩ := ih (some (Append e err)) w'
        simp [Loop.highPass, hs, hp]
      | none =>
        cases t with
        | true => simp [Loop.highPass, hs]
        | false =>
          obtain ⟨p, hp⟩ := ih e w'
          simp [Loop.highPass, hs, hp]

theorem mediumPass_total {σ : Type} (medium : Handler σ)
    (hM : ∀ s w, (medium s w).isSome = true) (e : Option Error) :
    ∀ (l : List Storage) (w : σ), ∃ p, Loop.mediumPass medium e l w = some p := by
  intro l
  induction l with
  | nil => intro w; exact ⟨_, rfl⟩
  | cons s rest ih =>
    intro w
    have h := hM s w
    cases hs : medium s w with
    | none => rw [hs] at h; cases h
    | some r =>
      obtain ⟨⟨t, err⟩, w'⟩ := r
      cases t with
      | true => simp [Loop.mediumPass, hs]
      | false =>
        obtain ⟨p, hp⟩ := ih w'
        simp [Loop.mediumPass, hs, hp]

theorem Loop_total {σ : Type} (c : Cache) (high : Handler σ) (medium : Option (Handler σ))
    (w : σ) (hH : ∀ s w, (high s w).isSome = true)
    (hM : ∀ s w, ((medium.getD high) s w).isSome = true) :
    ∃ out, c.Loop high medium w = some out := by
  obtain ⟨p, hp⟩ := highPass_total high hH (c.storage .PriorityHigh) none w
  by_cases hr : p.returned = true
  · simp [Cache.Loop, hp, hr]
  · obtain ⟨q, hq⟩ := mediumPass_total (medium.getD high) hM p.e (c.storage .PriorityMedium) p.state
    simp [Cache.Loop, hp, hr, hq]

/-- What a high pass that returns a result has done. -/
theorem highPass_spec {σ : Type} (high : Handler σ) :
    ∀ (l : List Storage) (e : Option Error) (w : σ) (p : Pass σ),
      Loop.highPass high l e w = some p →
      (∀ call ∈ p.calls, call.prio = .PriorityHigh) ∧
      (p.returned = true → p.e = none ∧
        (∃ pre s, p.calls = pre ++ [⟨.PriorityHigh, s, true, none⟩]) ∧
        p.calls.map (fun call => call.storage) = l.take p.calls.length) ∧
      (p.returned = false →
        p.calls.map (fun call => call.storage) = l ∧
        p.e = appendAll e (p.calls.filterMap (fun call => call.err))) ∧
      ((∀ call ∈ p.calls, call.terminate = false) → p.returned = false) := by
  intro l
  induction l with
  | nil =>
    intro e w p h
    simp [Loop.highPass] at h
    subst h
    simp [appendAll]
  | cons s rest ih =>
    intro e w p h
    cases hs : high s w with
    | none => simp [Loop.highPass, hs] at h
    | some r =>
      obtain ⟨⟨t, err⟩, w'⟩ := r
      cases err with
      | some err =>
        simp only [Loop.highPass, hs, Option.map_eq_some'] at h
        obtain ⟨q, hq, rfl⟩ := h
        obtain ⟨h1, h2, h3, h4⟩ := ih _ _ _ hq
        refine ⟨?_, ?_, ?_, ?_⟩
        · intro call hc
          simp only [Pass.addCall, List.mem_cons] at hc
          rcases hc with rfl | hc
          · rfl
          · exact h1 call hc
        · intro hr
          obtain ⟨he, ⟨pre, s', hpre⟩, htake⟩ := h2 hr
          refine ⟨he, ⟨⟨.PriorityHigh, s, t, some err⟩ :: pre, s', ?_⟩, ?_⟩
          · simp [Pass.addCall, hpre]
          · simp [Pass.addCall, htake]
        · intro hr
          obtain ⟨hm, he⟩ := h3 hr
          refine ⟨?_, ?_⟩
          · simp [Pass.addCall, hm]
          · simp only [Pass.addCall]
            rw [he]
            simp [appendAll]
        · intro hall
          apply h4
          intro call hc
          exact hall call (by simp [Pass.addCall, hc])
      | none =>
        cases t with
        | true =>
          simp only [Loop.highPass, hs, Option.some.injEq] at h
          subst h
          refine ⟨?_, ?_, ?_, ?_⟩
          · intro call hc
            simp only [List.mem_singleton] at hc
            subst hc
            rfl
          · intro _
            exact ⟨rfl, ⟨[], s, rfl⟩, by simp⟩
          · intro hr
            cases hr
          · intro hall
            have := hall ⟨.PriorityHigh, s, true, none⟩ (by simp)
            cases this
        | false =>
          simp only [Loop.highPass, hs, Option.map_eq_some'] at h
          obtain ⟨q, hq, rfl⟩ := h
          obtain ⟨h1, h2, h3, h4⟩ := ih _ _ _ hq
          refine ⟨?_, ?_, ?_, ?_⟩
          · intro call hc
            simp only [Pass.addCall, List.mem_cons] at hc
            rcases hc with rfl | hc
            · rfl
            · exact h1 call hc
          · intro hr
            obtain ⟨he, ⟨pre, s', hpre⟩, htake⟩ := h2 hr
            refine ⟨he, ⟨⟨.PriorityHigh, s, false, none⟩ :: pre, s', ?_⟩, ?_⟩
            · simp [Pass.addCall, hpre]
            · simp [Pass.addCall, htake]
          · intro hr
            obtain ⟨hm, he⟩ := h3 hr
            refine ⟨?_, ?_⟩
            · simp [Pass.addCall, hm]
            · simp only [Pass.addCall]
              rw [he]
              simp [appendAll]
          · intro hall
            apply h4
            intro call hc
            exact hall call (by simp [Pass.addCall, hc])

/-- What a medium pass that returns a result has done. -/
theorem mediumPass_spec {σ : Type} (medium : Handler σ) (e : Option Error) :
    ∀ (l : List Storage) (w : σ) (q : Pass σ),
      Loop.mediumPass medium e l w = some q →
      (∀ call ∈ q.calls, call.prio = .PriorityMedium) ∧
      (q.returned = true → q.e = none) ∧
      (q.returned = false → q.calls.map (fun call => call.storage) = l ∧ q.e = e) ∧
      ((∀ call ∈ q.calls, call.terminate = false) → q.returned = false) := by
  intro l
  induction l with
  | nil =>
    intro w q h
    simp [Loop.mediumPass] at h
    subst h
    simp
  | cons s rest ih =>
    intro w q h
    cases hs : medium s w with
    | none => simp [Loop.mediumPass, hs] at h
    | some r =>
      obtain ⟨⟨t, err⟩, w'⟩ := r
      cases t with
      | true =>
        simp only [Loop.mediumPass, hs, Option.some.injEq] at h
        subst h
        refine ⟨?_, ?_, ?_, ?_⟩
        · intro call hc
          simp only [List.mem_singleton] at hc
          subst hc
          rfl
        · intro _
          rfl
        · intro hr
          cases hr
        · intro hall
          have := hall ⟨.PriorityMedium, s, true, err⟩ (by simp)
          cases this
      | false =>
        simp only [Loop.mediumPass, hs, Option.map_eq_some'] at h
        obtain ⟨q', hq, rfl⟩ := h
        obtain ⟨h1, h2, h3, h4⟩ := ih _ _ hq
        refine ⟨?_, ?_, ?_, ?_⟩
        · intro call hc
          simp only [Pass.addCall, List.mem_cons] at hc
          rcases hc with rfl | hc
          · rfl
          · exact h1 call hc
        · intro hr
          exact h2 hr
        · intro hr
          obtain ⟨hm, he⟩ := h3 hr
          exact ⟨by simp [Pass.addCall, hm], he⟩
        · intro hall
          apply h4
          intro call hc
          exact hall call (by simp [Pass.addCall, hc])

/-- A high pass that falls through has invoked the handler once on each storage, in order. -/
theorem highPass_invokeEach {σ : Type} (high : Handler σ) :
    ∀ (l : List Storage) (e : Option Error) (w : σ) (p : Pass σ),
      Loop.highPass high l e w = some p → p.returned = false →
      invokeEach high l w = some p.state := by
  intro l
  induction l with
  | nil =>
    intro e w p h _
    simp [Loop.highPass] at h
    subst h
    rfl
  | cons s rest ih =>
    intro e w p h hr
    cases hs : high s w with
    | none => simp [Loop.highPass, hs] at h
    | some r =>
      obtain ⟨⟨t, err⟩, w'⟩ := r
      cases err with
      | some err =>
        simp only [Loop.highPass, hs, Option.map_eq_some'] at h
        obtain ⟨q, hq, rfl⟩ := h
        simpa [invokeEach, hs, Pass.addCall] using ih _ _ _ hq hr
      | none =>
        cases t with
        | true =>
          simp only [Loop.highPass, hs, Option.some.injEq] at h
          subst h
          cases hr
        | false =>
          simp only [Loop.highPass, hs, Option.map_eq_some'] at h
          obtain ⟨q, hq, rfl⟩ := h
          simpa [invokeEach, hs, Pass.addCall] using ih _ _ _ hq hr

/-- A medium pass that falls through has invoked the handler once on each storage, in
order. -/
theorem mediumPass_invokeEach {σ : Type} (medium : Handler σ) (e : Option Error) :
    ∀ (l : List Storage) (w : σ) (q : Pass σ),
      Loop.mediumPass medium e l w = some q → q.returned = false →
      invokeEach medium l w = some q.state := by
  intro l
  induction l with
  | nil =>
    intro w q h _
    simp [Loop.mediumPass] at h
    subst h
    rfl
  | cons s rest ih =>
    intro w q h hr
    cases hs : medium s w with
    | none => simp [Loop.mediumPass, hs] at h
    | some r =>
      obtain ⟨⟨t, err⟩, w'⟩ := r
      cases t with
      | true =>
        simp only [Loop.mediumPass, hs, Option.some.injEq] at h
        subst h
        cases hr
      | false =>
        simp only [Loop.mediumPass, hs, Option.map_eq_some'] at h
        obtain ⟨q', hq, rfl⟩ := h
        simpa [invokeEach, hs, Pass.addCall] using ih _ _ hq hr

/-- A high pass over `pre ++ rest` whose part over `pre` falls through continues over `rest`
with the errors and the state reached. -/
theorem highPass_append {σ : Type} (high : Handler σ) (rest : List Storage) :
    ∀ (pre : List Storage) (e : Option Error) (w : σ) (p : Pass σ),
      Loop.highPass high pre e w = some p → p.returned = false →
      Loop.highPass high (pre ++ rest) e w =
        (Loop.highPass high rest p.e p.state).map
          (fun q => { q with calls := p.calls ++ q.calls }) := by
  intro pre
  induction pre with
  | nil =>
    intro e w p h _
    simp [Loop.highPass] at h
    subst h
    simp
  | cons s pre ih =>
    intro e w p h hr
    cases hs : high s w with
    | none => simp [Loop.highPass, hs] at h
    | some r =>
      obtain ⟨⟨t, err⟩, w'⟩ := r
      cases err with
      | some err =>
        simp only [Loop.highPass, hs, Option.map_eq_some'] at h
        obtain ⟨q, hq, rfl⟩ := h
        have := ih _ _ _ hq hr
        show Loop.highPass high (s :: (pre ++ rest)) e w = _
        rw [Loop.highPass]
        simp only [hs]
        rw [this]
        simp only [Pass.addCall]
        cases Loop.highPass high rest q.e q.state <;> simp [Pass.addCall]
      | none =>
        cases t with
        | true =>
          simp only [Loop.highPass, hs, Option.some.injEq] at h
          subst h
          cases hr
        | false =>
          simp only [Loop.highPass, hs, Option.map_eq_some'] at h
          obtain ⟨q, hq, rfl⟩ := h
          have := ih _ _ _ hq hr
          show Loop.highPass high (s :: (pre ++ rest)) e w = _
          rw [Loop.highPass]
          simp only [hs]
          rw [this]
          simp only [Pass.addCall]
          cases Loop.highPass high rest q.e q.state <;> simp [Pass.addCall]

theorem errorsOf_Append (e : Option Error) (err : Error) :
    errorsOf (some (Append e err)) = errorsOf e ++ err.flatten := by
  cases e with
  | none => simp [Append, errorsOf, Error.flatten]
  | some e0 => cases e0 <;> simp [Append, errorsOf, Error.flatten]

theorem mem_errorsOf_appendAll (x : Error) :
    ∀ (errs : List Error) (e : Option Error),
      x ∈ errorsOf (appendAll e errs) ↔ x ∈ errorsOf e ∨ ∃ err ∈ errs, x ∈ err.flatten := by
  intro errs
  induction errs with
  | nil => intro e; simp [appendAll]
  | cons a rest ih =>
    intro e
    have := ih (some (Append e a))
    simp only [appendAll, List.foldl_cons] at this ⊢
    rw [this, errorsOf_Append]
    simp only [List.mem_append, List.mem_cons, exists_eq_or_imp]
    tauto

theorem appendAll_multi_plain :
    ∀ (errs : List Error) (l : List Error), (∀ x ∈ errs, x.isPlain = true) →
      appendAll (some (.multi l)) errs = some (.multi (l ++ errs)) := by
  intro errs
  induction errs with
  | nil => intro l _; simp [appendAll]
  | cons a rest ih =>
    intro l h
    have ha : a.flatten = [a] := by
      have := h a (by simp)
      cases a <;> simp_all [Error.flatten, Error.isPlain]
    have := ih (l ++ [a]) (fun x hx => h x (by simp [hx]))
    simp only [appendAll, List.foldl_cons, Append, ha] at this ⊢
    rw [this]
    simp

theorem appendAll_none_plain (errs : List Error) (h : ∀ x ∈ errs, x.isPlain = true) :
    appendAll none errs = aggregate errs := by
  cases errs with
  | nil => rfl
  | cons a rest =>
    have ha : a.flatten = [a] := by
      have := h a (by simp)
      cases a <;> simp_all [Error.flatten, Error.isPlain]
    have := appendAll_multi_plain rest [a] (fun x hx => h x (by simp [hx]))
    simp only [appendAll, List.foldl_cons, Append, ha, aggregate] at this ⊢
    rw [this]
    simp

theorem highErrors_append_high_medium (ps qs : List Call)
    (hp : ∀ call ∈ ps, call.prio = .PriorityHigh)
    (hq : ∀ call ∈ qs, call.prio = .PriorityMedium) :
    highErrors (ps ++ qs) = ps.filterMap (fun call => call.err) := by
  have h1 : ps.filter (fun call => decide (call.prio = .PriorityHigh)) = ps := by
    apply List.filter_eq_self.2
    intro a ha
    simp [hp a ha]
  have h2 : qs.filter (fun call => decide (call.prio = .PriorityHigh)) = [] := by
    apply List.filter_eq_nil_iff.2
    intro a ha
    simp [hq a ha]
  simp [highErrors, List.filter_append, h1, h2]

/-- What a loop that returns a result has done. -/
theorem Loop_spec {σ : Type} (c : Cache) (high : Handler σ) (medium : Option (Handler σ))
    (w : σ) (out : LoopOut σ) (h : c.Loop high medium w = some out) :
    (out.e = none ∨ out.e = appendAll none (highErrors out.calls)) ∧
    ((∀ call ∈ out.calls, call.terminate = false) →
      out.calls.map (fun call => (call.prio, call.storage)) = c.fullVisit ∧
      out.e = appendAll none (highErrors out.calls) ∧
      (invokeEach high (c.storage .PriorityHigh) w).bind
        (invokeEach (medium.getD high) (c.storage .PriorityMedium)) = some out.state) := by
  unfold Cache.Loop at h
  simp only at h
  cases hp : Loop.highPass high (c.storage .PriorityHigh) none w with
  | none => simp [hp] at h
  | some p =>
    obtain ⟨p1, p2, p3, p4⟩ := highPass_spec high _ _ _ _ hp
    by_cases hr : p.returned = true
    · simp only [hp, hr, if_true, Option.some.injEq] at h
      subst h
      refine ⟨Or.inl rfl, ?_⟩
      intro hall
      have := p4 hall
      rw [hr] at this
      cases this
    · have hr' : p.returned = false := by simpa using hr
      simp only [hp, hr'] at h
      cases hq : Loop.mediumPass (medium.getD high) p.e (c.storage .PriorityMedium) p.state with
      | none => simp [hq] at h
      | some q =>
        obtain ⟨q1, q2, q3, q4⟩ := mediumPass_spec _ _ _ _ _ hq
        simp only [hq, Bool.false_eq_true, if_false, Option.some.injEq] at h
        subst h
        obtain ⟨pm, pe⟩ := p3 hr'
        have hhe : highErrors (p.calls ++ q.calls) = p.calls.filterMap (fun call => call.err) :=
          highErrors_append_high_medium _ _ p1 q1
        refine ⟨?_, ?_⟩
        · by_cases hqr : q.returned = true
          · exact Or.inl (q2 hqr)
          · have hqr' : q.returned = false := by simpa using hqr
            right
            simp only [hhe]
            rw [(q3 hqr').2, pe]
        · intro hall
          have hqr' : q.returned = false :=
            q4 (fun call hc => hall call (by simp [hc]))
          obtain ⟨qm, qe⟩ := q3 hqr'
          refine ⟨?_, ?_, ?_⟩
          · have hpp : p.calls.map (fun call => (call.prio, call.storage)) =
                (c.storage .PriorityHigh).map (fun s => (Priority.PriorityHigh, s)) := by
              rw [← pm, List.map_map]
              apply List.map_congr_left
              intro a ha
              simp [p1 a ha]
            have hqq : q.calls.map (fun call => (call.prio, call.storage)) =
                (c.storage .PriorityMedium).map (fun s => (Priority.PriorityMedium, s)) := by
              rw [← qm, List.map_map]
              apply List.map_congr_left
              intro a ha
              simp [q1 a ha]
            simp only [List.map_append, Cache.fullVisit, hpp, hqq]
          · simp only [hhe]
            rw [qe, pe]
          · rw [highPass_invokeEach high _ _ _ _ hp hr']
            simpa using mediumPass_invokeEach _ _ _ _ _ hq hqr'

/-! ## the loop: claims -/

/-- C2. If the high handler returns (terminate = true, no error) on a high-priority storage
`s` that the loop reaches (the pass over the storages `pre` registered before `s` falls
through, in state `p.state`, with whatever errors `p.e` it has collected), then `Loop` returns
nil, in the state that invocation left, and the invocations it made are exactly those on
`pre`, in order, followed by the one on `s`: no later high-priority storage and no
medium-priority storage is visited. -/
theorem C2_loop_terminate_returns_nil {σ : Type} (c : Cache) (high : Handler σ)
    (medium : Option (Handler σ)) (w w' : σ) (pre post : List Storage) (s : Storage)
    (p : Pass σ)
    (hc : c.storage .PriorityHigh = pre ++ s :: post)
    (hpre : Loop.highPass high pre none w = some p) (hcont : p.returned = false)
    (hs : high s p.state = some ((true, none), w')) :
    c.Loop high medium w = some ⟨none, w', p.calls ++ [⟨.PriorityHigh, s, true, none⟩]⟩ ∧
    p.calls.map (fun call => call.storage) = pre ∧
    (∀ call ∈ p.calls, call.prio = .PriorityHigh) := by
  obtain ⟨p1, _, p3, _⟩ := highPass_spec high _ _ _ _ hpre
  refine ⟨?_, (p3 hcont).1, p1⟩
  have happ := highPass_append high (s :: post) pre none w p hpre hcont
  unfold Cache.Loop
  simp only [hc, happ, Loop.highPass, hs, Option.map_some']
  simp

/-- C2, instantiated: five high-priority storages, the first two invocations fail and the
third terminates; the two collected errors are discarded and storages 3 to 6 are not
visited. -/
theorem C2_loop_terminate_returns_nil_witness :
    Loop.highPass exTerminateThird [0, 1] none 0 =
      some ⟨false, some (.multi [.other "high", .other "high"]), 2,
        [⟨.PriorityHigh, 0, false, some (.other "high")⟩,
         ⟨.PriorityHigh, 1, false, some (.other "high")⟩]⟩ ∧
    exCache52.Loop exTerminateThird (some exCount) 0 =
      some ⟨none, 3,
        [⟨.PriorityHigh, 0, false, some (.other "high")⟩,
         ⟨.PriorityHigh, 1, false, some (.other "high")⟩] ++
        [⟨.PriorityHigh, 2, true, none⟩]⟩ :=
  ⟨rfl,
    (C2_loop_terminate_returns_nil exCache52 exTerminateThird (some exCount) 0 3 [0, 1] [3, 4] 2
      ⟨false, some (.multi [.other "high", .other "high"]), 2,
        [⟨.PriorityHigh, 0, false, some (.other "high")⟩,
         ⟨.PriorityHigh, 1, false, some (.other "high")⟩]⟩ rfl rfl rfl rfl).1⟩

/-- C3. When the handlers do not panic, `Loop` returns; and if no invocation returned
terminate = true and every error returned by a high-priority invocation is plain, then every
storage of the high tier and then of the medium tier was visited, in registration order, and
the result is nil when no high-priority invocation failed and otherwise the aggregate whose
error list is exactly the errors returned by the high-priority invocations, in order. -/
theorem C3_loop_aggregates_high_errors {σ : Type} (c : Cache) (high : Handler σ)
    (medium : Option (Handler σ)) (w : σ)
    (hH : ∀ s w, (high s w).isSome = true)
    (hM : ∀ s w, ((medium.getD high) s w).isSome = true) :
    ∃ out, c.Loop high medium w = some out ∧
      ((∀ call ∈ out.calls, call.terminate = false) →
       (∀ call ∈ out.calls, call.prio = .PriorityHigh →
          ∀ x, call.err = some x → x.isPlain = true) →
        out.calls.map (fun call => (call.prio, call.storage)) = c.fullVisit ∧
        out.e = aggregate (highErrors out.calls)) := by
  obtain ⟨out, hout⟩ := Loop_total c high medium w hH hM
  refine ⟨out, hout, ?_⟩
  intro hterm hplain
  obtain ⟨_, h2⟩ := Loop_spec c high medium w out hout
  obtain ⟨hv, he, _⟩ := h2 hterm
  refine ⟨hv, ?_⟩
  rw [he]
  apply appendAll_none_plain
  intro x hx
  simp only [highErrors, List.mem_filterMap, List.mem_filter, decide_eq_true_eq] at hx
  obtain ⟨call, ⟨hc, hp⟩, hxe⟩ := hx
  exact hplain call hc hp x hxe

/-- C3, instantiated: five failing high-priority invocations, two medium ones; the result is
the aggregate of the five errors and all seven storages are visited. -/
theorem C3_loop_aggregates_high_errors_witness :
    ∃ out, exCache52.Loop exAlwaysFail (some exCount) 0 = some out ∧
      out.e = some (.multi [.other "0", .other "1", .other "2", .other "3", .other "4"]) ∧
      out.calls.map (fun call => (call.prio, call.storage)) = exCache52.fullVisit := by
  obtain ⟨out, hout, h⟩ :=
    C3_loop_aggregates_high_errors exCache52 exAlwaysFail (some exCount) 0
      (fun _ _ => rfl) (fun _ _ => rfl)
  have hval : exCache52.Loop exAlwaysFail (some exCount) 0 = some
      ⟨some (.multi [.other "0", .other "1", .other "2", .other "3", .other "4"]), 7,
        [⟨.PriorityHigh, 0, false, some (.other "0")⟩, ⟨.PriorityHigh, 1, false, some (.other "1")⟩,
         ⟨.PriorityHigh, 2, false, some (.other "2")⟩, ⟨.PriorityHigh, 3, false, some (.other "3")⟩,
         ⟨.PriorityHigh, 4, false, some (.other "4")⟩, ⟨.PriorityMedium, 5, false, none⟩,
         ⟨.PriorityMedium, 6, false, none⟩]⟩ := rfl
  rw [hval] at hout
  cases hout
  exact ⟨_, hval, rfl, (h (by decide) (by decide)).1⟩

/-- C4. When the handlers do not panic, `Loop` returns; if no high-priority invocation
returned an error the result is nil, whatever the medium-priority invocations returned; and in
every case each error carried by the result was returned by a high-priority invocation (as
the error itself, or as a member of the aggregate it returned, which `multierror.Append`
flattens). -/
theorem C4_loop_medium_errors_never_surface {σ : Type} (c : Cache) (high : Handler σ)
    (medium : Option (Handler σ)) (w : σ)
    (hH : ∀ s w, (high s w).isSome = true)
    (hM : ∀ s w, ((medium.getD high) s w).isSome = true) :
    ∃ out, c.Loop high medium w = some out ∧
      ((∀ call ∈ out.calls, call.prio = .PriorityHigh → call.err = none) → out.e = none) ∧
      (∀ x ∈ errorsOf out.e,
        ∃ call ∈ out.calls, call.prio = .PriorityHigh ∧ x ∈ errorsOf call.err) := by
  obtain ⟨out, hout⟩ := Loop_total c high medium w hH hM
  refine ⟨out, hout, ?_, ?_⟩
  · intro hnone
    rcases (Loop_spec c high medium w out hout).1 with h | h
    · exact h
    · have : highErrors out.calls = [] := by
        simp only [highErrors, List.filterMap_eq_nil_iff, List.mem_filter, decide_eq_true_eq]
        intro call hc
        exact hnone call hc.1 hc.2
      rw [h, this]
      rfl
  · intro x hx
    rcases (Loop_spec c high medium w out hout).1 with h | h
    · rw [h] at hx
      simp [errorsOf] at hx
    · rw [h, mem_errorsOf_appendAll] at hx
      rcases hx with hx | ⟨err, herr, hxe⟩
      · simp [errorsOf] at hx
      · simp only [highErrors, List.mem_filterMap, List.mem_filter, decide_eq_true_eq] at herr
        obtain ⟨call, ⟨hc, hp⟩, hce⟩ := herr
        exact ⟨call, hc, hp, by rw [hce]; exact hxe⟩

/-- C4, instantiated: the high handler never fails and the medium handler always does; the
result is nil. -/
theorem C4_loop_medium_errors_never_surface_witness :
    ∃ out, exCache52.Loop exCount (some exAlwaysFail) 0 = some out ∧ out.e = none ∧
      (∃ call ∈ out.calls, call.prio = .PriorityMedium ∧ call.err = some (.other "5")) := by
  obtain ⟨out, hout, h, _⟩ :=
    C4_loop_medium_errors_never_surface exCache52 exCount (some exAlwaysFail) 0
      (fun _ _ => rfl) (fun _ _ => rfl)
  have hval : exCache52.Loop exCount (some exAlwaysFail) 0 = some
      ⟨none, 7,
        [⟨.PriorityHigh, 0, false, none⟩, ⟨.PriorityHigh, 1, false, none⟩,
         ⟨.PriorityHigh, 2, false, none⟩, ⟨.PriorityHigh, 3, false, none⟩,
         ⟨.PriorityHigh, 4, false, none⟩, ⟨.PriorityMedium, 5, false, some (.other "5")⟩,
         ⟨.PriorityMedium, 6, false, some (.other "6")⟩]⟩ := rfl
  rw [hval] at hout
  cases hout
  exact ⟨_, hval, h (by decide), ⟨.PriorityMedium, 5, false, some (.other "5")⟩, by decide, rfl, rfl⟩

/-- C5. When the handlers do not panic, `Loop` returns; if no invocation returned
terminate = true, the invocations are exactly one per high-priority storage in registration
order followed by one per medium-priority storage in registration order, and the final state
is the one reached by invoking the high handler once on each high-priority storage and then
the medium handler once on each medium-priority storage; and `Loop(high, nil)` is
`Loop(high, high)`. -/
theorem C5_loop_visits_each_storage_once {σ : Type} (c : Cache) (high : Handler σ)
    (medium : Option (Handler σ)) (w : σ)
    (hH : ∀ s w, (high s w).isSome = true)
    (hM : ∀ s w, ((medium.getD high) s w).isSome = true) :
    (∃ out, c.Loop high medium w = some out ∧
      ((∀ call ∈ out.calls, call.terminate = false) →
        out.calls.map (fun call => (call.prio, call.storage)) = c.fullVisit ∧
        (invokeEach high (c.storage .PriorityHigh) w).bind
          (invokeEach (medium.getD high) (c.storage .PriorityMedium)) = some out.state)) ∧
    c.Loop high none w = c.Loop high (some high) w := by
  refine ⟨?_, rfl⟩
  obtain ⟨out, hout⟩ := Loop_total c high medium w hH hM
  refine ⟨out, hout, ?_⟩
  intro hterm
  obtain ⟨hv, _, hs⟩ := (Loop_spec c high medium w out hout).2 hterm
  exact ⟨hv, hs⟩

/-- C5, instantiated: with a nil medium handler the counting handler is invoked seven
times, on storages 0 to 4 and then 5 and 6. -/
theorem C5_loop_visits_each_storage_once_witness :
    ∃ out, exCache52.Loop exCount none 0 = some out ∧ out.state = 7 ∧
      out.calls.map (fun call => (call.prio, call.storage)) =
        [(.PriorityHigh, 0), (.PriorityHigh, 1), (.PriorityHigh, 2), (.PriorityHigh, 3),
         (.PriorityHigh, 4), (.PriorityMedium, 5), (.PriorityMedium, 6)] := by
  obtain ⟨⟨out, hout, h⟩, _⟩ :=
    C5_loop_visits_each_storage_once exCache52 exCount none 0 (fun _ _ => rfl) (fun _ _ => rfl)
  have hval : exCache52.Loop exCount none 0 = some
      ⟨none, 7,
        [⟨.PriorityHigh, 0, false, none⟩, ⟨.PriorityHigh, 1, false, none⟩,
         ⟨.PriorityHigh, 2, false, none⟩, ⟨.PriorityHigh, 3, false, none⟩,
         ⟨.PriorityHigh, 4, false, none⟩, ⟨.PriorityMedium, 5, false, none⟩,
         ⟨.PriorityMedium, 6, false, none⟩]⟩ := rfl
  rw [hval] at hout
  cases hout
  exact ⟨_, hval, rfl, (h (by decide)).1⟩

/-! ## storages: lemmas -/

theorem Write_fst (s : Storage) (key : String) (v : Value) (d : Int) (w : World) :
    (Storage.Write s key v d w).1 = w.storageError s := by
  unfold Storage.Write World.storageError StorageState.Write InMem.Write
  cases w.heap s <;> rfl

theorem Write_now (s : Storage) (key : String) (v : Value) (d : Int) (w : World) :
    (Storage.Write s key v d w).2.now = w.now := rfl

theorem Write_log (s : Storage) (key : String) (v : Value) (d : Int) (w : World) :
    (Storage.Write s key v d w).2.log = w.log ++ [⟨s, .Write key v d⟩] := rfl

theorem Write_heap_ne (s : Storage) (key : String) (v : Value) (d : Int) (w : World)
    (r : Storage) (hr : r ≠ s) : (Storage.Write s key v d w).2.heap r = w.heap r := by
  simp [Storage.Write, World.setStorage, World.record, hr]

theorem Write_heap_self (s : Storage) (key : String) (v : Value) (d : Int) (w : World) :
    (Storage.Write s key v d w).2.heap s = ((w.heap s).Write w.now key v d).2 := by
  simp [Storage.Write, World.setStorage, World.record]

theorem Write_isInMem (s : Storage) (key : String) (v : Value) (d : Int) (w : World)
    (r : Storage) :
    ((Storage.Write s key v d w).2.heap r).isInMem = (w.heap r).isInMem := by
  by_cases hr : r = s
  · subst hr
    rw [Write_heap_self]
    cases h : w.heap r <;> rfl
  · rw [Write_heap_ne _ _ _ _ _ _ hr]

theorem Write_storageError (s : Storage) (key : String) (v : Value) (d : Int) (w : World)
    (r : Storage) :
    (Storage.Write s key v d w).2.storageError r = w.storageError r := by
  unfold World.storageError
  by_cases hr : r = s
  · subst hr
    rw [Write_heap_self]
    cases h : w.heap r <;> rfl
  · rw [Write_heap_ne _ _ _ _ _ _ hr]

theorem Write_data (s : Storage) (key : String) (v : Value) (d : Int) (w : World)
    (r : Storage) (k : String) :
    (Storage.Write s key v d w).2.data r k =
      if r = s ∧ k = key ∧ (w.heap s).isInMem = true then some v else w.data r k := by
  unfold World.data
  by_cases hr : r = s
  · subst hr
    rw [Write_heap_self]
    cases h : w.heap r with
    | InMem data expire =>
      by_cases hk : k = key <;>
        simp [StorageState.Write, InMem.Write, mapSet, StorageState.isInMem, hk]
    | mock err cl val => simp [StorageState.Write, StorageState.isInMem]
  · rw [Write_heap_ne _ _ _ _ _ _ hr]
    simp [hr]

theorem writeAll_now (key : String) (v : Value) (d : Int) :
    ∀ (l : List Storage) (w : World), (writeAll key v d l w).now = w.now := by
  intro l
  induction l with
  | nil => intro w; rfl
  | cons s rest ih =>
    intro w
    simp only [writeAll, List.foldl_cons] at ih ⊢
    rw [ih, Write_now]

theorem writeAll_log (key : String) (v : Value) (d : Int) :
    ∀ (l : List Storage) (w : World),
      (writeAll key v d l w).log = w.log ++ l.map (fun s => ⟨s, .Write key v d⟩) := by
  intro l
  induction l with
  | nil => intro w; simp [writeAll]
  | cons s rest ih =>
    intro w
    simp only [writeAll, List.foldl_cons] at ih ⊢
    rw [ih, Write_log]
    simp

theorem writeAll_isInMem (key : String) (v : Value) (d : Int) (r : Storage) :
    ∀ (l : List Storage) (w : World),
      ((writeAll key v d l w).heap r).isInMem = (w.heap r).isInMem := by
  intro l
  induction l with
  | nil => intro w; rfl
  | cons s rest ih =>
    intro w
    simp only [writeAll, List.foldl_cons] at ih ⊢
    rw [ih, Write_isInMem]

theorem writeAll_storageError (key : String) (v : Value) (d : Int) (r : Storage) :
    ∀ (l : List Storage) (w : World),
      (writeAll key v d l w).storageError r = w.storageError r := by
  intro l
  induction l with
  | nil => intro w; rfl
  | cons s rest ih =>
    intro w
    simp only [writeAll, List.foldl_cons] at ih ⊢
    rw [ih, Write_storageError]

theorem writeAll_data (key : String) (v : Value) (d : Int) (r : Storage) (k : String) :
    ∀ (l : List Storage) (w : World),
      (writeAll key v d l w).data r k =
        if r ∈ l ∧ k = key ∧ (w.heap r).isInMem = true then some v else w.data r k := by
  intro l
  induction l with
  | nil => intro w; simp [writeAll]
  | cons s rest ih =>
    intro w
    simp only [writeAll, List.foldl_cons] at ih ⊢
    rw [ih, Write_data, Write_isInMem]
    by_cases hr : r = s
    · subst hr
      by_cases hk : k = key <;> by_cases hm : (w.heap r).isInMem = true <;> simp [hk, hm]
    · simp [hr]

/-! ## Set without tags: closed form -/

theorem write_no_tags (lib : Lib) (c : Cache) (s : Storage) (key : String) (v : Value)
    (d : Int) (w : World) :
    c.write lib s key v d [] w = Storage.Write s (c.NsKey key) v d w := by
  unfold Cache.write
  rcases h : Storage.Write s (c.NsKey key) v d w with ⟨e, w1⟩
  cases e <;> simp

theorem setHandler_no_tags (lib : Lib) (c : Cache) (key : String) (it : item) (d : Int)
    (s : Storage) (w : World) :
    c.setHandler lib key it d [] s w =
      some ((false, w.storageError s), (Storage.Write s (c.NsKey key) it.toValue d w).2) := by
  unfold Cache.setHandler
  rw [write_no_tags, ← Write_fst s (c.NsKey key) it.toValue d w]

theorem set_highPass (lib : Lib) (c : Cache) (key : String) (it : item) (d : Int) :
    ∀ (l : List Storage) (e : Option Error) (w : World),
      Loop.highPass (c.setHandler lib key it d []) l e w =
        some ⟨false, appendAll e (l.filterMap w.storageError),
          writeAll (c.NsKey key) it.toValue d l w,
          l.map (fun s => ⟨.PriorityHigh, s, false, w.storageError s⟩)⟩ := by
  intro l
  induction l with
  | nil => intro e w; rfl
  | cons s rest ih =>
    intro e w
    have hfun : (Storage.Write s (c.NsKey key) it.toValue d w).2.storageError = w.storageError :=
      funext (Write_storageError s (c.NsKey key) it.toValue d w)
    rw [Loop.highPass]
    simp only [setHandler_no_tags]
    cases hse : w.storageError s with
    | none =>
      simp only [ih, hfun, Option.map_some', Pass.addCall, List.filterMap_cons, hse,
        List.map_cons]
      rfl
    | some err =>
      simp only [ih, hfun, Option.map_some', Pass.addCall, List.filterMap_cons, hse,
        List.map_cons]
      rfl

theorem set_mediumPass (lib : Lib) (c : Cache) (key : String) (it : item) (d : Int)
    (e : Option Error) :
    ∀ (l : List Storage) (w : World),
      Loop.mediumPass (c.setHandler lib key it d []) e l w =
        some ⟨false, e, writeAll (c.NsKey key) it.toValue d l w,
          l.map (fun s => ⟨.PriorityMedium, s, false, w.storageError s⟩)⟩ := by
  intro l
  induction l with
  | nil => intro w; rfl
  | cons s rest ih =>
    intro w
    have hfun : (Storage.Write s (c.NsKey key) it.toValue d w).2.storageError = w.storageError :=
      funext (Write_storageError s (c.NsKey key) it.toValue d w)
    rw [Loop.mediumPass]
    simp only [setHandler_no_tags, ih, hfun, Option.map_some', Pass.addCall, List.map_cons]
    rfl

/-- Go `Set` without tags, in closed form. -/
theorem Set_no_tags (lib : Lib) (c : Cache) (key : String) (v : Value) (d : Int) (w : World) :
    c.Set lib key v d [] w =
      some ⟨appendAll none ((c.storage .PriorityHigh).filterMap w.storageError),
        writeAll (c.NsKey key) (Value.item key v w.now d) d
          (c.storage .PriorityHigh ++ c.storage .PriorityMedium) w,
        (c.storage .PriorityHigh).map (fun s => ⟨.PriorityHigh, s, false, w.storageError s⟩) ++
        (c.storage .PriorityMedium).map
          (fun s => ⟨.PriorityMedium, s, false, w.storageError s⟩)⟩ := by
  have hfun : (writeAll (c.NsKey key) (Value.item key v w.now d) d
      (c.storage .PriorityHigh) w).storageError = w.storageError :=
    funext (fun r => writeAll_storageError _ _ _ r _ w)
  unfold Cache.Set Cache.set Cache.Loop
  simp only [Option.getD_none, set_highPass, set_mediumPass, Bool.false_eq_true, if_false,
    item.toValue, hfun]
  simp only [writeAll, List.foldl_append]

/-! ## Set: claims -/

/-- C1, as amended. `Set(key, v, ttl)` returns; its error is built from the errors of the
failing high-priority storages only, in registration order (an aggregate returned by a
storage contributes its members): it is nil when no high-priority storage fails, and when
the failing storages return plain errors it is the aggregate with exactly one error per
failing high-priority storage; medium-priority storages do not enter the result; every
storage of both tiers is written once, and every in-memory storage (which never fails) holds
the item under the namespaced key afterwards. -/
theorem C1_set_reports_high_failures_only (lib : Lib) (c : Cache) (key : String) (v : Value)
    (ttl : Int) (w : World) :
    ∃ out, c.Set lib key v ttl [] w = some out ∧
      out.e = appendAll none ((c.storage .PriorityHigh).filterMap w.storageError) ∧
      ((∀ s ∈ c.storage .PriorityHigh, w.storageError s = none) → out.e = none) ∧
      ((∀ s ∈ c.storage .PriorityHigh, ∀ x, w.storageError s = some x → x.isPlain = true) →
        out.e = aggregate ((c.storage .PriorityHigh).filterMap w.storageError)) ∧
      out.state.log = w.log ++ (c.storage .PriorityHigh ++ c.storage .PriorityMedium).map
        (fun s => ⟨s, .Write (c.NsKey key) (.item key v w.now ttl) ttl⟩) ∧
      (∀ s ∈ c.storage .PriorityHigh ++ c.storage .PriorityMedium,
        (w.heap s).isInMem = true →
        out.state.data s (c.NsKey key) = some (.item key v w.now ttl)) := by
  refine ⟨_, Set_no_tags lib c key v ttl w, rfl, ?_, ?_, ?_, ?_⟩
  · intro h
    have : (c.storage .PriorityHigh).filterMap w.storageError = [] := by
      simp only [List.filterMap_eq_nil_iff]
      exact h
    simp only [this]
    rfl
  · intro h
    apply appendAll_none_plain
    intro x hx
    simp only [List.mem_filterMap] at hx
    obtain ⟨s, hs, hsx⟩ := hx
    exact h s hs x hsx
  · exact writeAll_log _ _ _ _ w
  · intro s hs hm
    simp only [writeAll_data, hs, hm, and_self, if_true]

/-- C1, instantiated on `TestCache_SetPriorityError`: six high-priority storages of which
the second and the fourth fail; the result is the aggregate of their two errors and the four
in-memory storages hold the item. -/
theorem C1_set_reports_high_failures_only_witness :
    ∃ out, (New [WithHighPriorityStorage [0, 1, 2, 3, 4, 5], WithNamespace "go:test"]).Set
        exLib "key1" (.str "val1") 0 [] exWorldFailing = some out ∧
      out.e = some (.multi [.other "some error", .other "some error"]) ∧
      out.state.data 0 "go:test:key1" = some (.item "key1" (.str "val1") 0 0) ∧
      out.state.data 2 "go:test:key1" = some (.item "key1" (.str "val1") 0 0) ∧
      out.state.data 4 "go:test:key1" = some (.item "key1" (.str "val1") 0 0) ∧
      out.state.data 5 "go:test:key1" = some (.item "key1" (.str "val1") 0 0) := by
  obtain ⟨out, hout, _, _, hp, _, hd⟩ :=
    C1_set_reports_high_failures_only exLib
      (New [WithHighPriorityStorage [0, 1, 2, 3, 4, 5], WithNamespace "go:test"])
      "key1" (.str "val1") 0 exWorldFailing
  refine ⟨out, hout, ?_, hd 0 (by decide) rfl, hd 2 (by decide) rfl, hd 4 (by decide) rfl,
    hd 5 (by decide) rfl⟩
  rw [hp (by decide)]
  rfl

/-- C1 as stated fails: one failing high-priority storage whose error is an aggregate of two
errors makes `Set` return an aggregate of two errors, not of one. -/
theorem C1_counterexample_aggregate_storage_error :
    ∃ out, (New [WithHighPriorityStorage [0]]).Set exLib "key1" (.str "val1") 0 []
        exWorldAggregate = some out ∧
      (((New [WithHighPriorityStorage [0]]).storage .PriorityHigh).filter
        (fun s => (exWorldAggregate.storageError s).isSome)).length = 1 ∧
      out.e = some (.multi [.other "a", .other "b"]) ∧
      (errorsOf out.e).length = 2 :=
  ⟨_, Set_no_tags _ _ _ _ _ _, by decide, rfl, rfl⟩

/-- C6. In a cache whose storages are all in-memory storages, `Set(key, v, ttl)` returns nil,
and afterwards every storage of both tiers holds, under the storage key
`ns + ":" + key` (which is `NsKey(key)`), the item with `Key = key`, `Val = v`,
`Expires = ttl` (and `Created` the instant of the call); each storage was written once, under
that key only. -/
theorem C6_set_stores_item_under_NsKey (lib : Lib) (c : Cache) (key : String) (v : Value)
    (ttl : Int) (w : World)
    (hmem : ∀ s ∈ c.storage .PriorityHigh ++ c.storage .PriorityMedium,
      (w.heap s).isInMem = true) :
    ∃ out, c.Set lib key v ttl [] w = some out ∧ out.e = none ∧
      c.NsKey key = c.ns ++ ":" ++ key ∧
      (∀ s ∈ c.storage .PriorityHigh ++ c.storage .PriorityMedium,
        out.state.data s (c.ns ++ ":" ++ key) = some (.item key v w.now ttl)) ∧
      out.state.log = w.log ++ (c.storage .PriorityHigh ++ c.storage .PriorityMedium).map
        (fun s => ⟨s, .Write (c.ns ++ ":" ++ key) (.item key v w.now ttl) ttl⟩) := by
  refine ⟨_, Set_no_tags lib c key v ttl w, ?_, rfl, ?_, ?_⟩
  · have : (c.storage .PriorityHigh).filterMap w.storageError = [] := by
      simp only [List.filterMap_eq_nil_iff]
      intro s hs
      have := hmem s (by simp [hs])
      unfold World.storageError
      cases h : w.heap s <;> simp_all [StorageState.isInMem]
    simp only [this]
    rfl
  · intro s hs
    have hk : c.ns ++ ":" ++ key = c.NsKey key := rfl
    simp only [hk, writeAll_data, hs, hmem s hs, and_self, if_true]
  · exact writeAll_log _ _ _ _ w

/-- C6, instantiated on `TestCache_Set`: after `Set("key3", true, time.Second)` storage 4
holds the item under `go:test:key3`. -/
theorem C6_set_stores_item_under_NsKey_witness :
    ∃ out, exCache24.Set exLib "key3" (.bool true) 1000000000 [] exWorld = some out ∧
      out.e = none ∧
      out.state.data 4 "go:test:key3" = some (.item "key3" (.bool true) 0 1000000000) := by
  obtain ⟨out, hout, he, _, hd, _⟩ :=
    C6_set_stores_item_under_NsKey exLib exCache24 "key3" (.bool true) 1000000000 exWorld
      (fun _ _ => rfl)
  exact ⟨out, hout, he, hd 4 (by decide)⟩

/-! ## reads: lemmas -/

theorem Read_fst (s : Storage) (key : String) (w : World) :
    (Storage.Read s key w).1 = w.readResult s key := rfl

theorem Read_now (s : Storage) (key : String) (w : World) :
    (Storage.Read s key w).2.now = w.now := rfl

theorem Read_log (s : Storage) (key : String) (w : World) :
    (Storage.Read s key w).2.log = w.log ++ [⟨s, .Read key⟩] := rfl

theorem Read_heap_ne (s : Storage) (key : String) (w : World) (r : Storage) (hr : r ≠ s) :
    (Storage.Read s key w).2.heap r = w.heap r := by
  simp [Storage.Read, World.setStorage, World.record, hr]

theorem Read_heap_self (s : Storage) (key : String) (w : World) :
    (Storage.Read s key w).2.heap s = ((w.heap s).Read w.now key).2 := by
  simp [Storage.Read, World.setStorage, World.record]

/-- Reading an object twice at the same instant: the second read of any key returns what a
first read of that key would have returned. -/
theorem StorageState_Read_Read (st : StorageState) (now : Int) (key k : String) :
    ((st.Read now key).2.Read now k).1 = (st.Read now k).1 := by
  cases st with
  | mock err cl val => rfl
  | InMem data expire =>
    simp only [StorageState.Read, InMem.Read]
    cases hd : data key with
    | none => simp [StorageState.Read, InMem.Read]
    | some v =>
      cases he : expire key with
      | none => simp [StorageState.Read, InMem.Read]
      | some t =>
        by_cases ht : t < now
        · simp only [ht, if_true, StorageState.Read, InMem.Read]
          by_cases hk : k = key
          · subst hk
            simp [mapDelete, hd, he, ht]
          · simp only [mapDelete, hk, if_false]
            cases data k with
            | none => rfl
            | some v' =>
              cases expire k with
              | none => rfl
              | some t' => by_cases ht' : t' < now <;> simp [ht']
        · simp [ht, StorageState.Read, InMem.Read]

/-- A read does not change what any later read returns. -/
theorem Read_readResult (s : Storage) (key : String) (w : World) (r : Storage) (k : String) :
    (Storage.Read s key w).2.readResult r k = w.readResult r k := by
  unfold World.readResult
  rw [Read_now]
  by_cases hr : r = s
  · subst hr
    rw [Read_heap_self, StorageState_Read_Read]
  · rw [Read_heap_ne _ _ _ _ hr]

theorem readAll_now (key : String) :
    ∀ (l : List Storage) (w : World), (readAll key l w).now = w.now := by
  intro l
  induction l with
  | nil => intro w; rfl
  | cons s rest ih =>
    intro w
    simp only [readAll, List.foldl_cons] at ih ⊢
    rw [ih, Read_now]

theorem readAll_log (key : String) :
    ∀ (l : List Storage) (w : World),
      (readAll key l w).log = w.log ++ l.map (fun s => ⟨s, .Read key⟩) := by
  intro l
  induction l with
  | nil => intro w; simp [readAll]
  | cons s rest ih =>
    intro w
    simp only [readAll, List.foldl_cons] at ih ⊢
    rw [ih, Read_log]
    simp

theorem readAll_readResult (key : String) (r : Storage) (k : String) :
    ∀ (l : List Storage) (w : World), (readAll key l w).readResult r k = w.readResult r k := by
  intro l
  induction l with
  | nil => intro w; rfl
  | cons s rest ih =>
    intro w
    simp only [readAll, List.foldl_cons] at ih ⊢
    rw [ih, Read_readResult]

/-! ## Get: lemmas -/

/-- Go `Cache.read` on a storage whose `Read` reports an error. -/
theorem read_of_error (lib : Lib) (c : Cache) (s : Storage) (key : String) (w : World)
    (v : Value) (err : Error) (h : w.readResult s (c.NsKey key) = (v, some err)) :
    c.read lib s key w = some ((none, some err), (Storage.Read s (c.NsKey key) w).2) := by
  unfold Cache.read
  have h1 : (Storage.Read s (c.NsKey key) w) = ((v, some err), (Storage.Read s (c.NsKey key) w).2) := by
    rw [← h, ← Read_fst]
  rw [h1]

/-- Go `Cache.read` on a storage whose `Read` returns a value that is not an expired item. -/
theorem read_of_value (lib : Lib) (c : Cache) (s : Storage) (key : String) (w : World)
    (v : Value) (h : w.readResult s (c.NsKey key) = (v, none))
    (hexp : (readItem lib v).expired w.now = false) :
    c.read lib s key w =
      some ((some (readItem lib v), none), (Storage.Read s (c.NsKey key) w).2) := by
  unfold Cache.read
  have h1 : (Storage.Read s (c.NsKey key) w) = ((v, none), (Storage.Read s (c.NsKey key) w).2) := by
    rw [← h, ← Read_fst]
  rw [h1]
  simp [Read_now, hexp]

/-- The high handler of `Get` on a storage that reports the key absent. -/
theorem getHigh_of_miss (lib : Lib) (c : Cache) (key : String) (s : Storage) (st : GetState)
    (h : (st.world.readResult s (c.NsKey key)).2 = some .keyNotExist) :
    c.getHigh lib key s st =
      some ((false, some .keyNotExist),
        { st with world := (Storage.Read s (c.NsKey key) st.world).2, p := st.p ++ [s] }) := by
  unfold Cache.getHigh
  rw [read_of_error lib c s key st.world (st.world.readResult s (c.NsKey key)).1 .keyNotExist
    (by rw [← h])]
  simp

/-- The medium handler of `Get` on a storage that reports the key absent. -/
theorem getMedium_of_miss (lib : Lib) (c : Cache) (key : String) (s : Storage) (st : GetState)
    (h : (st.world.readResult s (c.NsKey key)).2 = some .keyNotExist) :
    c.getMedium lib key s st =
      some ((false, some .keyNotExist),
        { st with world := (Storage.Read s (c.NsKey key) st.world).2 }) := by
  unfold Cache.getMedium
  rw [read_of_error lib c s key st.world (st.world.readResult s (c.NsKey key)).1 .keyNotExist
    (by rw [← h])]

theorem get_highPass_of_miss (lib : Lib) (c : Cache) (key : String) :
    ∀ (l : List Storage) (e : Option Error) (st : GetState),
      (∀ s ∈ l, (st.world.readResult s (c.NsKey key)).2 = some .keyNotExist) →
      Loop.highPass (c.getHigh lib key) l e st =
        some ⟨false, appendAll e (List.replicate l.length .keyNotExist),
          { st with world := readAll (c.NsKey key) l st.world, p := st.p ++ l },
          l.map (fun s => ⟨.PriorityHigh, s, false, some .keyNotExist⟩)⟩ := by
  intro l
  induction l with
  | nil => intro e st _; simp [Loop.highPass, readAll, appendAll]
  | cons s rest ih =>
    intro e st h
    rw [Loop.highPass, getHigh_of_miss lib c key s st (h s (by simp))]
    simp only
    rw [ih]
    · simp [Pass.addCall, readAll, appendAll, List.replicate_succ]
    · intro r hr
      simp only [Read_readResult]
      exact h r (by simp [hr])

theorem get_mediumPass_of_miss (lib : Lib) (c : Cache) (key : String) (e : Option Error) :
    ∀ (l : List Storage) (st : GetState),
      (∀ s ∈ l, (st.world.readResult s (c.NsKey key)).2 = some .keyNotExist) →
      Loop.mediumPass (c.getMedium lib key) e l st =
        some ⟨false, e, { st with world := readAll (c.NsKey key) l st.world },
          l.map (fun s => ⟨.PriorityMedium, s, false, some .keyNotExist⟩)⟩ := by
  intro l
  induction l with
  | nil => intro st _; simp [Loop.mediumPass, readAll]
  | cons s rest ih =>
    intro st h
    rw [Loop.mediumPass, getMedium_of_miss lib c key s st (h s (by simp))]
    simp only
    rw [ih]
    · simp [Pass.addCall, readAll]
    · intro r hr
      simp only [Read_readResult]
      exact h r (by simp [hr])

theorem isPlain_of_mem_replicate_keyNotExist (n : Nat) :
    ∀ x ∈ List.replicate n Error.keyNotExist, x.isPlain = true := by
  intro x hx
  rw [List.eq_of_mem_replicate hx]
  rfl

/-- Go `Get` of a key that every storage reports absent, in closed form. -/
theorem Get_of_miss (lib : Lib) (c : Cache) (key : String) (out : Value) (w : World)
    (hmiss : ∀ s ∈ c.storage .PriorityHigh ++ c.storage .PriorityMedium,
      (w.readResult s (c.NsKey key)).2 = some .keyNotExist) :
    c.Get lib key out w =
      some ⟨aggregate (List.replicate (c.storage .PriorityHigh).length .keyNotExist), out,
        readAll (c.NsKey key) (c.storage .PriorityHigh ++ c.storage .PriorityMedium) w,
        (c.storage .PriorityHigh).map (fun s => ⟨.PriorityHigh, s, false, some .keyNotExist⟩) ++
        (c.storage .PriorityMedium).map
          (fun s => ⟨.PriorityMedium, s, false, some .keyNotExist⟩)⟩ := by
  unfold Cache.Get Cache.get Cache.Loop
  simp only [Option.getD_some]
  rw [get_highPass_of_miss lib c key _ none _ (fun s hs => hmiss s (by simp [hs]))]
  simp only [Bool.false_eq_true, if_false]
  rw [get_mediumPass_of_miss]
  · simp only [← appendAll_none_plain _ (isPlain_of_mem_replicate_keyNotExist _), readAll,
      List.foldl_append]
  · intro s hs
    simp only
    have := readAll_readResult (c.NsKey key) s (c.NsKey key) (c.storage .PriorityHigh) w
    rw [this]
    exact hmiss s (by simp [hs])

/-! ## Get: claims -/

/-- C9, as amended. If every storage of the cache reports the key absent, `Get` returns:
nil when the cache has no high-priority storage, and otherwise the aggregate of exactly one
`key does not exist` error per high-priority storage (the medium-priority misses add
nothing); `out` is left as it was, and the only storage calls made are one `Read` of
the namespaced key per storage, in tier order: no storage is written. -/
theorem C9_get_of_absent_key (lib : Lib) (c : Cache) (key : String) (out : Value) (w : World)
    (hmiss : ∀ s ∈ c.storage .PriorityHigh ++ c.storage .PriorityMedium,
      (w.readResult s (c.NsKey key)).2 = some .keyNotExist) :
    ∃ res, c.Get lib key out w = some res ∧
      (c.storage .PriorityHigh = [] → res.e = none) ∧
      (c.storage .PriorityHigh ≠ [] →
        res.e = some (.multi (List.replicate (c.storage .PriorityHigh).length .keyNotExist))) ∧
      res.out = out ∧
      res.world.log = w.log ++ (c.storage .PriorityHigh ++ c.storage .PriorityMedium).map
        (fun s => ⟨s, .Read (c.NsKey key)⟩) := by
  refine ⟨_, Get_of_miss lib c key out w hmiss, ?_, ?_, rfl, readAll_log _ _ w⟩
  · intro h
    simp [h, aggregate]
  · intro h
    cases hh : c.storage .PriorityHigh with
    | nil => exact absurd hh h
    | cons a rest => simp [aggregate, List.replicate_succ]

/-- C9, instantiated on the end of `TestCache_Del`: two high-priority and four
medium-priority in-memory storages that do not hold the key; `Get` returns the aggregate of
two `key does not exist` errors. -/
theorem C9_get_of_absent_key_witness :
    ∃ res, exCache24.Get exLib "key3" (.str "") exWorld = some res ∧
      res.e = some (.multi [.keyNotExist, .keyNotExist]) ∧ res.out = .str "" := by
  obtain ⟨res, hres, _, he, ho, _⟩ :=
    C9_get_of_absent_key exLib exCache24 "key3" (.str "") exWorld (fun _ _ => rfl)
  exact ⟨res, hres, he (by decide), ho⟩

/-- C9 as stated fails: in a cache with a medium-priority storage only, `Get` of a key that
the storage does not hold (its `Read` reports `key does not exist`) returns nil, not an
aggregate error. -/
theorem C9_counterexample_medium_only :
    (exWorld.readResult 0 ((New [WithMediumPriorityStorage [0]]).NsKey "key3")).2 =
      some .keyNotExist ∧
    ∃ res, (New [WithMediumPriorityStorage [0]]).Get exLib "key3" .nil exWorld = some res ∧
      res.e = none ∧ res.out = .nil :=
  ⟨rfl, _, Get_of_miss exLib _ "key3" .nil exWorld (fun _ _ => rfl), rfl, rfl⟩

/-! ## the loop under an invariant -/

theorem highPass_inv {σ : Type} (h : Handler σ) (Inv : σ → Prop)
    (R : Storage → Bool × Option Error → Prop) :
    ∀ (l : List Storage),
      (∀ s ∈ l, ∀ st, Inv st → ∃ r st', h s st = some (r, st') ∧ Inv st' ∧ R s r) →
      ∀ (e : Option Error) (w : σ), Inv w →
        ∃ p, Loop.highPass h l e w = some p ∧ Inv p.state ∧
          ∀ call ∈ p.calls, R call.storage (call.terminate, call.err) := by
  intro l
  induction l with
  | nil =>
    intro _ e w hw
    exact ⟨⟨false, e, w, []⟩, rfl, hw, by simp⟩
  | cons s rest ih =>
    intro hstep e w hw
    obtain ⟨⟨t, err⟩, st', hs, hinv, hR⟩ := hstep s (by simp) w hw
    have ih' := ih (fun r hr => hstep r (by simp [hr]))
    cases err with
    | some err =>
      obtain ⟨p, hp, hpi, hpc⟩ := ih' (some (Append e err)) st' hinv
      refine ⟨Pass.addCall ⟨.PriorityHigh, s, t, some err⟩ p, ?_, hpi, ?_⟩
      · simp only [Loop.highPass, hs, hp, Option.map_some']
      · intro call hc
        simp only [Pass.addCall, List.mem_cons] at hc
        rcases hc with rfl | hc
        · exact hR
        · exact hpc call hc
    | none =>
      cases t with
      | true =>
        refine ⟨⟨true, none, st', [⟨.PriorityHigh, s, true, none⟩]⟩, ?_, hinv, ?_⟩
        · simp only [Loop.highPass, hs]
        · intro call hc
          simp only [List.mem_singleton] at hc
          subst hc
          exact hR
      | false =>
        obtain ⟨p, hp, hpi, hpc⟩ := ih' e st' hinv
        refine ⟨Pass.addCall ⟨.PriorityHigh, s, false, none⟩ p, ?_, hpi, ?_⟩
        · simp only [Loop.highPass, hs, hp, Option.map_some']
        · intro call hc
          simp only [Pass.addCall, List.mem_cons] at hc
          rcases hc with rfl | hc
          · exact hR
          · exact hpc call hc

theorem mediumPass_inv {σ : Type} (h : Handler σ) (Inv : σ → Prop)
    (R : Storage → Bool × Option Error → Prop) (e : Option Error) :
    ∀ (l : List Storage),
      (∀ s ∈ l, ∀ st, Inv st → ∃ r st', h s st = some (r, st') ∧ Inv st' ∧ R s r) →
      ∀ (w : σ), Inv w →
        ∃ p, Loop.mediumPass h e l w = some p ∧ Inv p.state ∧
          ∀ call ∈ p.calls, R call.storage (call.terminate, call.err) := by
  intro l
  induction l with
  | nil =>
    intro _ w hw
    exact ⟨⟨false, e, w, []⟩, rfl, hw, by simp⟩
  | cons s rest ih =>
    intro hstep w hw
    obtain ⟨⟨t, err⟩, st', hs, hinv, hR⟩ := hstep s (by simp) w hw
    have ih' := ih (fun r hr => hstep r (by simp [hr]))
    cases t with
    | true =>
      refine ⟨⟨true, none, st', [⟨.PriorityMedium, s, true, err⟩]⟩, ?_, hinv, ?_⟩
      · simp only [Loop.mediumPass, hs]
      · intro call hc
        simp only [List.mem_singleton] at hc
        subst hc
        exact hR
    | false =>
      obtain ⟨p, hp, hpi, hpc⟩ := ih' st' hinv
      refine ⟨Pass.addCall ⟨.PriorityMedium, s, false, err⟩ p, ?_, hpi, ?_⟩
      · simp only [Loop.mediumPass, hs, hp, Option.map_some']
      · intro call hc
        simp only [Pass.addCall, List.mem_cons] at hc
        rcases hc with rfl | hc
        · exact hR
        · exact hpc call hc

/-- A loop whose handlers keep an invariant and return results in a relation `R` with the
storage returns, keeps the invariant, and every recorded invocation is in `R`. -/
theorem Loop_inv {σ : Type} (c : Cache) (high medium : Handler σ) (Inv : σ → Prop)
    (R : Storage → Bool × Option Error → Prop)
    (hH : ∀ s ∈ c.storage .PriorityHigh, ∀ st, Inv st →
      ∃ r st', high s st = some (r, st') ∧ Inv st' ∧ R s r)
    (hM : ∀ s ∈ c.storage .PriorityMedium, ∀ st, Inv st →
      ∃ r st', medium s st = some (r, st') ∧ Inv st' ∧ R s r)
    (w : σ) (hw : Inv w) :
    ∃ out, c.Loop high (some medium) w = some out ∧ Inv out.state ∧
      ∀ call ∈ out.calls, R call.storage (call.terminate, call.err) := by
  obtain ⟨p, hp, hpi, hpc⟩ := highPass_inv high Inv R _ hH none w hw
  by_cases hr : p.returned = true
  · refine ⟨⟨none, p.state, p.calls⟩, ?_, hpi, hpc⟩
    simp only [Cache.Loop, Option.getD_some, hp, hr, if_true]
  · obtain ⟨q, hq, hqi, hqc⟩ := mediumPass_inv medium Inv R p.e _ hM p.state hpi
    refine ⟨⟨q.e, q.state, p.calls ++ q.calls⟩, ?_, hqi, ?_⟩
    · simp only [Cache.Loop, Option.getD_some, hp, hr, hq]
      rfl
    · intro call hc
      simp only [List.mem_append] at hc
      rcases hc with hc | hc
      · exact hpc call hc
      · exact hqc call hc

/-! ## Get returns when no storage returns an expired item -/

theorem setHandler_total (lib : Lib) (c : Cache) (key : String) (it : item) (d : Int)
    (tags : List String) (s : Storage) (w : World) :
    (c.setHandler lib key it d tags s w).isSome = true := by
  unfold Cache.setHandler
  rcases c.write lib s key it.toValue d tags w with ⟨e, w1⟩
  rfl

theorem Set_total (lib : Lib) (c : Cache) (key : String) (v : Value) (d : Int)
    (tags : List String) (w : World) : ∃ r, c.Set lib key v d tags w = some r :=
  Loop_total c _ none w (fun s w1 => setHandler_total lib c key _ d tags s w1)
    (fun s w1 => setHandler_total lib c key _ d tags s w1)

theorem propagate_total (lib : Lib) (c : Cache) (s1 s2 : Storage) (it : item) (key : String)
    (w : World) : ∃ r, c.propagate lib s1 (some s2) it key w = some r := by
  unfold Cache.propagate
  simp only
  rcases c.tagger.Tags lib s2 key w with ⟨⟨tags, err⟩, w1⟩
  cases err with
  | some err => exact ⟨_, rfl⟩
  | none =>
    obtain ⟨r, hr⟩ := Set_total lib (New [WithStorage [s1], WithNamespace c.ns]) key it.Val
      (it.Expires - (w1.now - it.Created)) tags w1
    simp only [hr]
    exact ⟨_, rfl⟩

theorem propagateAll_total (lib : Lib) (c : Cache) (s2 : Storage) (it : item) (key : String) :
    ∀ (l : List Storage) (w : World), ∃ w1, c.propagateAll lib (some s2) it key l w = some w1 := by
  intro l
  induction l with
  | nil => intro w; exact ⟨w, rfl⟩
  | cons s rest ih =>
    intro w
    obtain ⟨⟨e, w1⟩, hr⟩ := propagate_total lib c s s2 it key w
    obtain ⟨w2, hw2⟩ := ih w1
    exact ⟨w2, by simp only [Cache.propagateAll, hr, hw2]⟩

/-- One step of the high handler of `Get` under the invariant. -/
theorem getHigh_step (lib : Lib) (c : Cache) (key : String) (w0 : World) (s : Storage)
    (hreg : w0.regular lib s (c.NsKey key)) (st : GetState) (hst : GetInv w0 st) :
    ∃ r st', c.getHigh lib key s st = some (r, st') ∧ GetInv w0 st' ∧
      (∃ o, r = getOutcome lib (w0.readResult s (c.NsKey key)) o) := by
  obtain ⟨h1, h2, h3⟩ := hst
  have hinv' : ∀ r k, (Storage.Read s (c.NsKey key) st.world).2.readResult r k =
      w0.readResult r k := fun r k => by rw [Read_readResult, h1]
  have hnow' : (Storage.Read s (c.NsKey key) st.world).2.now = w0.now := by rw [Read_now, h2]
  rcases hrr : w0.readResult s (c.NsKey key) with ⟨v, err⟩
  have hrr' : st.world.readResult s (c.NsKey key) = (v, err) := by rw [h1, hrr]
  cases err with
  | some err =>
    refine ⟨(false, some err),
      { st with world := (Storage.Read s (c.NsKey key) st.world).2,
                p := if err = .keyNotExist then st.p ++ [s] else st.p }, ?_, ⟨hinv', hnow', h3⟩,
      st.out, rfl⟩
    simp only [Cache.getHigh, read_of_error lib c s key st.world v err hrr']
  | none =>
    have hexp : (readItem lib v).expired st.world.now = false := by
      rw [h2]
      exact hreg v hrr
    rcases hd : lib.Decode (readItem lib v).Val st.out with ⟨derr, o1⟩
    cases derr with
    | some derr =>
      refine ⟨(false, some derr),
        { st with world := (Storage.Read s (c.NsKey key) st.world).2,
                  it := some (readItem lib v), w := some s, out := o1 }, ?_,
        ⟨hinv', hnow', fun _ => rfl⟩, st.out, ?_⟩
      · simp only [Cache.getHigh, read_of_value lib c s key st.world v hrr' hexp, hd]
      · simp [getOutcome, hd]
    | none =>
      refine ⟨(true, none),
        { st with world := (Storage.Read s (c.NsKey key) st.world).2,
                  it := some (readItem lib v), w := some s, out := o1 }, ?_,
        ⟨hinv', hnow', fun _ => rfl⟩, st.out, ?_⟩
      · simp only [Cache.getHigh, read_of_value lib c s key st.world v hrr' hexp, hd]
      · simp [getOutcome, hd]

/-- One step of the medium handler of `Get` under the invariant. -/
theorem getMedium_step (lib : Lib) (c : Cache) (key : String) (w0 : World) (s : Storage)
    (hreg : w0.regular lib s (c.NsKey key)) (st : GetState) (hst : GetInv w0 st) :
    ∃ r st', c.getMedium lib key s st = some (r, st') ∧ GetInv w0 st' ∧
      (∃ o, r = getOutcome lib (w0.readResult s (c.NsKey key)) o) := by
  obtain ⟨h1, h2, h3⟩ := hst
  have hinv' : ∀ r k, (Storage.Read s (c.NsKey key) st.world).2.readResult r k =
      w0.readResult r k := fun r k => by rw [Read_readResult, h1]
  have hnow' : (Storage.Read s (c.NsKey key) st.world).2.now = w0.now := by rw [Read_now, h2]
  rcases hrr : w0.readResult s (c.NsKey key) with ⟨v, err⟩
  have hrr' : st.world.readResult s (c.NsKey key) = (v, err) := by rw [h1, hrr]
  cases err with
  | some err =>
    refine ⟨(false, some err),
      { st with world := (Storage.Read s (c.NsKey key) st.world).2 }, ?_, ⟨hinv', hnow', h3⟩,
      st.out, rfl⟩
    simp only [Cache.getMedium, read_of_error lib c s key st.world v err hrr']
  | none =>
    have hexp : (readItem lib v).expired st.world.now = false := by
      rw [h2]
      exact hreg v hrr
    rcases hd : lib.Decode (readItem lib v).Val st.out with ⟨derr, o1⟩
    cases derr with
    | some derr =>
      refine ⟨(false, some derr),
        { st with world := (Storage.Read s (c.NsKey key) st.world).2,
                  it := some (readItem lib v), w := some s, out := o1 }, ?_,
        ⟨hinv', hnow', fun _ => rfl⟩, st.out, ?_⟩
      · simp only [Cache.getMedium, read_of_value lib c s key st.world v hrr' hexp, hd]
      · simp [getOutcome, hd]
    | none =>
      refine ⟨(true, none),
        { st with world := (Storage.Read s (c.NsKey key) st.world).2,
                  it := some (readItem lib v), w := some s, out := o1 }, ?_,
        ⟨hinv', hnow', fun _ => rfl⟩, st.out, ?_⟩
      · simp only [Cache.getMedium, read_of_value lib c s key st.world v hrr' hexp, hd]
      · simp [getOutcome, hd]

/-- When no storage returns an expired item for the key, `Get` returns, and every
invocation of its loop returned what `getOutcome` gives for the `Read` result of the storage
in the initial world. -/
theorem Get_total_of_regular (lib : Lib) (c : Cache) (key : String) (out : Value) (w : World)
    (hreg : ∀ s ∈ c.storage .PriorityHigh ++ c.storage .PriorityMedium,
      w.regular lib s (c.NsKey key)) :
    ∃ res lo, c.Get lib key out w = some res ∧
      c.Loop (c.getHigh lib key) (some (c.getMedium lib key)) ⟨w, [], none, none, out⟩ = some lo ∧
      res.e = lo.e ∧ res.calls = lo.calls ∧
      ∀ call ∈ res.calls, ∃ o, (call.terminate, call.err) =
        getOutcome lib (w.readResult call.storage (c.NsKey key)) o := by
  obtain ⟨lo, hlo, ⟨_, _, hw⟩, hcalls⟩ :=
    Loop_inv c (c.getHigh lib key) (c.getMedium lib key) (GetInv w)
      (fun s r => ∃ o, r = getOutcome lib (w.readResult s (c.NsKey key)) o)
      (fun s hs st hst => getHigh_step lib c key w s (hreg s (by simp [hs])) st hst)
      (fun s hs st hst => getMedium_step lib c key w s (hreg s (by simp [hs])) st hst)
      ⟨w, [], none, none, out⟩ ⟨fun _ _ => rfl, rfl, fun h => by cases h⟩
  cases hit : lo.state.it with
  | none =>
    refine ⟨⟨lo.e, lo.state.out, lo.state.world, lo.calls⟩, lo, ?_, hlo, rfl, rfl, hcalls⟩
    simp only [Cache.Get, Cache.get, hlo, hit]
  | some it =>
    have hsome : lo.state.w.isSome = true := hw (by rw [hit]; rfl)
    obtain ⟨s2, hs2⟩ := Option.isSome_iff_exists.1 hsome
    obtain ⟨w1, hw1⟩ := propagateAll_total lib c s2 it key lo.state.p lo.state.world
    refine ⟨⟨lo.e, lo.state.out, w1, lo.calls⟩, lo, ?_, hlo, rfl, rfl, hcalls⟩
    simp only [Cache.Get, Cache.get, hlo, hit, hs2, hw1]

theorem appendAll_some_ne_none :
    ∀ (errs : List Error) (e : Error), appendAll (some e) errs ≠ none := by
  intro errs
  induction errs with
  | nil => intro e; simp [appendAll]
  | cons a rest ih =>
    intro e
    simpa [appendAll] using ih (Append (some e) a)

theorem appendAll_none_ne_none (errs : List Error) (h : errs ≠ []) :
    appendAll none errs ≠ none := by
  cases errs with
  | nil => exact absurd rfl h
  | cons a rest => simpa [appendAll] using appendAll_some_ne_none rest (Append none a)

/-- C10, as amended. Suppose no storage of the cache returns an expired item for the key.
Then `Get` returns, and: if a high-priority storage holds a value for the key that `Decode`
rejects whatever `out` holds, and no invocation of the loop signalled terminate (no storage
yielded an item that decodes), the returned error is non-nil; an invocation on a
medium-priority storage that holds such a value returns the decode error without
terminate; the returned error is nil or the aggregate of the errors of the high-priority
invocations, so that the decode error of a medium-priority invocation never enters it; it
is nil when no high-priority invocation returned an error, and in particular when the cache
has no high-priority storage. -/
theorem C10_get_decode_failure_in_high_tier (lib : Lib) (c : Cache) (key : String)
    (out : Value) (w : World)
    (hreg : ∀ r ∈ c.storage .PriorityHigh ++ c.storage .PriorityMedium,
      w.regular lib r (c.NsKey key)) :
    ∃ res, c.Get lib key out w = some res ∧
      (∀ s v, s ∈ c.storage .PriorityHigh → w.readResult s (c.NsKey key) = (v, none) →
        (∀ o, (lib.Decode (readItem lib v).Val o).1 ≠ none) →
        (∀ call ∈ res.calls, call.terminate = false) → res.e ≠ none) ∧
      (∀ call ∈ res.calls, call.prio = .PriorityMedium →
        ∀ v, w.readResult call.storage (c.NsKey key) = (v, none) →
        (∀ o, (lib.Decode (readItem lib v).Val o).1 ≠ none) →
        call.terminate = false ∧ call.err ≠ none) ∧
      (res.e = none ∨ res.e = appendAll none (highErrors res.calls)) ∧
      ((∀ call ∈ res.calls, call.prio = .PriorityHigh → call.err = none) → res.e = none) ∧
      (c.storage .PriorityHigh = [] → res.e = none) := by
  obtain ⟨res, lo, hres, hlo, he, hc, hcalls⟩ := Get_total_of_regular lib c key out w hreg
  obtain ⟨hor, himp⟩ := Loop_spec c _ _ _ lo hlo
  refine ⟨res, hres, ?_, ?_, ?_, ?_, ?_⟩
  · intro s v hs hval hdec hterm
    rw [hc] at hterm
    obtain ⟨hv, hle, _⟩ := himp hterm
    have hmem : (Priority.PriorityHigh, s) ∈
        lo.calls.map (fun call => (call.prio, call.storage)) := by
      rw [hv]
      simp [Cache.fullVisit, hs]
    obtain ⟨call, hcall, hps⟩ := List.mem_map.1 hmem
    have hp : call.prio = .PriorityHigh := (Prod.mk.inj hps).1
    have hst : call.storage = s := (Prod.mk.inj hps).2
    obtain ⟨o, ho⟩ := hcalls call (by rw [hc]; exact hcall)
    rw [hst, hval] at ho
    have hd := hdec o
    rcases hdd : lib.Decode (readItem lib v).Val o with ⟨derr, o1⟩
    rw [hdd] at hd
    cases derr with
    | none => exact absurd rfl hd
    | some derr =>
      simp only [getOutcome, hdd, Prod.mk.injEq] at ho
      rw [he, hle]
      apply appendAll_none_ne_none
      intro hnil
      have : derr ∈ highErrors lo.calls := by
        simp only [highErrors, List.mem_filterMap, List.mem_filter, decide_eq_true_eq]
        exact ⟨call, ⟨hcall, hp⟩, ho.2⟩
      rw [hnil] at this
      cases this
  · intro call hcall _ v hval hdec
    obtain ⟨o, ho⟩ := hcalls call hcall
    rw [hval] at ho
    have hd := hdec o
    rcases hdd : lib.Decode (readItem lib v).Val o with ⟨derr, o1⟩
    rw [hdd] at hd
    cases derr with
    | none => exact absurd rfl hd
    | some derr =>
      simp only [getOutcome, hdd, Prod.mk.injEq] at ho
      exact ⟨ho.1, by rw [ho.2]; exact fun h => by cases h⟩
  · rw [he, hc]
    exact hor
  · intro hnone
    rw [he]
    rcases hor with h | h
    · exact h
    · have : highErrors lo.calls = [] := by
        simp only [highErrors, List.filterMap_eq_nil_iff, List.mem_filter, decide_eq_true_eq]
        intro call hcall
        exact hnone call (by rw [hc]; exact hcall.1) hcall.2
      rw [h, this]
      rfl
  · intro hH
    rw [he]
    unfold Cache.Loop at hlo
    simp only [hH, Loop.highPass, Option.getD_some] at hlo
    cases hq : Loop.mediumPass (c.getMedium lib key) none (c.storage .PriorityMedium)
        ⟨w, [], none, none, out⟩ with
    | none => simp [hq] at hlo
    | some q =>
      simp only [hq, Bool.false_eq_true, if_false, Option.some.injEq] at hlo
      subst hlo
      simp only
      obtain ⟨_, m2, m3, _⟩ := mediumPass_spec (c.getMedium lib key) none _ _ q hq
      cases hr : q.returned with
      | true => exact m2 hr
      | false => exact (m3 hr).2

/-- C10, instantiated: a high-priority and a medium-priority in-memory storage that both hold
an item whose value cannot be decoded; `Get` visits both, each invocation returns the decode
error, and the result is the aggregate of the error of the high-priority invocation
alone. -/
theorem C10_get_decode_failure_in_high_tier_witness :
    ∃ res, (New [WithHighPriorityStorage [0], WithMediumPriorityStorage [1]]).Get exLib "k"
        .nil exWorldUndecodable = some res ∧
      res.calls = [⟨.PriorityHigh, 0, false, some (.other "decode")⟩,
        ⟨.PriorityMedium, 1, false, some (.other "decode")⟩] ∧
      res.e = some (.multi [.other "decode"]) ∧
      res.e = appendAll none (highErrors res.calls) := by
  obtain ⟨res, hres, _, _, _, _, _⟩ :=
    C10_get_decode_failure_in_high_tier exLib
      (New [WithHighPriorityStorage [0], WithMediumPriorityStorage [1]]) "k" .nil
      exWorldUndecodable
      (fun r _ v hv => by
        have : v = .item "k" (.str "undecodable") 0 0 := by
          have h2 : exWorldUndecodable.readResult r
              ((New [WithHighPriorityStorage [0], WithMediumPriorityStorage [1]]).NsKey "k") =
              (.item "k" (.str "undecodable") 0 0, none) := rfl
          rw [h2] at hv
          exact (Prod.mk.inj hv).1.symm
        subst this
        rfl)
  have hval : (New [WithHighPriorityStorage [0], WithMediumPriorityStorage [1]]).Get exLib "k"
      .nil exWorldUndecodable =
      some ⟨some (.multi [.other "decode"]), .nil,
        (Storage.Read 1 "go:cache:k" (Storage.Read 0 "go:cache:k" exWorldUndecodable).2).2,
        [⟨.PriorityHigh, 0, false, some (.other "decode")⟩,
         ⟨.PriorityMedium, 1, false, some (.other "decode")⟩]⟩ := rfl
  rw [hval] at hres
  cases hres
  exact ⟨_, hval, rfl, rfl, rfl⟩

/-- C10 as stated fails: with the storage in the medium tier only, `Get` finds the stored,
non-expired item, fails to decode its value, and returns nil. -/
theorem C10_counterexample_medium_tier :
    exWorldUndecodable.readResult 0 ((New [WithMediumPriorityStorage [0]]).NsKey "k") =
      (.item "k" (.str "undecodable") 0 0, none) ∧
    (readItem exLib (.item "k" (.str "undecodable") 0 0)).expired exWorldUndecodable.now = false ∧
    (exLib.Decode (.str "undecodable") .nil).1 = some (.other "decode") ∧
    ∃ res, (New [WithMediumPriorityStorage [0]]).Get exLib "k" .nil exWorldUndecodable =
        some res ∧
      res.e = none ∧
      res.calls = [⟨.PriorityMedium, 0, false, some (.other "decode")⟩] :=
  ⟨rfl, rfl, rfl, _, rfl, rfl, rfl⟩

/-- C7, the code at the failing input. On a single in-memory storage, `Set("k", 1, 1ns)` at
instant 0 followed at instant 5 by `Set("k", 2, 0)` leaves the non-expiring item in the
`data` map and the expiry entry of the first write in the `expire` map; the `Get` that
follows reports `key does not exist` and leaves `out` untouched. -/
theorem C7_get_after_set_zero_ttl_misses :
    exWorldReset.data 0 "go:cache:k" = some (.item "k" (.int 2) 5 0) ∧
    exWorldReset.expire 0 "go:cache:k" = some 1 ∧
    exWorldReset.now = 5 ∧
    ∃ res, exSingle.Get exLib "k" .nil exWorldReset = some res ∧
      res.e = some (.multi [.keyNotExist]) ∧ res.out = .nil :=
  ⟨rfl, rfl, rfl, _, rfl, rfl, rfl⟩

/-- C8, the code at the failing input. With in-memory high tier `[A, B]` and medium tier
`[C]`, where only `C` holds the key, set with ttl 0 one instant earlier, `Get` returns nil
with the value of `C`; but the copies it writes into `A` and `B` carry the ttl
`0 - (now - created) = -1`, so a direct `Read` of the namespaced key on `A` and on `B`
reports `key does not exist`. -/
theorem C8_promoted_no_expiry_item_is_unreadable :
    exWorldOnlyC.readResult 0 "go:test:key1" = (.nil, some .keyNotExist) ∧
    exWorldOnlyC.readResult 1 "go:test:key1" = (.nil, some .keyNotExist) ∧
    exWorldOnlyC.readResult 2 "go:test:key1" = (.item "key1" (.int 12345) 0 0, none) ∧
    ∃ res, exTiers.Get exLib "key1" .nil exWorldOnlyC = some res ∧
      res.e = none ∧ res.out = .int 12345 ∧
      res.world.data 0 "go:test:key1" = some (.item "key1" (.int 12345) 1 (-1)) ∧
      res.world.expire 0 "go:test:key1" = some 0 ∧
      (Storage.Read 0 "go:test:key1" res.world).1 = (.nil, some .keyNotExist) ∧
      (Storage.Read 1 "go:test:key1" res.world).1 = (.nil, some .keyNotExist) :=
  ⟨rfl, rfl, rfl, _, rfl, rfl, rfl, rfl, rfl, rfl, rfl⟩

/-! ## which storages an operation calls -/

theorem logExt_refl (P : Event → Prop) (w : World) : World.logExt P w w :=
  ⟨[], by simp, by simp⟩

theorem logExt_trans (P : Event → Prop) (w1 w2 w3 : World)
    (h12 : World.logExt P w1 w2) (h23 : World.logExt P w2 w3) : World.logExt P w1 w3 := by
  obtain ⟨e1, h1, p1⟩ := h12
  obtain ⟨e2, h2, p2⟩ := h23
  refine ⟨e1 ++ e2, by rw [h2, h1, List.append_assoc], ?_⟩
  intro ev hev
  rcases List.mem_append.1 hev with h | h
  · exact p1 ev h
  · exact p2 ev h

theorem logExt_of_log_eq (P : Event → Prop) (w w' : World) (h : w'.log = w.log) :
    World.logExt P w w' :=
  ⟨[], by simp [h], by simp⟩

theorem logExt_Read (P : Event → Prop) (s : Storage) (hP : ∀ op, P ⟨s, op⟩) (key : String)
    (w : World) : World.logExt P w (Storage.Read s key w).2 :=
  ⟨[⟨s, .Read key⟩], rfl, by simp [hP]⟩

theorem logExt_Write (P : Event → Prop) (s : Storage) (hP : ∀ op, P ⟨s, op⟩) (key : String)
    (v : Value) (d : Int) (w : World) : World.logExt P w (Storage.Write s key v d w).2 :=
  ⟨[⟨s, .Write key v d⟩], rfl, by simp [hP]⟩

theorem logExt_Delete (P : Event → Prop) (s : Storage) (hP : ∀ op, P ⟨s, op⟩) (key : String)
    (w : World) : World.logExt P w (Storage.Delete s key w).2 :=
  ⟨[⟨s, .Delete key⟩], rfl, by simp [hP]⟩

theorem logExt_foldl {α : Type} (P : Event → Prop) (f : World → α → World)
    (hf : ∀ w a, World.logExt P w (f w a)) :
    ∀ (l : List α) (w : World), World.logExt P w (l.foldl f w) := by
  intro l
  induction l with
  | nil => intro w; exact logExt_refl P w
  | cons a rest ih =>
    intro w
    exact logExt_trans P _ _ _ (hf w a) (ih (f w a))

theorem logExt_Tags (lib : Lib) (P : Event → Prop) (t : std) (s : Storage)
    (hP : ∀ op, P ⟨s, op⟩) (key : String) (w : World) :
    World.logExt P w (t.Tags lib s key w).2 := by
  unfold std.Tags
  have h := logExt_Read P s hP (t.nsKey ("key:" ++ key ++ ":tags")) w
  generalize Storage.Read s (t.nsKey ("key:" ++ key ++ ":tags")) w = r0 at h ⊢
  obtain ⟨⟨v, err⟩, w1⟩ := r0
  simp only at h ⊢
  split <;> exact h

theorem logExt_addTagsToKey (lib : Lib) (P : Event → Prop) (t : std) (s : Storage)
    (hP : ∀ op, P ⟨s, op⟩) (key : String) (tags : List String) (w : World) :
    World.logExt P w (t.addTagsToKey lib s key tags w).2 := by
  unfold std.addTagsToKey
  have h := logExt_Read P s hP (t.nsKey key) w
  generalize Storage.Read s (t.nsKey key) w = r0 at h ⊢
  obtain ⟨⟨v, err⟩, w1⟩ := r0
  simp only at h ⊢
  split
  · exact h
  · exact logExt_trans P _ _ _ h (logExt_Write P s hP _ _ _ w1)

theorem logExt_addKeysToTag (lib : Lib) (P : Event → Prop) (t : std) (s : Storage)
    (hP : ∀ op, P ⟨s, op⟩) (tag : String) (keys : List String) (w : World) :
    World.logExt P w (t.addKeysToTag lib s tag keys w).2 := by
  unfold std.addKeysToTag
  have h := logExt_Read P s hP (t.nsKey tag) w
  generalize Storage.Read s (t.nsKey tag) w = r0 at h ⊢
  obtain ⟨⟨v, err⟩, w1⟩ := r0
  simp only at h ⊢
  split
  · exact h
  · exact logExt_trans P _ _ _ h (logExt_Write P s hP _ _ _ w1)

theorem logExt_Tag (lib : Lib) (P : Event → Prop) (t : std) (s : Storage)
    (hP : ∀ op, P ⟨s, op⟩) (key : String) (tags : List String) (w : World) :
    World.logExt P w (t.Tag lib s key tags w).2 := by
  unfold std.Tag
  have h := logExt_addTagsToKey lib P t s hP ("key:" ++ key ++ ":tags") tags w
  generalize t.addTagsToKey lib s ("key:" ++ key ++ ":tags") tags w = r0 at h ⊢
  obtain ⟨err, w1⟩ := r0
  cases err with
  | some err => exact h
  | none =>
    exact logExt_trans P _ _ _ h
      (logExt_foldl P _ (fun w2 tag => logExt_addKeysToTag lib P t s hP _ _ w2) tags w1)

theorem logExt_write (lib : Lib) (P : Event → Prop) (c : Cache) (s : Storage)
    (hP : ∀ op, P ⟨s, op⟩) (key : String) (v : Value) (d : Int) (tags : List String)
    (w : World) : World.logExt P w (c.write lib s key v d tags w).2 := by
  unfold Cache.write
  have h := logExt_Write P s hP (c.NsKey key) v d w
  generalize Storage.Write s (c.NsKey key) v d w = r0 at h ⊢
  obtain ⟨err, w1⟩ := r0
  cases err with
  | some err => exact h
  | none =>
    simp only at h ⊢
    split
    · have h2 := logExt_Tag lib P c.tagger s hP key tags w1
      generalize c.tagger.Tag lib s key tags w1 = r1 at h2 ⊢
      obtain ⟨err2, w2⟩ := r1
      cases err2 <;> exact logExt_trans P _ _ _ h h2
    · exact h

/-- The storage calls of `Set` are calls on the storages of the cache. -/
theorem logExt_Set (lib : Lib) (P : Event → Prop) (c : Cache)
    (hP : ∀ s ∈ c.storage .PriorityHigh ++ c.storage .PriorityMedium, ∀ op, P ⟨s, op⟩)
    (key : String) (v : Value) (d : Int) (tags : List String) (w : World)
    (r : LoopOut World) (hr : c.Set lib key v d tags w = some r) :
    World.logExt P w r.state := by
  have hstep : ∀ s ∈ c.storage .PriorityHigh ++ c.storage .PriorityMedium, ∀ st,
      World.logExt P w st → ∃ res st',
        c.setHandler lib key ⟨key, v, w.now, d⟩ d tags s st = some (res, st') ∧
        World.logExt P w st' ∧ True := by
    intro s hs st hst
    have h := logExt_write lib P c s (hP s hs) key (item.toValue ⟨key, v, w.now, d⟩) d tags st
    unfold Cache.setHandler
    generalize c.write lib s key (item.toValue ⟨key, v, w.now, d⟩) d tags st = r1 at h ⊢
    obtain ⟨err, w1⟩ := r1
    exact ⟨(false, err), w1, rfl, logExt_trans P _ _ _ hst h, trivial⟩
  obtain ⟨out, hout, hinv, _⟩ :=
    Loop_inv c _ _ (World.logExt P w) (fun _ _ => True)
      (fun s hs => hstep s (by simp [hs])) (fun s hs => hstep s (by simp [hs])) w
      (logExt_refl P w)
  have : c.Set lib key v d tags w = some out := hout
  rw [this] at hr
  cases hr
  exact hinv

/-- The storage calls of `propagate` are calls on the two storages it is given. -/
theorem logExt_propagate (lib : Lib) (P : Event → Prop) (c : Cache) (s1 s2 : Storage)
    (hP1 : ∀ op, P ⟨s1, op⟩) (hP2 : ∀ op, P ⟨s2, op⟩) (it : item) (key : String) (w : World)
    (r : Option Error × World) (hr : c.propagate lib s1 (some s2) it key w = some r) :
    World.logExt P w r.2 := by
  unfold Cache.propagate at hr
  simp only at hr
  have h := logExt_Tags lib P c.tagger s2 hP2 key w
  generalize c.tagger.Tags lib s2 key w = r0 at h hr
  obtain ⟨⟨tags, err⟩, w1⟩ := r0
  cases err with
  | some err =>
    have hr' : r = (some err, w1) := (Option.some.inj hr).symm
    subst hr'
    exact h
  | none =>
    change (match (New [WithStorage [s1], WithNamespace c.ns]).Set lib key it.Val
        (it.Expires - (w1.now - it.Created)) tags w1 with
      | none => none
      | some r => some (none, r.state)) = some r at hr
    cases hset : (New [WithStorage [s1], WithNamespace c.ns]).Set lib key it.Val
        (it.Expires - (w1.now - it.Created)) tags w1 with
    | none =>
      rw [hset] at hr
      cases hr
    | some res =>
      rw [hset] at hr
      have hr' : r = (none, res.state) := (Option.some.inj hr).symm
      subst hr'
      refine logExt_trans P _ _ _ h (logExt_Set lib P _ ?_ key _ _ tags w1 res hset)
      intro s hs op
      have : s = s1 := by
        have hh : (New [WithStorage [s1], WithNamespace c.ns]).storage .PriorityHigh ++
            (New [WithStorage [s1], WithNamespace c.ns]).storage .PriorityMedium = [s1] := rfl
        rw [hh] at hs
        simpa using hs
      subst this
      exact hP1 op

theorem logExt_propagateAll (lib : Lib) (P : Event → Prop) (c : Cache) (s2 : Storage)
    (hP2 : ∀ op, P ⟨s2, op⟩) (it : item) (key : String) :
    ∀ (l : List Storage), (∀ s ∈ l, ∀ op, P ⟨s, op⟩) → ∀ (w w1 : World),
      c.propagateAll lib (some s2) it key l w = some w1 → World.logExt P w w1 := by
  intro l
  induction l with
  | nil =>
    intro _ w w1 h
    simp only [Cache.propagateAll, Option.some.injEq] at h
    subst h
    exact logExt_refl P w
  | cons s rest ih =>
    intro hl w w1 h
    simp only [Cache.propagateAll] at h
    cases hp : c.propagate lib s (some s2) it key w with
    | none => simp [hp] at h
    | some r =>
      simp only [hp] at h
      exact logExt_trans P _ _ _
        (logExt_propagate lib P c s s2 (hl s (by simp)) hP2 it key w r hp)
        (ih (fun x hx => hl x (by simp [hx])) r.2 w1 h)

/-! ## Get: the first storage that returns an item wins -/

theorem getHigh_of_error (lib : Lib) (c : Cache) (key : String) (s : Storage) (st : GetState)
    (v : Value) (err : Error) (h : st.world.readResult s (c.NsKey key) = (v, some err)) :
    c.getHigh lib key s st =
      some ((false, some err),
        { st with world := (Storage.Read s (c.NsKey key) st.world).2,
                  p := if err = .keyNotExist then st.p ++ [s] else st.p }) := by
  unfold Cache.getHigh
  rw [read_of_error lib c s key st.world v err h]

theorem getMedium_of_error (lib : Lib) (c : Cache) (key : String) (s : Storage)
    (st : GetState) (v : Value) (err : Error)
    (h : st.world.readResult s (c.NsKey key) = (v, some err)) :
    c.getMedium lib key s st =
      some ((false, some err), { st with world := (Storage.Read s (c.NsKey key) st.world).2 }) := by
  unfold Cache.getMedium
  rw [read_of_error lib c s key st.world v err h]

theorem getHigh_of_hit (lib : Lib) (c : Cache) (key : String) (s : Storage) (st : GetState)
    (v : Value) (h : st.world.readResult s (c.NsKey key) = (v, none))
    (hexp : (readItem lib v).expired st.world.now = false)
    (hdec : (lib.Decode (readItem lib v).Val st.out).1 = none) :
    c.getHigh lib key s st =
      some ((true, none),
        { st with world := (Storage.Read s (c.NsKey key) st.world).2,
                  it := some (readItem lib v), w := some s,
                  out := (lib.Decode (readItem lib v).Val st.out).2 }) := by
  unfold Cache.getHigh
  rw [read_of_value lib c s key st.world v h hexp]
  rcases hd : lib.Decode (readItem lib v).Val st.out with ⟨derr, o1⟩
  rw [hd] at hdec
  simp only at hdec
  subst hdec
  simp only [hd]

theorem getMedium_of_hit (lib : Lib) (c : Cache) (key : String) (s : Storage) (st : GetState)
    (v : Value) (h : st.world.readResult s (c.NsKey key) = (v, none))
    (hexp : (readItem lib v).expired st.world.now = false)
    (hdec : (lib.Decode (readItem lib v).Val st.out).1 = none) :
    c.getMedium lib key s st =
      some ((true, none),
        { st with world := (Storage.Read s (c.NsKey key) st.world).2,
                  it := some (readItem lib v), w := some s,
                  out := (lib.Decode (readItem lib v).Val st.out).2 }) := by
  unfold Cache.getMedium
  rw [read_of_value lib c s key st.world v h hexp]
  rcases hd : lib.Decode (readItem lib v).Val st.out with ⟨derr, o1⟩
  rw [hd] at hdec
  simp only at hdec
  subst hdec
  simp only [hd]

/-- The high pass of `Get` over storages whose `Read` reports an error falls through: each
has been read once, the candidates recorded are among them, nothing else has changed. -/
theorem get_highPass_of_errors (lib : Lib) (c : Cache) (key : String) :
    ∀ (l : List Storage) (e : Option Error) (st : GetState),
      (∀ r ∈ l, (st.world.readResult r (c.NsKey key)).2 ≠ none) →
      ∃ e' cands calls,
        Loop.highPass (c.getHigh lib key) l e st =
          some ⟨false, e',
            { st with world := readAll (c.NsKey key) l st.world, p := st.p ++ cands }, calls⟩ ∧
        (∀ x ∈ cands, x ∈ l) ∧ calls.map (fun call => call.storage) = l := by
  intro l
  induction l with
  | nil =>
    intro e st _
    exact ⟨e, [], [], by simp [Loop.highPass, readAll], by simp, rfl⟩
  | cons r rest ih =>
    intro e st h
    rcases hrr : st.world.readResult r (c.NsKey key) with ⟨v, err⟩
    cases err with
    | none =>
      have := h r (by simp)
      rw [hrr] at this
      exact absurd rfl this
    | some err =>
      have hstep := getHigh_of_error lib c key r st v err hrr
      obtain ⟨e', cands, calls, hp, hc, hm⟩ := ih (some (Append e err))
        { st with world := (Storage.Read r (c.NsKey key) st.world).2,
                  p := if err = .keyNotExist then st.p ++ [r] else st.p }
        (fun x hx => by
          simp only [Read_readResult]
          exact h x (by simp [hx]))
      refine ⟨e', (if err = .keyNotExist then [r] else []) ++ cands,
        ⟨.PriorityHigh, r, false, some err⟩ :: calls, ?_, ?_, by simp [hm]⟩
      · rw [Loop.highPass, hstep]
        simp only [hp, Option.map_some', Pass.addCall]
        by_cases hk : err = .keyNotExist <;> simp [hk, readAll]
      · intro x hx
        rcases List.mem_append.1 hx with hx | hx
        · by_cases hk : err = .keyNotExist
          · simp only [hk, if_true, List.mem_singleton] at hx
            simp [hx]
          · simp [hk] at hx
        · simp [hc x hx]

/-- The medium pass of `Get` over storages whose `Read` reports an error falls through. -/
theorem get_mediumPass_of_errors (lib : Lib) (c : Cache) (key : String) (e : Option Error) :
    ∀ (l : List Storage) (st : GetState),
      (∀ r ∈ l, (st.world.readResult r (c.NsKey key)).2 ≠ none) →
      ∃ calls,
        Loop.mediumPass (c.getMedium lib key) e l st =
          some ⟨false, e, { st with world := readAll (c.NsKey key) l st.world }, calls⟩ ∧
        calls.map (fun call => call.storage) = l := by
  intro l
  induction l with
  | nil =>
    intro st _
    exact ⟨[], by simp [Loop.mediumPass, readAll], rfl⟩
  | cons r rest ih =>
    intro st h
    rcases hrr : st.world.readResult r (c.NsKey key) with ⟨v, err⟩
    cases err with
    | none =>
      have := h r (by simp)
      rw [hrr] at this
      exact absurd rfl this
    | some err =>
      have hstep := getMedium_of_error lib c key r st v err hrr
      obtain ⟨calls, hp, hm⟩ := ih
        { st with world := (Storage.Read r (c.NsKey key) st.world).2 }
        (fun x hx => by
          simp only [Read_readResult]
          exact h x (by simp [hx]))
      refine ⟨⟨.PriorityMedium, r, false, some err⟩ :: calls, ?_, by simp [hm]⟩
      rw [Loop.mediumPass, hstep]
      simp only [hp, Option.map_some', Pass.addCall]
      simp [readAll]

/-- A medium pass over `pre ++ rest` whose part over `pre` falls through continues over
`rest` in the state reached. -/
theorem mediumPass_append {σ : Type} (medium : Handler σ) (e : Option Error)
    (rest : List Storage) :
    ∀ (pre : List Storage) (w : σ) (p : Pass σ),
      Loop.mediumPass medium e pre w = some p → p.returned = false →
      Loop.mediumPass medium e (pre ++ rest) w =
        (Loop.mediumPass medium e rest p.state).map
          (fun q => { q with calls := p.calls ++ q.calls }) := by
  intro pre
  induction pre with
  | nil =>
    intro w p h _
    simp [Loop.mediumPass] at h
    subst h
    simp
  | cons s pre ih =>
    intro w p h hr
    cases hs : medium s w with
    | none => simp [Loop.mediumPass, hs] at h
    | some r =>
      obtain ⟨⟨t, err⟩, w'⟩ := r
      cases t with
      | true =>
        simp only [Loop.mediumPass, hs, Option.some.injEq] at h
        subst h
        cases hr
      | false =>
        simp only [Loop.mediumPass, hs, Option.map_eq_some'] at h
        obtain ⟨q, hq, rfl⟩ := h
        have := ih _ _ hq hr
        show Loop.mediumPass medium e (s :: (pre ++ rest)) w = _
        rw [Loop.mediumPass]
        simp only [hs]
        rw [this]
        simp only [Pass.addCall]
        cases Loop.mediumPass medium e rest q.state <;> simp [Pass.addCall]

theorem logExt_readAll (P : Event → Prop) (key : String) (l : List Storage)
    (hP : ∀ r ∈ l, ∀ op, P ⟨r, op⟩) (w : World) : World.logExt P w (readAll key l w) := by
  refine ⟨l.map (fun s => ⟨s, .Read key⟩), readAll_log key l w, ?_⟩
  intro ev hev
  obtain ⟨r, hr, rfl⟩ := List.mem_map.1 hev
  exact hP r hr _

/-- First match in the high tier: the storages `pre` registered before `s` report an error,
`s` returns a value that is not an expired item and that decodes. -/
theorem Get_first_match_high (lib : Lib) (c : Cache) (key : String) (out : Value) (w : World)
    (pre post : List Storage) (s : Storage) (v : Value)
    (hc : c.storage .PriorityHigh = pre ++ s :: post)
    (hpre : ∀ r ∈ pre, (w.readResult r (c.NsKey key)).2 ≠ none)
    (hs : w.readResult s (c.NsKey key) = (v, none))
    (hexp : (readItem lib v).expired w.now = false)
    (hdec : (lib.Decode (readItem lib v).Val out).1 = none) :
    ∃ res, c.Get lib key out w = some res ∧ res.e = none ∧
      res.out = (lib.Decode (readItem lib v).Val out).2 ∧
      res.calls.map (fun call => call.storage) = pre ++ [s] ∧
      World.logExt (fun ev => ev.storage ∈ pre ++ [s]) w res.world := by
  obtain ⟨e', cands, calls, hp, hcands, hcalls⟩ :=
    get_highPass_of_errors lib c key pre none ⟨w, [], none, none, out⟩ hpre
  have hhit := getHigh_of_hit lib c key s
    { (⟨w, [], none, none, out⟩ : GetState) with
      world := readAll (c.NsKey key) pre w, p := [] ++ cands } v
    (by simp only [readAll_readResult]; exact hs)
    (by simp only [readAll_now]; exact hexp) hdec
  have happ := highPass_append (c.getHigh lib key) (s :: post) pre none _ _ hp rfl
  simp only [Loop.highPass, hhit, Option.map_some'] at happ
  obtain ⟨w3, hw3⟩ := propagateAll_total lib c s (readItem lib v) key ([] ++ cands)
    (Storage.Read s (c.NsKey key) (readAll (c.NsKey key) pre w)).2
  refine ⟨⟨none, (lib.Decode (readItem lib v).Val out).2, w3,
    calls ++ [⟨.PriorityHigh, s, true, none⟩]⟩, ?_, rfl, rfl, by simp [hcalls], ?_⟩
  · simp only [Cache.Get, Cache.get, Cache.Loop, hc, happ, if_true, hw3]
  · have hP : ∀ r ∈ pre ++ [s], ∀ op,
        (fun ev : Event => ev.storage ∈ pre ++ [s]) ⟨r, op⟩ := fun r hr _ => hr
    refine logExt_trans _ _ _ _
      (logExt_readAll _ (c.NsKey key) pre (fun r hr => hP r (by simp [hr])) w) ?_
    refine logExt_trans _ _ _ _
      (logExt_Read _ s (hP s (by simp)) (c.NsKey key) _) ?_
    exact logExt_propagateAll lib _ c s (hP s (by simp)) (readItem lib v) key _
      (fun r hr => hP r (by
        simp only [List.nil_append] at hr
        simp [hcands r hr])) _ _ hw3

/-- First match in the medium tier: every high-priority storage and the medium-priority
storages `pre` registered before `s` report an error, `s` returns a value that is not an
expired item and that decodes. -/
theorem Get_first_match_medium (lib : Lib) (c : Cache) (key : String) (out : Value)
    (w : World) (pre post : List Storage) (s : Storage) (v : Value)
    (hc : c.storage .PriorityMedium = pre ++ s :: post)
    (hhigh : ∀ r ∈ c.storage .PriorityHigh, (w.readResult r (c.NsKey key)).2 ≠ none)
    (hpre : ∀ r ∈ pre, (w.readResult r (c.NsKey key)).2 ≠ none)
    (hs : w.readResult s (c.NsKey key) = (v, none))
    (hexp : (readItem lib v).expired w.now = false)
    (hdec : (lib.Decode (readItem lib v).Val out).1 = none) :
    ∃ res, c.Get lib key out w = some res ∧ res.e = none ∧
      res.out = (lib.Decode (readItem lib v).Val out).2 ∧
      res.calls.map (fun call => call.storage) = c.storage .PriorityHigh ++ pre ++ [s] ∧
      World.logExt (fun ev => ev.storage ∈ c.storage .PriorityHigh ++ pre ++ [s]) w
        res.world := by
  obtain ⟨e', cands, calls, hp, hcands, hcalls⟩ :=
    get_highPass_of_errors lib c key (c.storage .PriorityHigh) none ⟨w, [], none, none, out⟩
      hhigh
  obtain ⟨calls2, hp2, hcalls2⟩ :=
    get_mediumPass_of_errors lib c key e' pre
      { (⟨w, [], none, none, out⟩ : GetState) with
        world := readAll (c.NsKey key) (c.storage .PriorityHigh) w, p := [] ++ cands }
      (fun r hr => by simp only [readAll_readResult]; exact hpre r hr)
  have hhit := getMedium_of_hit lib c key s
    { (⟨w, [], none, none, out⟩ : GetState) with
      world := readAll (c.NsKey key) pre
        (readAll (c.NsKey key) (c.storage .PriorityHigh) w), p := [] ++ cands } v
    (by simp only [readAll_readResult]; exact hs)
    (by simp only [readAll_now]; exact hexp) hdec
  have happ := mediumPass_append (c.getMedium lib key) e' (s :: post) pre _ _ hp2 rfl
  simp only [Loop.mediumPass, hhit, Option.map_some'] at happ
  obtain ⟨w3, hw3⟩ := propagateAll_total lib c s (readItem lib v) key ([] ++ cands)
    (Storage.Read s (c.NsKey key) (readAll (c.NsKey key) pre
      (readAll (c.NsKey key) (c.storage .PriorityHigh) w))).2
  refine ⟨⟨none, (lib.Decode (readItem lib v).Val out).2, w3,
    calls ++ (calls2 ++ [⟨.PriorityMedium, s, true, none⟩])⟩, ?_, rfl, rfl,
    by simp [hcalls, hcalls2], ?_⟩
  · simp only [Cache.Get, Cache.get, Cache.Loop, Option.getD_some, hp, hc, happ,
      Bool.false_eq_true, if_false, hw3]
  · have hP : ∀ r ∈ c.storage .PriorityHigh ++ pre ++ [s], ∀ op,
        (fun ev : Event => ev.storage ∈ c.storage .PriorityHigh ++ pre ++ [s]) ⟨r, op⟩ :=
      fun r hr _ => hr
    refine logExt_trans _ _ _ _
      (logExt_readAll _ (c.NsKey key) (c.storage .PriorityHigh)
        (fun r hr => hP r (by simp [hr])) w) ?_
    refine logExt_trans _ _ _ _
      (logExt_readAll _ (c.NsKey key) pre (fun r hr => hP r (by simp [hr])) _) ?_
    refine logExt_trans _ _ _ _
      (logExt_Read _ s (hP s (by simp)) (c.NsKey key) _) ?_
    exact logExt_propagateAll lib _ c s (hP s (by simp)) (readItem lib v) key _
      (fun r hr => hP r (by
        simp only [List.nil_append] at hr
        simp [hcands r hr])) _ _ hw3

/-- On a cache over a single in-memory storage that has no past expiry entry for
the namespaced key, `Get` after `Set(key, v, 0)` returns nil and decodes `v` (the scenario
of `TestCache_Get`); the instant of the `Get` is a parameter. -/
theorem Get_after_Set_no_expiry (lib : Lib) (c : Cache) (s : Storage) (key : String)
    (v out : Value) (w : World) (now' : Int)
    (hhigh : c.storage .PriorityHigh = [s]) (hmed : c.storage .PriorityMedium = [])
    (hmem : (w.heap s).isInMem = true)
    (hfresh : ∀ t, w.expire s (c.NsKey key) = some t → ¬ t < now')
    (hdec : (lib.Decode v out).1 = none) :
    ∃ r, c.Set lib key v 0 [] w = some r ∧ r.e = none ∧
      ∃ res, c.Get lib key out { r.state with now := now' } = some res ∧
        res.e = none ∧ res.out = (lib.Decode v out).2 := by
  have hse : w.storageError s = none := by
    unfold World.storageError
    cases hw : w.heap s with
    | mock err cl val => rw [hw] at hmem; cases hmem
    | InMem data expire => rfl
  have h2 := Set_no_tags lib c key v 0 w
  rw [hhigh, hmed] at h2
  simp only [List.append_nil, List.filterMap_cons, hse, List.filterMap_nil] at h2
  refine ⟨_, h2, rfl, ?_⟩
  generalize hrdef : (⟨appendAll none [], writeAll (c.NsKey key) (Value.item key v w.now 0) 0 [s] w,
    List.map (fun s => ⟨Priority.PriorityHigh, s, false, w.storageError s⟩) [s] ++
      List.map (fun s => ⟨Priority.PriorityMedium, s, false, w.storageError s⟩) []⟩ :
      LoopOut World) = r
  have hrs : r.state = writeAll (c.NsKey key) (Value.item key v w.now 0) 0 [s] w := by
    rw [← hrdef]
  have hheap : r.state.heap s = ((w.heap s).Write w.now (c.NsKey key) (.item key v w.now 0) 0).2 := by
    rw [hrs]
    simp only [writeAll, List.foldl_cons, List.foldl_nil]
    exact Write_heap_self _ _ _ _ _
  have hread : ({ r.state with now := now' } : World).readResult s (c.NsKey key) =
      (.item key v w.now 0, none) := by
    unfold World.readResult
    simp only [hheap]
    cases hw : w.heap s with
    | mock err cl val => rw [hw] at hmem; cases hmem
    | InMem data expire =>
      have hf : ∀ t, expire (c.NsKey key) = some t → ¬ t < now' := by
        intro t ht
        apply hfresh t
        simp [World.expire, hw, ht]
      simp only [StorageState.Write, InMem.Write, ne_eq, not_true_eq_false, if_false,
        StorageState.Read, InMem.Read, mapSet, if_true]
      cases hex : expire (c.NsKey key) with
      | none => rfl
      | some t => simp [hf t hex]
  obtain ⟨res, hres, hre, hro, _, _⟩ :=
    Get_first_match_high lib c key out { r.state with now := now' } [] [] s
      (.item key v w.now 0) (by rw [hhigh]; rfl) (by simp) hread (by simp [readItem, item.expired])
      (by simpa [readItem] using hdec)
  exact ⟨res, hres, hre, by simpa [readItem] using hro⟩

/-! ## the tag index at concrete inputs -/

/-- C11, the code at the failing input. On an empty in-memory storage, `Tag(s, "key2", "t")`
followed by `Tag(s, "key1", "t")` leaves `["key1"]` as the key-set of `t`: inserting `key1`
before `key2` writes it over `key2`. So `t` is in `Tags(s, "key2")` while `key2` is not in
`Keys(s, "t")`. -/
theorem C11_descending_tagging_breaks_index :
    exWorldDescending.keySet exTagger 0 "t" = some (.strs ["key1"]) ∧
    exWorldDescending.tagList exTagger 0 "key2" = some (.strs ["t"]) ∧
    (exTagger.Tags exLib 0 "key2" exWorldDescending).1 = (["t"], none) ∧
    (exTagger.Keys exLib 0 "t" exWorldDescending).1 = (["key1"], none) ∧
    "t" ∈ (exTagger.Tags exLib 0 "key2" exWorldDescending).1.1 ∧
    "key2" ∉ (exTagger.Keys exLib 0 "t" exWorldDescending).1.1 := by
  decide!

/-- C13, the code at the failing input. On an empty in-memory storage, `Tag(s, "k", "a")`
followed by `Tag(s, "k", "a", "b")` stores the tag list `["a", "a", "b"]` for `k`, and a
single `Tag(s, "k", "a", "a")` stores `["a", "a"]`: the tag `a` is stored twice. -/
theorem C13_tag_list_holds_duplicates :
    exWorldOverlap.tagList exTagger 0 "k" = some (.strs ["a", "a", "b"]) ∧
    (exTagger.Tags exLib 0 "k" exWorldOverlap).1 = (["a", "a", "b"], none) ∧
    exWorldRepeat.tagList exTagger 0 "k" = some (.strs ["a", "a"]) ∧
    (exTagger.Tags exLib 0 "k" exWorldRepeat).1.1.count "a" = 2 := by
  decide!

/-- C14, the code at the failing input. After `Set("a", 1, 0, "t")` and
`Set("k", 2, 0, "t", "t")` on one in-memory storage, the key-set of `t` is `["a", "k"]` and
the tag list of `k` is `["t", "t"]`. `Del("k")` returns nil and removes the whole key-set
entry of `t`, although `a` was not deleted, keeps its value and still has `t` in its tag
list. After `Set("key2", 2, 0, "t")` and `Set("key1", 1, 0, "t")` the same happens with
`Del("key2")`. -/
theorem C14_del_removes_other_keys_from_key_sets :
    exWorldSetRepeat.keySet exTest.tagger 0 "t" = some (.strs ["a", "k"]) ∧
    exWorldSetRepeat.tagList exTest.tagger 0 "k" = some (.strs ["t", "t"]) ∧
    (exTest.Del exLib ["k"] exWorldSetRepeat).map (fun r => r.e) = some none ∧
    (stateOr (exTest.Del exLib ["k"] exWorldSetRepeat) exWorld).data 0 "go:test:k" = none ∧
    (stateOr (exTest.Del exLib ["k"] exWorldSetRepeat) exWorld).data 0 "go:test:a" =
      some (.item "a" (.int 1) 0 0) ∧
    (stateOr (exTest.Del exLib ["k"] exWorldSetRepeat) exWorld).tagList exTest.tagger 0 "a" =
      some (.strs ["t"]) ∧
    (stateOr (exTest.Del exLib ["k"] exWorldSetRepeat) exWorld).keySet exTest.tagger 0 "t" =
      none ∧
    exWorldSetDescending.keySet exTest.tagger 0 "t" = some (.strs ["key1"]) ∧
    (exTest.Del exLib ["key2"] exWorldSetDescending).map (fun r => r.e) = some none ∧
    (stateOr (exTest.Del exLib ["key2"] exWorldSetDescending) exWorld).data 0 "go:test:key1" =
      some (.item "key1" (.int 1) 0 0) ∧
    (stateOr (exTest.Del exLib ["key2"] exWorldSetDescending) exWorld).tagList exTest.tagger 0
      "key1" = some (.strs ["t"]) ∧
    (stateOr (exTest.Del exLib ["key2"] exWorldSetDescending) exWorld).keySet exTest.tagger 0
      "t" = none := by
  decide!

/-- C15, the code at the failing input. After `Set("key2", 2, 0, "t")` and
`Set("key1", 1, 0, "t")` on one in-memory storage, `DelByTag("t")` returns nil and deletes
`key1` only: `key2`, which was set with the tag `t`, keeps its value and its tag list. -/
theorem C15_del_by_tag_misses_a_tagged_key :
    (exTest.DelByTag exLib ["t"] exWorldSetDescending).map (fun r => r.e) = some none ∧
    (stateOr (exTest.DelByTag exLib ["t"] exWorldSetDescending) exWorld).data 0
      "go:test:key1" = none ∧
    (stateOr (exTest.DelByTag exLib ["t"] exWorldSetDescending) exWorld).data 0
      "go:test:key2" = some (.item "key2" (.int 2) 0 0) ∧
    (stateOr (exTest.DelByTag exLib ["t"] exWorldSetDescending) exWorld).tagList exTest.tagger 0
      "key2" = some (.strs ["t"]) ∧
    (stateOr (exTest.DelByTag exLib ["t"] exWorldSetDescending) exWorld).keySet exTest.tagger 0
      "t" = none := by
  decide!

/-- C17, the code at the failing input. A key `k` tagged with `a` and `b` has the stored tag
list `["a", "b"]`; `UnTag(s, "k", "a")` returns nil and deletes the tag-list entry of `k`,
so that `Tags(s, "k")` is empty although the tag `b` remains (and `k` is still in the key-set
of `b`). -/
theorem C17_untag_deletes_the_tag_list :
    exWorldTwoTags.tagList exTagger 0 "k" = some (.strs ["a", "b"]) ∧
    (exTagger.UnTag exLib 0 "k" ["a"] exWorldTwoTags).1 = none ∧
    (exTagger.UnTag exLib 0 "k" ["a"] exWorldTwoTags).2.tagList exTagger 0 "k" = none ∧
    (exTagger.Tags exLib 0 "k" (exTagger.UnTag exLib 0 "k" ["a"] exWorldTwoTags).2).1 =
      ([], none) ∧
    (exTagger.UnTag exLib 0 "k" ["a"] exWorldTwoTags).2.keySet exTagger 0 "b" =
      some (.strs ["k"]) := by
  decide!

/-- C18, the code at the failing input. With the sorted key-set `["a", "c"]` stored for the
tag `t`, removing the key `b`, which is not a member, removes the member `a`: the stored
key-set becomes `["c"]`, by `removeKeysFromTag` and by `UnTag(s, "b", "t")` alike. -/
theorem C18_removing_a_non_member_removes_a_member :
    exWorldAC.keySet exTagger 0 "t" = some (.strs ["a", "c"]) ∧
    removeAtSearch ["a", "c"] "b" = ["c"] ∧
    (exTagger.removeKeysFromTag exLib 0 "tag:t:keys" ["b"] exWorldAC).2.keySet exTagger 0 "t" =
      some (.strs ["c"]) ∧
    (exTagger.UnTag exLib 0 "b" ["t"] exWorldAC).2.keySet exTagger 0 "t" =
      some (.strs ["c"]) := by
  decide!

/-- C19, the code at the failing input. In a cache with namespace `go:test` over one
in-memory storage, `Set("key2", "acbd", 60s)` at instant 0 stores the item under
`go:test:key2`. `Extend("key2", 2s)` at instant 7 returns nil, leaves that entry and its
expiry as they were, and writes the re-stamped item under the storage key `key2`. -/
theorem C19_extend_writes_under_the_bare_key :
    exWorldMinute.data 0 "go:test:key2" = some (.item "key2" (.str "acbd") 0 60000000000) ∧
    exWorldMinute.data 0 "key2" = none ∧
    ∃ r, exTest.Extend "key2" 2000000000 exWorldMinute = some r ∧ r.e = none ∧
      r.state.data 0 "go:test:key2" = some (.item "key2" (.str "acbd") 0 60000000000) ∧
      r.state.expire 0 "go:test:key2" = some 60000000000 ∧
      r.state.data 0 "key2" = some (.item "key2" (.str "acbd") 7 2000000000) ∧
      r.state.expire 0 "key2" = some 2000000007 :=
  ⟨rfl, rfl, _, rfl, rfl, rfl, rfl, rfl, rfl⟩

/-- C20. In the in-memory storage, whatever it held before, `Write(key, v, d)` with `d > 0`
at the instant `t0` succeeds, and on the resulting storage `Read(key)` at an instant
`t ≤ t0 + d` returns `v` with no error and changes nothing, while `Read(key)` at an instant
`t > t0 + d` returns `(nil, ErrKeyNotExist)` and leaves a storage without data entry and
without expiry entry for the key. -/
theorem C20_in_memory_expiry (data : String → Option Value) (expire : String → Option Int)
    (key : String) (v : Value) (d t0 t : Int) (hd : 0 < d) :
    (InMem.Write data expire t0 key v d).1 = none ∧
    (t ≤ t0 + d →
      (InMem.Write data expire t0 key v d).2.Read t key =
        ((v, none), (InMem.Write data expire t0 key v d).2)) ∧
    (t0 + d < t →
      ((InMem.Write data expire t0 key v d).2.Read t key).1 = (.nil, some .keyNotExist) ∧
      ∃ data1 expire1,
        ((InMem.Write data expire t0 key v d).2.Read t key).2 = .InMem data1 expire1 ∧
        data1 key = none ∧ expire1 key = none) := by
  have hd0 : d ≠ 0 := by omega
  refine ⟨rfl, ?_, ?_⟩
  · intro ht
    have h : ¬ t0 + d < t := by omega
    simp [InMem.Write, StorageState.Read, InMem.Read, mapSet, hd0, h]
  · intro ht
    have h1 : (InMem.Write data expire t0 key v d).2.Read t key =
        ((.nil, some .keyNotExist),
          .InMem (mapDelete (mapSet data key v) key)
            (mapDelete (mapSet expire key (t0 + d)) key)) := by
      simp [InMem.Write, StorageState.Read, InMem.Read, mapSet, hd0, ht]
    rw [h1]
    exact ⟨rfl, _, _, rfl, by simp [mapDelete], by simp [mapDelete]⟩

/-- C20 at a concrete input: a storage holding a stale expiry for the key, `Write` with
`d = 2` at instant 10, then `Read` at instant 12 and at instant 13. -/
theorem C20_in_memory_expiry_witness :
    (0 : Int) < 2 ∧
    ((InMem.Write (fun _ => none) (mapSet (fun _ => none) "k" 1) 10 "k" (.int 5) 2).2.Read
      12 "k").1 = (.int 5, none) ∧
    ((InMem.Write (fun _ => none) (mapSet (fun _ => none) "k" 1) 10 "k" (.int 5) 2).2.Read
      13 "k").1 = (.nil, some .keyNotExist) :=
  ⟨by decide,
    by rw [((C20_in_memory_expiry (fun _ => none) (mapSet (fun _ => none) "k" 1) "k" (.int 5)
      2 10 12 (by decide)).2.1 (by decide))],
    ((C20_in_memory_expiry (fun _ => none) (mapSet (fun _ => none) "k" 1) "k" (.int 5)
      2 10 13 (by decide)).2.2 (by decide)).1⟩

/-! ## `ByTag` -/

theorem taggedValue_congr (lib : Lib) (c : Cache) (w w1 : World) (s : Storage)
    (h : ∀ r k, w1.readResult r k = w.readResult r k) :
    c.taggedValue lib w1 s = c.taggedValue lib w s := by
  funext key
  simp [Cache.taggedValue, h]

/-- The `for` of the handler of `ByTag` appends, in the order of the keys, what each key
contributes, and only reads the storage at hand. -/
theorem byTagRead_spec (lib : Lib) (c : Cache) (s : Storage) :
    ∀ (keys : List String) (output : List Value) (w : World),
      (c.byTagRead lib s keys output w).1 = output ++ keys.filterMap (c.taggedValue lib w s) ∧
      (∀ r k, (c.byTagRead lib s keys output w).2.readResult r k = w.readResult r k) ∧
      World.logExt (fun ev => ev.storage = s) w (c.byTagRead lib s keys output w).2 := by
  intro keys
  induction keys with
  | nil => intro output w; exact ⟨by simp [Cache.byTagRead], fun _ _ => rfl, logExt_refl _ _⟩
  | cons key rest ih =>
    intro output w
    have hrr := Read_readResult s (c.NsKey key) w
    have hfst := Read_fst s (c.NsKey key) w
    have hlog := logExt_Read (fun ev => ev.storage = s) s (fun _ => rfl) (c.NsKey key) w
    rw [Cache.byTagRead]
    generalize Storage.Read s (c.NsKey key) w = r0 at hrr hfst hlog
    obtain ⟨⟨v, err⟩, w1⟩ := r0
    simp only at hrr hfst hlog ⊢
    obtain ⟨h1, h2, h3⟩ := ih
      (if (c.item lib v).Val ≠ .nil then output ++ [(c.item lib v).Val] else output) w1
    refine ⟨?_, fun r k => (h2 r k).trans (hrr r k), logExt_trans _ _ _ _ hlog h3⟩
    rw [h1, taggedValue_congr lib c w w1 s hrr]
    have hv : (w.readResult s (c.NsKey key)).1 = v := by rw [← hfst]
    by_cases hnil : (c.item lib v).Val = .nil
    · simp [Cache.taggedValue, hv, hnil]
    · simp [Cache.taggedValue, hv, hnil]

theorem Keys_snd (lib : Lib) (t : std) (s : Storage) (tag : String) (w : World) :
    (t.Keys lib s tag w).2 = (Storage.Read s (t.nsKey ("tag:" ++ tag ++ ":keys")) w).2 := by
  unfold std.Keys
  generalize Storage.Read s (t.nsKey ("tag:" ++ tag ++ ":keys")) w = r0
  obtain ⟨⟨v, err⟩, w1⟩ := r0
  simp only
  split <;> rfl

/-- What the handler of `ByTag` does on a storage that answers the tag lookup. -/
theorem byTagHandler_spec (lib : Lib) (c : Cache) (tag : String) (s : Storage)
    (st : ByTagState) (hkeys : (c.tagger.Keys lib s tag st.world).1.2 = none) :
    ∃ w1, c.byTagHandler lib tag s st =
        some ((true, (byTagDecode lib (((c.tagger.Keys lib s tag st.world).1.1).filterMap
          (c.taggedValue lib st.world s)) st.out).1),
          ⟨w1, (byTagDecode lib (((c.tagger.Keys lib s tag st.world).1.1).filterMap
            (c.taggedValue lib st.world s)) st.out).2⟩) ∧
      World.logExt (fun ev => ev.storage = s) st.world w1 := by
  have hsnd := Keys_snd lib c.tagger s tag st.world
  have hrr := Read_readResult s (c.tagger.nsKey ("tag:" ++ tag ++ ":keys")) st.world
  have hlog := logExt_Read (fun ev => ev.storage = s) s (fun _ => rfl)
    (c.tagger.nsKey ("tag:" ++ tag ++ ":keys")) st.world
  rw [← hsnd] at hrr hlog
  unfold Cache.byTagHandler
  generalize c.tagger.Keys lib s tag st.world = r0 at hkeys hrr hlog ⊢
  obtain ⟨⟨keys, err⟩, w1⟩ := r0
  simp only at hkeys hrr hlog ⊢
  subst hkeys
  obtain ⟨h1, _, h3⟩ := byTagRead_spec lib c s keys [] w1
  rw [taggedValue_congr lib c st.world w1 s hrr, List.nil_append] at h1
  refine ⟨(c.byTagRead lib s keys [] w1).2, ?_, logExt_trans _ _ _ _ hlog h3⟩
  rw [← h1]

/-! ## binary search and the sorted key-sets -/

/-- The loop of `sort.Search` on a predicate that is monotone on `[0, n)`: started on a
window that brackets the first true index, with enough fuel, it returns that index. -/
theorem Search_loop_spec (f : Nat → Bool) (n : Nat)
    (hmono : ∀ a b, a ≤ b → b < n → f a = true → f b = true) :
    ∀ (fuel i j : Nat), i ≤ j → j ≤ n → j - i < fuel →
      (∀ k, k < i → f k = false) → (∀ k, j ≤ k → k < n → f k = true) →
      Search.loop f fuel i j ≤ n ∧
      (∀ k, k < Search.loop f fuel i j → f k = false) ∧
      (∀ k, Search.loop f fuel i j ≤ k → k < n → f k = true) := by
  intro fuel
  induction fuel with
  | zero => intro i j _ _ h; omega
  | succ fuel ih =>
    intro i j hij hjn hfuel hlo hhi
    rw [Search.loop]
    by_cases hlt : i < j
    · simp only [hlt, if_true]
      have hh1 : i ≤ (i + j) / 2 := by omega
      have hh2 : (i + j) / 2 < j := by omega
      cases hf : f ((i + j) / 2) with
      | false =>
        simp only [Bool.not_false, if_true]
        refine ih ((i + j) / 2 + 1) j (by omega) hjn (by omega) ?_ hhi
        intro k hk
        cases hfk : f k with
        | false => rfl
        | true =>
          have := hmono k ((i + j) / 2) (by omega) (by omega) hfk
          rw [hf] at this
          cases this
      | true =>
        simp only [Bool.not_true, Bool.false_eq_true, if_false]
        refine ih i ((i + j) / 2) hh1 (by omega) (by omega) hlo ?_
        intro k hk hkn
        exact hmono _ k hk hkn hf
    · simp only [hlt, if_false]
      have hij' : i = j := by omega
      subst hij'
      exact ⟨hjn, hlo, hhi⟩

/-- Go `sort.Search` on a predicate that is monotone on `[0, n)` returns the first index at
which it is true, or `n`. -/
theorem Search_spec (f : Nat → Bool) (n : Nat)
    (hmono : ∀ a b, a ≤ b → b < n → f a = true → f b = true) :
    Search n f ≤ n ∧ (∀ k, k < Search n f → f k = false) ∧
      (∀ k, Search n f ≤ k → k < n → f k = true) :=
  Search_loop_spec f n hmono (n + 1) 0 n (Nat.zero_le _) (Nat.le_refl _) (by omega)
    (fun k hk => by omega) (fun k hk hkn => by omega)

/-- Go `sort.Search` returns an index of `[0, n]`, whatever the predicate. -/
theorem Search_le (f : Nat → Bool) (n : Nat) : Search n f ≤ n := by
  have h : ∀ (fuel i j : Nat), i ≤ j → Search.loop f fuel i j ≤ j := by
    intro fuel
    induction fuel with
    | zero => intro i j hij; exact hij
    | succ fuel ih =>
      intro i j hij
      rw [Search.loop]
      by_cases hlt : i < j
      · simp only [hlt, if_true]
        cases hf : f ((i + j) / 2) with
        | false =>
          simp only [Bool.not_false, if_true]
          exact ih _ _ (by omega)
        | true =>
          simp only [Bool.not_true, Bool.false_eq_true, if_false]
          exact Nat.le_trans (ih _ _ (by omega)) (by omega)
      · simp only [hlt, if_false]
        exact hij
  exact h (n + 1) 0 n (Nat.zero_le _)

/-- The search of `insertIntoSorted` and `removeKeysFromTag` in a sorted list: every
element before the index is at most `val`, every element from the index on is greater. -/
theorem Search_sorted (l : List String) (val : String) (hl : l.Pairwise (· < ·)) :
    Search l.length (fun i => decide (val < l.getD i "")) ≤ l.length ∧
    (∀ k (hk : k < l.length),
      k < Search l.length (fun i => decide (val < l.getD i "")) → l[k] ≤ val) ∧
    (∀ k (hk : k < l.length),
      Search l.length (fun i => decide (val < l.getD i "")) ≤ k → val < l[k]) := by
  have hmono : ∀ a b, a ≤ b → b < l.length →
      (fun i => decide (val < l.getD i "")) a = true →
      (fun i => decide (val < l.getD i "")) b = true := by
    intro a b hab hb ha
    have ha' : a < l.length := by omega
    simp only [List.getD_eq_getElem l "" ha', List.getD_eq_getElem l "" hb,
      decide_eq_true_eq] at ha ⊢
    rcases Nat.eq_or_lt_of_le hab with h | h
    · subst h; exact ha
    · exact lt_trans ha (List.pairwise_iff_getElem.1 hl a b ha' hb h)
  obtain ⟨h1, h2, h3⟩ := Search_spec _ l.length hmono
  refine ⟨h1, ?_, ?_⟩
  · intro k hk hlt
    have := h2 k hlt
    simp only [List.getD_eq_getElem l "" hk, decide_eq_false_iff_not] at this
    exact not_lt.1 this
  · intro k hk hle
    have := h3 k hle hk
    simp only [List.getD_eq_getElem l "" hk, decide_eq_true_eq] at this
    exact this

/-- In a strictly sorted list that holds `val`, the search returns the index after `val`. -/
theorem Search_of_mem (l : List String) (val : String) (hl : l.Pairwise (· < ·))
    (hmem : val ∈ l) :
    ∃ (h : Search l.length (fun i => decide (val < l.getD i "")) - 1 < l.length),
      Search l.length (fun i => decide (val < l.getD i "")) ≠ 0 ∧
      l[Search l.length (fun i => decide (val < l.getD i "")) - 1] = val := by
  obtain ⟨h1, h2, h3⟩ := Search_sorted l val hl
  obtain ⟨m, hm, hmv⟩ := List.mem_iff_getElem.1 hmem
  have hgt : m < Search l.length (fun i => decide (val < l.getD i "")) := by
    by_contra hcon
    have := h3 m hm (by omega)
    rw [hmv] at this
    exact lt_irrefl _ this
  have hlen : Search l.length (fun i => decide (val < l.getD i "")) - 1 < l.length := by omega
  refine ⟨hlen, by omega, ?_⟩
  by_contra hne
  have hle := h2 _ hlen (by omega)
  have hmlt : m < Search l.length (fun i => decide (val < l.getD i "")) - 1 := by
    rcases Nat.lt_or_ge m (Search l.length (fun i => decide (val < l.getD i "")) - 1) with h | h
    · exact h
    · have hmeq : m = Search l.length (fun i => decide (val < l.getD i "")) - 1 := by omega
      exact absurd (by simp only [← hmeq]; exact hmv) hne
  have := List.pairwise_iff_getElem.1 hl m _ hm hlen hmlt
  rw [hmv] at this
  exact absurd (lt_of_lt_of_le this hle) (lt_irrefl _)

/-- Go `insertIntoSorted` leaves a strictly sorted list that holds the value as it is. -/
theorem insertIntoSorted_of_mem (l : List String) (val : String) (hl : l.Pairwise (· < ·))
    (hmem : val ∈ l) : insertIntoSorted l val = l := by
  obtain ⟨hlen, hne, hval⟩ := Search_of_mem l val hl hmem
  have hl0 : l.length ≠ 0 := by
    intro h
    rw [List.length_eq_zero] at h
    subst h
    cases hmem
  unfold insertIntoSorted
  simp only [hl0, if_false]
  rw [if_pos]
  exact ⟨hne, by rw [List.getD_eq_getElem l "" hlen]; exact hval⟩

/-- The result of Go `insertIntoSorted` holds the value. -/
theorem mem_insertIntoSorted (l : List String) (val : String) :
    val ∈ insertIntoSorted l val := by
  unfold insertIntoSorted
  by_cases hl0 : l.length = 0
  · simp [hl0]
  · simp only [hl0, if_false]
    split
    · rename_i h
      have hlt : Search l.length (fun i => decide (val < l.getD i "")) - 1 < l.length ∨
          ¬ Search l.length (fun i => decide (val < l.getD i "")) - 1 < l.length := by omega
      have hle := Search_le (fun i => decide (val < l.getD i "")) l.length
      rcases hlt with hlt | hlt
      · rw [List.getD_eq_getElem l "" hlt] at h
        rw [← h.2]
        exact List.getElem_mem _
      · omega
    · split
      · rename_i h
        rw [List.getD_eq_getElem l "" h.1] at h
        rw [← h.2]
        exact List.getElem_mem _
      · split <;> simp

/-- Go `insertIntoSorted` keeps a strictly sorted list strictly sorted. -/
theorem insertIntoSorted_sorted (l : List String) (val : String) (hl : l.Pairwise (· < ·)) :
    (insertIntoSorted l val).Pairwise (· < ·) := by
  obtain ⟨h1, h2, h3⟩ := Search_sorted l val hl
  unfold insertIntoSorted
  by_cases hl0 : l.length = 0
  · simp [hl0]
  · simp only [hl0, if_false]
    split
    · exact hl
    · rename_i hfirst
      split
      · exact hl
      · -- every element before the index is smaller than the value
        have hbefore : ∀ k (hk : k < l.length),
            k < Search l.length (fun i => decide (val < l.getD i "")) → l[k] < val := by
          intro k hk hlt
          have hp : Search l.length (fun i => decide (val < l.getD i "")) - 1 < l.length := by
            omega
          have hle := h2 _ hp (by omega)
          have hne : l[Search l.length (fun i => decide (val < l.getD i "")) - 1] ≠ val := by
            intro heq
            apply hfirst
            exact ⟨by omega, by rw [List.getD_eq_getElem l "" hp]; exact heq⟩
          have hlast := lt_of_le_of_ne hle hne
          rcases Nat.lt_or_ge k (Search l.length (fun i => decide (val < l.getD i "")) - 1)
            with h | h
          · exact lt_trans (List.pairwise_iff_getElem.1 hl k _ hk hp h) hlast
          · have hk' : k = Search l.length (fun i => decide (val < l.getD i "")) - 1 := by
              omega
            subst hk'
            exact hlast
        split
        · rename_i hend
          rw [List.pairwise_append]
          refine ⟨hl, List.pairwise_singleton _ _, ?_⟩
          intro a ha b hb
          rw [List.mem_singleton] at hb
          subst hb
          obtain ⟨k, hk, rfl⟩ := List.mem_iff_getElem.1 ha
          exact hbefore k hk (by omega)
        · rename_i hend
          have hidx : Search l.length (fun i => decide (val < l.getD i "")) < l.length := by
            omega
          rw [List.append_assoc, List.pairwise_append]
          refine ⟨List.Pairwise.sublist (List.take_sublist _ _) hl, ?_, ?_⟩
          · rw [List.singleton_append, List.pairwise_cons]
            refine ⟨?_, List.Pairwise.sublist (List.drop_sublist _ _) hl⟩
            intro b hb
            obtain ⟨k, hk, rfl⟩ := List.mem_iff_getElem.1 hb
            rw [List.getElem_drop]
            rw [List.length_drop] at hk
            exact h3 _ (by omega) (by omega)
          · intro a ha b hb
            have hav : a < val := by
              obtain ⟨k, hk, rfl⟩ := List.mem_iff_getElem.1 ha
              rw [List.getElem_take]
              rw [List.length_take] at hk
              exact hbefore k (by omega) (by omega)
            rw [List.singleton_append, List.mem_cons] at hb
            rcases hb with hb | hb
            · subst hb; exact hav
            · obtain ⟨k, hk, rfl⟩ := List.mem_iff_getElem.1 hb
              rw [List.getElem_drop]
              rw [List.length_drop] at hk
              exact lt_trans hav (h3 _ (by omega) (by omega))

/-- One iteration of the `for` of `removeKeysFromTag` returns a sublist. -/
theorem removeAtSearch_sublist (l : List String) (key : String) :
    (removeAtSearch l key).Sublist l := by
  unfold removeAtSearch
  simp only
  split
  · rename_i h
    have h1 : l = l.take (Search l.length (fun i => decide (key < l.getD i "")) - 1) ++
        l.drop (Search l.length (fun i => decide (key < l.getD i "")) - 1) :=
      (List.take_append_drop _ _).symm
    conv => rhs; rw [h1]
    exact List.Sublist.append (List.Sublist.refl _)
      (List.drop_sublist_drop_left l (by omega))
  · exact List.Sublist.refl _

/-- The tag list `addTagsToKey` builds holds every given tag. -/
theorem addTags_mem (T : List String) :
    ∀ (l sl : List String), (∀ x ∈ l, x ∈ T) →
      (∀ x ∈ sl, x ∈ l.foldl (fun sl tag => if tag ∈ sl then sl else sl ++ T) sl) ∧
      (∀ x ∈ l, x ∈ l.foldl (fun sl tag => if tag ∈ sl then sl else sl ++ T) sl) := by
  intro l
  induction l with
  | nil => intro sl _; exact ⟨fun x hx => hx, fun x hx => by cases hx⟩
  | cons a rest ih =>
    intro sl hT
    have hrest : ∀ x ∈ rest, x ∈ T := fun x hx => hT x (List.mem_cons_of_mem _ hx)
    obtain ⟨ih1, ih2⟩ := ih (if a ∈ sl then sl else sl ++ T) hrest
    have hgrow : ∀ x ∈ sl, x ∈ (if a ∈ sl then sl else sl ++ T) := by
      intro x hx
      split
      · exact hx
      · exact List.mem_append_left _ hx
    have ha : a ∈ (if a ∈ sl then sl else sl ++ T) := by
      split
      · assumption
      · exact List.mem_append_right _ (hT a (List.mem_cons_self _ _))
    refine ⟨fun x hx => ih1 x (hgrow x hx), ?_⟩
    intro x hx
    rw [List.mem_cons] at hx
    rcases hx with hx | hx
    · subst hx; exact ih1 _ ha
    · exact ih2 x hx

/-- A tag list that holds every given tag is left as it is by `addTagsToKey`. -/
theorem addTags_fixed (T : List String) :
    ∀ (l sl : List String), (∀ x ∈ l, x ∈ sl) →
      l.foldl (fun sl tag => if tag ∈ sl then sl else sl ++ T) sl = sl := by
  intro l
  induction l with
  | nil => intro sl _; rfl
  | cons a rest ih =>
    intro sl h
    rw [List.foldl_cons, if_pos (h a (List.mem_cons_self _ _))]
    exact ih sl (fun x hx => h x (List.mem_cons_of_mem _ hx))

/-! ## the storage calls on in-memory storages -/

theorem Read_isInMem (s : Storage) (key : String) (w : World) (r : Storage) :
    ((Storage.Read s key w).2.heap r).isInMem = (w.heap r).isInMem := by
  by_cases hr : r = s
  · subst hr
    rw [Read_heap_self]
    cases h : w.heap r with
    | mock err cl val => rfl
    | InMem data expire =>
      simp only [StorageState.Read, InMem.Read]
      cases data key with
      | none => rfl
      | some v =>
        cases expire key with
        | none => rfl
        | some e => simp only; split <;> rfl
  · rw [Read_heap_ne _ _ _ _ hr]

/-- A `Read` leaves each entry of each storage as it is, or deletes its data and its expiry
together. -/
theorem Read_data_expire (s : Storage) (key : String) (w : World) (r : Storage) (k : String) :
    ((Storage.Read s key w).2.data r k = w.data r k ∧
      (Storage.Read s key w).2.expire r k = w.expire r k) ∨
    ((Storage.Read s key w).2.data r k = none ∧
      (Storage.Read s key w).2.expire r k = none) := by
  unfold World.data World.expire
  by_cases hr : r = s
  · subst hr
    rw [Read_heap_self]
    cases h : w.heap r with
    | mock err cl val => left; exact ⟨rfl, rfl⟩
    | InMem data expire =>
      simp only [StorageState.Read, InMem.Read]
      cases data key with
      | none => left; exact ⟨rfl, rfl⟩
      | some v =>
        cases expire key with
        | none => left; exact ⟨rfl, rfl⟩
        | some e =>
          by_cases he : e < w.now
          · by_cases hk : k = key
            · right; simp [mapDelete, hk, he]
            · left; simp [mapDelete, hk, he]
          · left; simp [he]
  · rw [Read_heap_ne _ _ _ _ hr]
    left; exact ⟨rfl, rfl⟩

theorem Delete_now (s : Storage) (key : String) (w : World) :
    (Storage.Delete s key w).2.now = w.now := rfl

theorem Delete_heap_ne (s : Storage) (key : String) (w : World) (r : Storage) (hr : r ≠ s) :
    (Storage.Delete s key w).2.heap r = w.heap r := by
  simp [Storage.Delete, World.setStorage, World.record, hr]

theorem Delete_heap_self (s : Storage) (key : String) (w : World) :
    (Storage.Delete s key w).2.heap s = ((w.heap s).Delete key).2 := by
  simp [Storage.Delete, World.setStorage, World.record]

theorem Delete_isInMem (s : Storage) (key : String) (w : World) (r : Storage) :
    ((Storage.Delete s key w).2.heap r).isInMem = (w.heap r).isInMem := by
  by_cases hr : r = s
  · subst hr
    rw [Delete_heap_self]
    cases h : w.heap r <;> rfl
  · rw [Delete_heap_ne _ _ _ _ hr]

theorem Delete_data (s : Storage) (key : String) (w : World) (r : Storage) (k : String) :
    (Storage.Delete s key w).2.data r k = if r = s ∧ k = key then none else w.data r k := by
  unfold World.data
  by_cases hr : r = s
  · subst hr
    rw [Delete_heap_self]
    cases h : w.heap r with
    | mock err cl val => simp [StorageState.Delete]
    | InMem data expire =>
      by_cases hk : k = key <;> simp [StorageState.Delete, InMem.Delete, mapDelete, hk]
  · rw [Delete_heap_ne _ _ _ _ hr]
    simp [hr]

theorem Delete_expire (s : Storage) (key : String) (w : World) (r : Storage) (k : String) :
    (Storage.Delete s key w).2.expire r k =
      if r = s ∧ k = key then none else w.expire r k := by
  unfold World.expire
  by_cases hr : r = s
  · subst hr
    rw [Delete_heap_self]
    cases h : w.heap r with
    | mock err cl val => simp [StorageState.Delete]
    | InMem data expire =>
      by_cases hk : k = key <;> simp [StorageState.Delete, InMem.Delete, mapDelete, hk]
  · rw [Delete_heap_ne _ _ _ _ hr]
    simp [hr]

theorem Write_expire (s : Storage) (key : String) (v : Value) (d : Int) (w : World)
    (r : Storage) (k : String) :
    (Storage.Write s key v d w).2.expire r k =
      if r = s ∧ k = key ∧ (w.heap s).isInMem = true ∧ d ≠ 0 then some (w.now + d)
      else w.expire r k := by
  unfold World.expire
  by_cases hr : r = s
  · subst hr
    rw [Write_heap_self]
    cases h : w.heap r with
    | mock err cl val => simp [StorageState.Write, StorageState.isInMem]
    | InMem data expire =>
      by_cases hk : k = key <;> by_cases hd : d = 0 <;>
        simp [StorageState.Write, InMem.Write, mapSet, hk, hd, StorageState.isInMem]
  · rw [Write_heap_ne _ _ _ _ _ _ hr]
    simp [hr]

/-- What `Read` returns on an in-memory storage: `(nil, ErrKeyNotExist)`, or the data entry
of the key with no error. -/
theorem readResult_inMem (w : World) (s : Storage) (k : String)
    (h : (w.heap s).isInMem = true) :
    w.readResult s k = (.nil, some .keyNotExist) ∨
      ∃ v, w.readResult s k = (v, none) ∧ w.data s k = some v := by
  unfold World.readResult World.data
  cases hh : w.heap s with
  | mock err cl val => rw [hh] at h; cases h
  | InMem data expire =>
    simp only [StorageState.Read, InMem.Read]
    cases hd : data k with
    | none => left; rfl
    | some v =>
      cases expire k with
      | none => right; exact ⟨v, rfl, rfl⟩
      | some e =>
        simp only
        split
        · left; rfl
        · right; exact ⟨v, rfl, rfl⟩

/-! ## the invariant of the reachable states -/

theorem TagInv_Read (t : std) (s : Storage) (key : String) (w : World) (h : TagInv t w) :
    TagInv t (Storage.Read s key w).2 := by
  refine ⟨fun r => by rw [Read_isInMem]; exact h.inMem r, ?_, ?_⟩
  · intro r k hd
    rcases Read_data_expire s key w r k with ⟨h1, h2⟩ | ⟨_, h2⟩
    · rw [h2]; rw [h1] at hd; exact h.expire_data r k hd
    · exact h2
  · intro r tag v hv
    unfold World.keySet at hv
    rcases Read_data_expire s key w r (t.nsKey ("tag:" ++ tag ++ ":keys")) with ⟨h1, _⟩ | ⟨h1, _⟩
    · rw [h1] at hv; exact h.keySets r tag v hv
    · rw [h1] at hv; cases hv

theorem TagInv_Delete (t : std) (s : Storage) (key : String) (w : World) (h : TagInv t w) :
    TagInv t (Storage.Delete s key w).2 := by
  refine ⟨fun r => by rw [Delete_isInMem]; exact h.inMem r, ?_, ?_⟩
  · intro r k hd
    rw [Delete_data] at hd
    rw [Delete_expire]
    split
    · rfl
    · rename_i hne
      rw [if_neg hne] at hd
      exact h.expire_data r k hd
  · intro r tag v hv
    unfold World.keySet at hv
    rw [Delete_data] at hv
    split at hv
    · cases hv
    · exact h.keySets r tag v hv

theorem TagInv_Write (t : std) (s : Storage) (key : String) (v : Value) (d : Int) (w : World)
    (h : TagInv t w) (hv : ∀ tag, key = t.nsKey ("tag:" ++ tag ++ ":keys") → keySetOK v) :
    TagInv t (Storage.Write s key v d w).2 := by
  refine ⟨fun r => by rw [Write_isInMem]; exact h.inMem r, ?_, ?_⟩
  · intro r k hd
    rw [Write_data] at hd
    rw [Write_expire]
    split at hd
    · cases hd
    · rename_i hne
      rw [if_neg (fun hc => hne ⟨hc.1, hc.2.1, hc.2.2.1⟩)]
      exact h.expire_data r k hd
  · intro r tag v' hv'
    unfold World.keySet at hv'
    rw [Write_data] at hv'
    split at hv'
    · rename_i hc
      cases hv'
      exact hv tag hc.2.1.symm
    · exact h.keySets r tag v' hv'

theorem TagInv_tick (t : std) (w : World) (now : Int) (h : TagInv t w) :
    TagInv t { w with now := now } :=
  ⟨h.inMem, h.expire_data, h.keySets⟩

theorem TagInv_empty (t : std) (w : World) (h : ∀ r, w.heap r = InMemory) : TagInv t w := by
  refine ⟨fun r => by rw [h r]; rfl, ?_, ?_⟩
  · intro r k _
    simp [World.expire, h r, InMemory]
  · intro r tag v hv
    simp [World.keySet, World.data, h r, InMemory] at hv

/-- What a `Read` of a key-set entry returns in a state that satisfies the invariant. -/
theorem keySet_read_ok (t : std) (w : World) (h : TagInv t w) (s : Storage) (tag : String) :
    (w.readResult s (t.nsKey ("tag:" ++ tag ++ ":keys"))).1 = .nil ∨
      keySetOK (w.readResult s (t.nsKey ("tag:" ++ tag ++ ":keys"))).1 := by
  rcases readResult_inMem w s (t.nsKey ("tag:" ++ tag ++ ":keys")) (h.inMem s) with
    h1 | ⟨v, h1, h2⟩
  · left; rw [h1]
  · right; rw [h1]; exact h.keySets s tag v h2

theorem slice_sorted (lib : Lib) (v : Value) (h : v = .nil ∨ keySetOK v) :
    (slice lib v).Pairwise (· < ·) := by
  rcases h with h | h
  · subst h; simp [slice]
  · cases v <;> simp_all [keySetOK, slice]

theorem ToStringSlice_sorted (lib : Lib) (v : Value) (h : v = .nil ∨ keySetOK v) :
    (ToStringSlice lib v).Pairwise (· < ·) := by
  rcases h with h | h
  · subst h; simp [ToStringSlice]
  · cases v <;> simp_all [keySetOK, ToStringSlice]

theorem foldl_insertIntoSorted_sorted (keys : List String) :
    ∀ (l : List String), l.Pairwise (· < ·) →
      (keys.foldl insertIntoSorted l).Pairwise (· < ·) := by
  induction keys with
  | nil => intro l h; exact h
  | cons k rest ih => intro l h; exact ih _ (insertIntoSorted_sorted l k h)

theorem foldl_removeAtSearch_sorted (keys : List String) :
    ∀ (l : List String), l.Pairwise (· < ·) →
      (keys.foldl removeAtSearch l).Pairwise (· < ·) := by
  induction keys with
  | nil => intro l h; exact h
  | cons k rest ih =>
    intro l h
    exact ih _ (List.Pairwise.sublist (removeAtSearch_sublist l k) h)

/-! ## the keys of the tagger -/

/-- The storage key of a tag list is never the storage key of a key-set. -/
theorem nsKey_tags_ne_keys (t : std) (key tag : String) :
    t.nsKey ("key:" ++ key ++ ":tags") ≠ t.nsKey ("tag:" ++ tag ++ ":keys") := by
  intro h
  have h1 := congrArg String.data h
  simp only [std.nsKey, String.data_append, List.append_assoc] at h1
  have h2 := List.append_cancel_left h1
  simp at h2

/-! ## the tagger on in-memory storages -/

theorem addTagsToKey_eq (lib : Lib) (t : std) (s : Storage) (key : String)
    (tags : List String) (w : World) (h : (w.heap s).isInMem = true) :
    t.addTagsToKey lib s key tags w =
      Storage.Write s (t.nsKey key)
        (.strs (tags.foldl (fun sl tag => if tag ∈ sl then sl else sl ++ tags)
          (slice lib (w.readResult s (t.nsKey key)).1))) 0
        (Storage.Read s (t.nsKey key) w).2 := by
  unfold std.addTagsToKey
  have hfst := Read_fst s (t.nsKey key) w
  generalize Storage.Read s (t.nsKey key) w = r0 at hfst ⊢
  obtain ⟨⟨v, err⟩, w1⟩ := r0
  simp only at hfst ⊢
  rw [← hfst]
  rcases readResult_inMem w s (t.nsKey key) h with h1 | ⟨v', h1, _⟩
  · rw [h1] at hfst; cases hfst; simp
  · rw [h1] at hfst; cases hfst; simp

theorem removeTagsFromKey_eq (lib : Lib) (t : std) (s : Storage) (key : String)
    (tags : List String) (w : World) (h : (w.heap s).isInMem = true) :
    t.removeTagsFromKey lib s key tags w =
      if (tags.filter
          (fun tag => decide (tag ∈ ToStringSlice lib (w.readResult s (t.nsKey key)).1))).length
          = 0 then
        Storage.Delete s (t.nsKey key) (Storage.Read s (t.nsKey key) w).2
      else
        Storage.Write s (t.nsKey key)
          (.strs (tags.filter
            (fun tag => decide (tag ∈ ToStringSlice lib (w.readResult s (t.nsKey key)).1))))
          0 (Storage.Read s (t.nsKey key) w).2 := by
  unfold std.removeTagsFromKey
  have hfst := Read_fst s (t.nsKey key) w
  generalize Storage.Read s (t.nsKey key) w = r0 at hfst ⊢
  obtain ⟨⟨v, err⟩, w1⟩ := r0
  simp only at hfst ⊢
  rw [← hfst]
  rcases readResult_inMem w s (t.nsKey key) h with h1 | ⟨v', h1, _⟩
  · rw [h1] at hfst; cases hfst; simp
  · rw [h1] at hfst; cases hfst; simp

theorem addKeysToTag_eq (lib : Lib) (t : std) (s : Storage) (tag : String)
    (keys : List String) (w : World) (h : (w.heap s).isInMem = true) :
    t.addKeysToTag lib s tag keys w =
      Storage.Write s (t.nsKey tag)
        (.strs (keys.foldl insertIntoSorted (slice lib (w.readResult s (t.nsKey tag)).1))) 0
        (Storage.Read s (t.nsKey tag) w).2 := by
  unfold std.addKeysToTag
  have hfst := Read_fst s (t.nsKey tag) w
  generalize Storage.Read s (t.nsKey tag) w = r0 at hfst ⊢
  obtain ⟨⟨v, err⟩, w1⟩ := r0
  simp only at hfst ⊢
  rw [← hfst]
  rcases readResult_inMem w s (t.nsKey tag) h with h1 | ⟨v', h1, _⟩
  · rw [h1] at hfst; cases hfst; simp
  · rw [h1] at hfst; cases hfst; simp

theorem removeKeysFromTag_eq (lib : Lib) (t : std) (s : Storage) (tag : String)
    (keys : List String) (w : World) (h : (w.heap s).isInMem = true) :
    t.removeKeysFromTag lib s tag keys w =
      if (keys.foldl removeAtSearch
          (ToStringSlice lib (w.readResult s (t.nsKey tag)).1)).length = 0 then
        Storage.Delete s (t.nsKey tag) (Storage.Read s (t.nsKey tag) w).2
      else
        Storage.Write s (t.nsKey tag)
          (.strs (keys.foldl removeAtSearch
            (ToStringSlice lib (w.readResult s (t.nsKey tag)).1))) 0
          (Storage.Read s (t.nsKey tag) w).2 := by
  unfold std.removeKeysFromTag
  have hfst := Read_fst s (t.nsKey tag) w
  generalize Storage.Read s (t.nsKey tag) w = r0 at hfst ⊢
  obtain ⟨⟨v, err⟩, w1⟩ := r0
  simp only at hfst ⊢
  rw [← hfst]
  rcases readResult_inMem w s (t.nsKey tag) h with h1 | ⟨v', h1, _⟩
  · rw [h1] at hfst; cases hfst; simp
  · rw [h1] at hfst; cases hfst; simp

theorem Tags_snd (lib : Lib) (t : std) (s : Storage) (key : String) (w : World) :
    (t.Tags lib s key w).2 = (Storage.Read s (t.nsKey ("key:" ++ key ++ ":tags")) w).2 := by
  unfold std.Tags
  generalize Storage.Read s (t.nsKey ("key:" ++ key ++ ":tags")) w = r0
  obtain ⟨⟨v, err⟩, w1⟩ := r0
  simp only
  split <;> rfl

theorem TagInv_addTagsToKey (lib : Lib) (t : std) (s : Storage) (key : String)
    (tags : List String) (w : World) (h : TagInv t w) :
    TagInv t (t.addTagsToKey lib s ("key:" ++ key ++ ":tags") tags w).2 := by
  rw [addTagsToKey_eq lib t s _ tags w (h.inMem s)]
  exact TagInv_Write t s _ _ 0 _ (TagInv_Read t s _ w h)
    (fun tag hk => absurd hk (nsKey_tags_ne_keys t key tag))

theorem TagInv_removeTagsFromKey (lib : Lib) (t : std) (s : Storage) (key : String)
    (tags : List String) (w : World) (h : TagInv t w) :
    TagInv t (t.removeTagsFromKey lib s ("key:" ++ key ++ ":tags") tags w).2 := by
  rw [removeTagsFromKey_eq lib t s _ tags w (h.inMem s)]
  split
  · exact TagInv_Delete t s _ _ (TagInv_Read t s _ w h)
  · exact TagInv_Write t s _ _ 0 _ (TagInv_Read t s _ w h)
      (fun tag hk => absurd hk (nsKey_tags_ne_keys t key tag))

theorem TagInv_addKeysToTag (lib : Lib) (t : std) (s : Storage) (tag : String)
    (keys : List String) (w : World) (h : TagInv t w) :
    TagInv t (t.addKeysToTag lib s ("tag:" ++ tag ++ ":keys") keys w).2 := by
  rw [addKeysToTag_eq lib t s _ keys w (h.inMem s)]
  exact TagInv_Write t s _ _ 0 _ (TagInv_Read t s _ w h)
    (fun _ _ => foldl_insertIntoSorted_sorted keys _
      (slice_sorted lib _ (keySet_read_ok t w h s tag)))

theorem TagInv_removeKeysFromTag (lib : Lib) (t : std) (s : Storage) (tag : String)
    (keys : List String) (w : World) (h : TagInv t w) :
    TagInv t (t.removeKeysFromTag lib s ("tag:" ++ tag ++ ":keys") keys w).2 := by
  rw [removeKeysFromTag_eq lib t s _ keys w (h.inMem s)]
  split
  · exact TagInv_Delete t s _ _ (TagInv_Read t s _ w h)
  · exact TagInv_Write t s _ _ 0 _ (TagInv_Read t s _ w h)
      (fun _ _ => foldl_removeAtSearch_sorted keys _
        (ToStringSlice_sorted lib _ (keySet_read_ok t w h s tag)))

theorem TagInv_foldl {α : Type} (t : std) (f : World → α → World)
    (hf : ∀ w a, TagInv t w → TagInv t (f w a)) :
    ∀ (l : List α) (w : World), TagInv t w → TagInv t (l.foldl f w) := by
  intro l
  induction l with
  | nil => intro w h; exact h
  | cons a rest ih => intro w h; exact ih (f w a) (hf w a h)

theorem TagInv_Tag (lib : Lib) (t : std) (s : Storage) (key : String) (tags : List String)
    (w : World) (h : TagInv t w) : TagInv t (t.Tag lib s key tags w).2 := by
  unfold std.Tag
  have h1 := TagInv_addTagsToKey lib t s key tags w h
  generalize t.addTagsToKey lib s ("key:" ++ key ++ ":tags") tags w = r0 at h1 ⊢
  obtain ⟨err, w1⟩ := r0
  cases err with
  | some err => exact h1
  | none =>
    exact TagInv_foldl t _ (fun w2 tag h2 => TagInv_addKeysToTag lib t s tag [key] w2 h2) tags
      w1 h1

theorem TagInv_UnTag (lib : Lib) (t : std) (s : Storage) (key : String) (tags : List String)
    (w : World) (h : TagInv t w) : TagInv t (t.UnTag lib s key tags w).2 := by
  have hstep : ∀ (tags : List String) (w0 : World), TagInv t w0 →
      TagInv t
        (match t.removeTagsFromKey lib s ("key:" ++ key ++ ":tags") tags w0 with
          | (some err, w1) => (some err, w1)
          | (none, w1) =>
            Storage.Delete s (t.nsKey ("key:" ++ key ++ ":tags"))
              (tags.foldl
                (fun w2 tag => (t.removeKeysFromTag lib s ("tag:" ++ tag ++ ":keys") [key] w2).2)
                w1)).2 := by
    intro tags w0 h0
    have h1 := TagInv_removeTagsFromKey lib t s key tags w0 h0
    generalize t.removeTagsFromKey lib s ("key:" ++ key ++ ":tags") tags w0 = r0 at h1 ⊢
    obtain ⟨err, w1⟩ := r0
    cases err with
    | some err => exact h1
    | none =>
      exact TagInv_Delete t s _ _
        (TagInv_foldl t _ (fun w2 tag h2 => TagInv_removeKeysFromTag lib t s tag [key] w2 h2)
          tags w1 h1)
  unfold std.UnTag
  by_cases hlen : tags.length = 0
  · simp only [hlen, if_true]
    have h1 : TagInv t (t.Tags lib s key w).2 := by
      rw [Tags_snd]; exact TagInv_Read t s _ w h
    generalize t.Tags lib s key w = r0 at h1 ⊢
    obtain ⟨⟨l, e⟩, w'⟩ := r0
    exact hstep l w' h1
  · simp only [hlen, if_false]
    exact hstep tags w h

/-! ## the cache keeps the invariant -/

theorem TagInv_write (lib : Lib) (c : Cache) (s : Storage) (key : String) (it : item)
    (d : Int) (tags : List String) (w : World) (h : TagInv c.tagger w) :
    TagInv c.tagger (c.write lib s key it.toValue d tags w).2 := by
  unfold Cache.write
  have h1 := TagInv_Write c.tagger s (c.NsKey key) it.toValue d w h
    (fun _ _ => by simp [item.toValue, keySetOK])
  generalize Storage.Write s (c.NsKey key) it.toValue d w = r0 at h1 ⊢
  obtain ⟨err, w1⟩ := r0
  cases err with
  | some err => exact h1
  | none =>
    simp only at h1 ⊢
    split
    · have h2 := TagInv_Tag lib c.tagger s key tags w1 h1
      generalize c.tagger.Tag lib s key tags w1 = r1 at h2 ⊢
      obtain ⟨err2, w2⟩ := r1
      cases err2 <;> exact h2
    · exact h1

theorem TagInv_setHandler (lib : Lib) (c : Cache) (key : String) (it : item) (d : Int)
    (tags : List String) (s : Storage) (w : World) (h : TagInv c.tagger w) :
    ∃ r w1, c.setHandler lib key it d tags s w = some (r, w1) ∧ TagInv c.tagger w1 ∧ True := by
  have h1 := TagInv_write lib c s key it d tags w h
  unfold Cache.setHandler
  generalize c.write lib s key it.toValue d tags w = r0 at h1 ⊢
  obtain ⟨err, w1⟩ := r0
  exact ⟨_, _, rfl, h1, trivial⟩

theorem TagInv_Set (lib : Lib) (c : Cache) (key : String) (v : Value) (d : Int)
    (tags : List String) (w : World) (r : LoopOut World) (h : TagInv c.tagger w)
    (hr : c.Set lib key v d tags w = some r) : TagInv c.tagger r.state := by
  obtain ⟨out, hout, hinv, _⟩ := Loop_inv c
    (c.setHandler lib key { Key := key, Val := v, Created := w.now, Expires := d } d tags)
    (c.setHandler lib key { Key := key, Val := v, Created := w.now, Expires := d } d tags)
    (TagInv c.tagger) (fun _ _ => True)
    (fun s _ st hst => TagInv_setHandler lib c key _ d tags s st hst)
    (fun s _ st hst => TagInv_setHandler lib c key _ d tags s st hst) w h
  have heq : c.Set lib key v d tags w = some out := hout
  rw [heq] at hr
  cases hr
  exact hinv

theorem TagInv_delKeys (lib : Lib) (c : Cache) (s : Storage) :
    ∀ (keys : List String) (w : World), TagInv c.tagger w →
      TagInv c.tagger (c.delKeys lib s keys w).2 := by
  intro keys
  induction keys with
  | nil => intro w h; exact h
  | cons key rest ih =>
    intro w h
    rw [Cache.delKeys]
    have h1 := TagInv_Delete c.tagger s (c.NsKey key) w h
    generalize Storage.Delete s (c.NsKey key) w = r0 at h1 ⊢
    obtain ⟨err, w1⟩ := r0
    cases err with
    | some err => exact h1
    | none =>
      simp only at h1 ⊢
      have h2 := TagInv_UnTag lib c.tagger s key [] w1 h1
      generalize c.tagger.UnTag lib s key [] w1 = r1 at h2 ⊢
      obtain ⟨err2, w2⟩ := r1
      cases err2 with
      | some err2 => exact h2
      | none => exact ih w2 h2

theorem TagInv_delHandler (lib : Lib) (c : Cache) (keys : List String) (s : Storage)
    (w : World) (h : TagInv c.tagger w) :
    ∃ r w1, c.delHandler lib keys s w = some (r, w1) ∧ TagInv c.tagger w1 ∧ True := by
  have h1 := TagInv_delKeys lib c s keys w h
  unfold Cache.delHandler
  generalize c.delKeys lib s keys w = r0 at h1 ⊢
  obtain ⟨err, w1⟩ := r0
  exact ⟨_, _, rfl, h1, trivial⟩

theorem TagInv_Del (lib : Lib) (c : Cache) (keys : List String) (w : World)
    (r : LoopOut World) (h : TagInv c.tagger w) (hr : c.Del lib keys w = some r) :
    TagInv c.tagger r.state := by
  obtain ⟨out, hout, hinv, _⟩ := Loop_inv c (c.delHandler lib keys) (c.delHandler lib keys)
    (TagInv c.tagger) (fun _ _ => True)
    (fun s _ st hst => TagInv_delHandler lib c keys s st hst)
    (fun s _ st hst => TagInv_delHandler lib c keys s st hst) w h
  have heq : c.Del lib keys w = some out := hout
  rw [heq] at hr
  cases hr
  exact hinv

/-- Every reachable state satisfies the invariant. -/
theorem TagInv_of_Reachable (lib : Lib) (t : std) (w : World) (h : Reachable lib t w) :
    TagInv t w := by
  induction h with
  | empty w h => exact TagInv_empty t w h
  | tick w now _ ih => exact TagInv_tick t w now ih
  | tag w s key tags _ ih => exact TagInv_Tag lib t s key tags w ih
  | untag w s key tags _ ih => exact TagInv_UnTag lib t s key tags w ih
  | set w c key v d tags r hc _ hr ih =>
    subst hc
    exact TagInv_Set lib c key v d tags w r ih hr
  | del w c keys r hc _ hr ih =>
    subst hc
    exact TagInv_Del lib c keys w r ih hr

/-! ## entries that a `Read` returns, and calls that change nothing -/

theorem storageError_of_isInMem (w : World) (s : Storage) (h : (w.heap s).isInMem = true) :
    w.storageError s = none := by
  unfold World.storageError
  cases hh : w.heap s with
  | mock err cl val => rw [hh] at h; cases h
  | InMem data expire => rfl

theorem setStorage_self (w : World) (s : Storage) (ev : Op) :
    ((w.record s ev).setStorage s (w.heap s)).heap = w.heap := by
  funext r
  by_cases hr : r = s
  · subst hr; simp [World.setStorage, World.record]
  · simp [World.setStorage, World.record, hr]

/-- A `Read` of an entry that the storage holds returns it and leaves every storage as it
is. -/
theorem Read_of_Holds (w : World) (s : Storage) (k : String) (v : Value)
    (h : w.Holds s k v) :
    w.readResult s k = (v, none) ∧ (Storage.Read s k w).2.heap = w.heap := by
  obtain ⟨_, hd, he⟩ := h
  unfold World.data at hd
  unfold World.expire at he
  unfold World.readResult Storage.Read
  cases hh : w.heap s with
  | mock err cl val => rw [hh] at hd; cases hd
  | InMem data expire =>
    rw [hh] at hd he
    simp only at hd he
    have hst : (StorageState.InMem data expire).Read w.now k =
        ((v, none), .InMem data expire) := by
      simp only [StorageState.Read, InMem.Read, hd]
      cases hx : expire k with
      | none => rfl
      | some e => simp [he e hx]
    rw [hst]
    refine ⟨rfl, ?_⟩
    simp only
    rw [← hh]
    exact setStorage_self w s _

/-- Writing, with no expiry, the value that the storage holds leaves every storage as it
is. -/
theorem Write_of_Holds (w : World) (s : Storage) (k : String) (v : Value)
    (h : w.Holds s k v) : (Storage.Write s k v 0 w).2.heap = w.heap := by
  obtain ⟨_, hd, _⟩ := h
  unfold World.data at hd
  unfold Storage.Write
  cases hh : w.heap s with
  | mock err cl val => rw [hh] at hd; cases hd
  | InMem data expire =>
    rw [hh] at hd
    simp only at hd
    have hst : (StorageState.InMem data expire).Write w.now k v 0 =
        (none, .InMem data expire) := by
      simp only [StorageState.Write, InMem.Write, ne_eq, not_true_eq_false, if_false]
      have hm : mapSet data k v = data := by
        funext x
        unfold mapSet
        split
        · rename_i hx; rw [hx, hd]
        · rfl
      rw [hm]
    rw [hst]
    simp only
    rw [← hh]
    exact setStorage_self w s _

theorem Holds_of_heap_eq (w w1 : World) (s : Storage) (k : String) (v : Value)
    (hheap : w1.heap = w.heap) (hnow : w1.now = w.now) (h : w.Holds s k v) :
    w1.Holds s k v := by
  unfold World.Holds World.data World.expire at h ⊢
  rw [hheap, hnow]
  exact h

theorem Read_data_of_ne (s : Storage) (key : String) (w : World) (r : Storage) (k : String)
    (hne : r ≠ s ∨ k ≠ key) :
    (Storage.Read s key w).2.data r k = w.data r k ∧
      (Storage.Read s key w).2.expire r k = w.expire r k := by
  unfold World.data World.expire
  by_cases hr : r = s
  · subst hr
    have hk : k ≠ key := by
      rcases hne with h | h
      · exact absurd rfl h
      · exact h
    rw [Read_heap_self]
    cases h : w.heap r with
    | mock err cl val => exact ⟨rfl, rfl⟩
    | InMem data expire =>
      simp only [StorageState.Read, InMem.Read]
      cases data key with
      | none => exact ⟨rfl, rfl⟩
      | some v =>
        cases expire key with
        | none => exact ⟨rfl, rfl⟩
        | some e =>
          by_cases he : e < w.now
          · simp [mapDelete, hk, he]
          · simp [he]
  · rw [Read_heap_ne _ _ _ _ hr]
    exact ⟨rfl, rfl⟩

/-- An entry that the storage holds is still held after any `Read`. -/
theorem Holds_Read (w : World) (s : Storage) (k : String) (v : Value) (s1 : Storage)
    (k1 : String) (h : w.Holds s k v) : (Storage.Read s1 k1 w).2.Holds s k v := by
  by_cases hne : s ≠ s1 ∨ k ≠ k1
  · obtain ⟨h1, h2⟩ := Read_data_of_ne s1 k1 w s k hne
    obtain ⟨hm, hd, he⟩ := h
    refine ⟨by rw [Read_isInMem]; exact hm, by rw [h1]; exact hd, ?_⟩
    rw [h2, Read_now]
    exact he
  · have hs : s = s1 := by
      by_contra hc
      exact hne (Or.inl hc)
    have hk : k = k1 := by
      by_contra hc
      exact hne (Or.inr hc)
    subst hs hk
    exact Holds_of_heap_eq w _ s k v (Read_of_Holds w s k v h).2 (Read_now s k w) h

/-- An entry that the storage holds is still held after a `Write` of another entry. -/
theorem Holds_Write_ne (w : World) (s : Storage) (k : String) (v : Value) (s1 : Storage)
    (k1 : String) (v1 : Value) (d : Int) (hne : s ≠ s1 ∨ k ≠ k1) (h : w.Holds s k v) :
    (Storage.Write s1 k1 v1 d w).2.Holds s k v := by
  obtain ⟨hm, hd, he⟩ := h
  have hcond : ¬ (s = s1 ∧ k = k1 ∧ (w.heap s1).isInMem = true) := by
    intro hc
    rcases hne with h1 | h1
    · exact h1 hc.1
    · exact h1 hc.2.1
  have hcond2 : ¬ (s = s1 ∧ k = k1 ∧ (w.heap s1).isInMem = true ∧ d ≠ 0) :=
    fun hc => hcond ⟨hc.1, hc.2.1, hc.2.2.1⟩
  refine ⟨by rw [Write_isInMem]; exact hm, by rw [Write_data, if_neg hcond]; exact hd, ?_⟩
  rw [Write_expire, if_neg hcond2, Write_now]
  exact he

/-- After a `Read` of a key and a `Write` of the same key with no expiry, in a state that
satisfies the invariant, the storage holds the written value. -/
theorem Holds_Read_Write (t : std) (w : World) (hw : TagInv t w) (s : Storage) (k : String)
    (v : Value) : (Storage.Write s k v 0 (Storage.Read s k w).2).2.Holds s k v := by
  have hm : ((Storage.Read s k w).2.heap s).isInMem = true := by
    rw [Read_isInMem]; exact hw.inMem s
  refine ⟨by rw [Write_isInMem]; exact hm, by rw [Write_data]; simp [hm], ?_⟩
  rw [Write_expire, Write_now, Read_now]
  simp only [ne_eq, not_true_eq_false, and_false, if_false]
  have hexp := hw.expire_data s k
  have hmem := hw.inMem s
  unfold World.data World.expire at hexp
  unfold World.expire
  rw [Read_heap_self]
  cases hh : w.heap s with
  | mock err cl val => rw [hh] at hmem; cases hmem
  | InMem data expire =>
    rw [hh] at hexp
    simp only at hexp
    simp only [StorageState.Read, InMem.Read]
    cases hd : data k with
    | none =>
      intro e he
      simp only at he
      rw [hexp hd] at he
      cases he
    | some v0 =>
      cases hx : expire k with
      | none => intro e he; simp only at he; rw [hx] at he; cases he
      | some e0 =>
        by_cases hlt : e0 < w.now
        · intro e he
          simp [hlt, mapDelete] at he
        · intro e he
          simp only [hlt, if_false] at he
          rw [hx] at he
          cases he
          exact hlt

/-! ## `Tag` twice -/

theorem addTagsToKey_fst (lib : Lib) (t : std) (s : Storage) (key : String)
    (tags : List String) (w : World) (h : (w.heap s).isInMem = true) :
    (t.addTagsToKey lib s key tags w).1 = none := by
  rw [addTagsToKey_eq lib t s key tags w h, Write_fst]
  exact storageError_of_isInMem _ s (by rw [Read_isInMem]; exact h)

/-- On an in-memory storage `Tag` returns nil, after `addTagsToKey` and one `addKeysToTag`
for each tag. -/
theorem Tag_eq (lib : Lib) (t : std) (s : Storage) (key : String) (tags : List String)
    (w : World) (h : (w.heap s).isInMem = true) :
    t.Tag lib s key tags w =
      (none, tags.foldl
        (fun w2 tag => (t.addKeysToTag lib s ("tag:" ++ tag ++ ":keys") [key] w2).2)
        (t.addTagsToKey lib s ("key:" ++ key ++ ":tags") tags w).2) := by
  unfold std.Tag
  have h1 := addTagsToKey_fst lib t s ("key:" ++ key ++ ":tags") tags w h
  generalize t.addTagsToKey lib s ("key:" ++ key ++ ":tags") tags w = r0 at h1 ⊢
  obtain ⟨err, w1⟩ := r0
  simp only at h1
  subst h1
  rfl

/-- After `addTagsToKey` the storage holds a tag list that contains every given tag. -/
theorem Holds_addTagsToKey (lib : Lib) (t : std) (s : Storage) (key : String)
    (tags : List String) (w : World) (hw : TagInv t w) :
    ∃ l, (t.addTagsToKey lib s key tags w).2.Holds s (t.nsKey key) (.strs l) ∧
      ∀ tag ∈ tags, tag ∈ l := by
  rw [addTagsToKey_eq lib t s key tags w (hw.inMem s)]
  exact ⟨_, Holds_Read_Write t w hw s (t.nsKey key) _,
    (addTags_mem tags tags _ (fun x hx => hx)).2⟩

/-- After `addKeysToTag` of a key, in a state that satisfies the invariant, the storage
holds a sorted key-set that contains the key. -/
theorem HoldsKeyOf_addKeysToTag (lib : Lib) (t : std) (s : Storage) (tag key : String)
    (w : World) (hw : TagInv t w) :
    (t.addKeysToTag lib s ("tag:" ++ tag ++ ":keys") [key] w).2.HoldsKeyOf t s tag key := by
  rw [addKeysToTag_eq lib t s _ [key] w (hw.inMem s)]
  refine ⟨_, Holds_Read_Write t w hw s _ _, ?_, ?_⟩
  · exact foldl_insertIntoSorted_sorted [key] _
      (slice_sorted lib _ (keySet_read_ok t w hw s tag))
  · exact mem_insertIntoSorted _ key

/-- An entry that is not the key-set of the tag is still held after `addKeysToTag`. -/
theorem Holds_addKeysToTag_ne (lib : Lib) (t : std) (s : Storage) (tag : String)
    (keys : List String) (w : World) (hm : (w.heap s).isInMem = true) (k : String)
    (v : Value) (hne : k ≠ t.nsKey ("tag:" ++ tag ++ ":keys")) (h : w.Holds s k v) :
    (t.addKeysToTag lib s ("tag:" ++ tag ++ ":keys") keys w).2.Holds s k v := by
  rw [addKeysToTag_eq lib t s _ keys w hm]
  exact Holds_Write_ne _ s k v s _ _ 0 (Or.inr hne) (Holds_Read w s k v s _ h)

theorem HoldsKeyOf_addKeysToTag_frame (lib : Lib) (t : std) (s : Storage)
    (tag tag1 key : String) (w : World) (hw : TagInv t w)
    (h : w.HoldsKeyOf t s tag key) :
    (t.addKeysToTag lib s ("tag:" ++ tag1 ++ ":keys") [key] w).2.HoldsKeyOf t s tag key := by
  by_cases hk : t.nsKey ("tag:" ++ tag ++ ":keys") = t.nsKey ("tag:" ++ tag1 ++ ":keys")
  · have h1 := HoldsKeyOf_addKeysToTag lib t s tag1 key w hw
    unfold World.HoldsKeyOf at h1 ⊢
    rw [hk]
    exact h1
  · obtain ⟨r, hr, hs, hmem⟩ := h
    exact ⟨r, Holds_addKeysToTag_ne lib t s tag1 [key] w (hw.inMem s) _ _ hk hr, hs, hmem⟩

/-- The `for` of `Tag`: afterwards the storage holds, for every tag of the list, a sorted
key-set that contains the key; what it held for the tags handled before and under the key of
the tag list is still held. -/
theorem Tag_loop_post (lib : Lib) (t : std) (s : Storage) (key key0 : String) (v0 : Value) :
    ∀ (l : List String) (w : World) (P : String → Prop), TagInv t w →
      w.Holds s (t.nsKey ("key:" ++ key0 ++ ":tags")) v0 →
      (∀ tag, P tag → w.HoldsKeyOf t s tag key) →
      (l.foldl (fun w2 tag => (t.addKeysToTag lib s ("tag:" ++ tag ++ ":keys") [key] w2).2)
          w).Holds s (t.nsKey ("key:" ++ key0 ++ ":tags")) v0 ∧
      ∀ tag, P tag ∨ tag ∈ l →
        (l.foldl (fun w2 tag => (t.addKeysToTag lib s ("tag:" ++ tag ++ ":keys") [key] w2).2)
          w).HoldsKeyOf t s tag key := by
  intro l
  induction l with
  | nil =>
    intro w P _ h0 hP
    refine ⟨h0, ?_⟩
    intro tag htag
    rcases htag with h | h
    · exact hP tag h
    · cases h
  | cons a rest ih =>
    intro w P hw h0 hP
    rw [List.foldl_cons]
    obtain ⟨ih1, ih2⟩ := ih (t.addKeysToTag lib s ("tag:" ++ a ++ ":keys") [key] w).2
      (fun tag => P tag ∨ tag = a) (TagInv_addKeysToTag lib t s a [key] w hw)
      (Holds_addKeysToTag_ne lib t s a [key] w (hw.inMem s) _ _
        (nsKey_tags_ne_keys t key0 a) h0)
      (by
        intro tag htag
        rcases htag with h | h
        · exact HoldsKeyOf_addKeysToTag_frame lib t s tag a key w hw (hP tag h)
        · subst h
          exact HoldsKeyOf_addKeysToTag lib t s tag key w hw)
    refine ⟨ih1, ?_⟩
    intro tag htag
    apply ih2
    rcases htag with h | h
    · exact Or.inl (Or.inl h)
    · rw [List.mem_cons] at h
      rcases h with h | h
      · exact Or.inl (Or.inr h)
      · exact Or.inr h

/-- On a storage that holds a tag list containing every given tag, `addTagsToKey` changes no
storage. -/
theorem addTagsToKey_noop (lib : Lib) (t : std) (s : Storage) (key : String)
    (tags l : List String) (w : World) (h : w.Holds s (t.nsKey key) (.strs l))
    (hl : ∀ tag ∈ tags, tag ∈ l) :
    (t.addTagsToKey lib s key tags w).2.heap = w.heap ∧
      (t.addTagsToKey lib s key tags w).2.now = w.now := by
  rw [addTagsToKey_eq lib t s key tags w h.1]
  obtain ⟨h1, h2⟩ := Read_of_Holds w s (t.nsKey key) _ h
  rw [h1]
  simp only [slice]
  rw [addTags_fixed tags tags l hl]
  refine ⟨?_, by rw [Write_now, Read_now]⟩
  rw [Write_of_Holds _ s (t.nsKey key) _
    (Holds_of_heap_eq w _ s _ _ h2 (Read_now s _ w) h), h2]

/-- On a storage that holds, for the tag, a sorted key-set containing the key,
`addKeysToTag` of that key changes no storage. -/
theorem addKeysToTag_noop (lib : Lib) (t : std) (s : Storage) (tag key : String) (w : World)
    (h : w.HoldsKeyOf t s tag key) :
    (t.addKeysToTag lib s ("tag:" ++ tag ++ ":keys") [key] w).2.heap = w.heap ∧
      (t.addKeysToTag lib s ("tag:" ++ tag ++ ":keys") [key] w).2.now = w.now := by
  obtain ⟨r, hr, hs, hmem⟩ := h
  rw [addKeysToTag_eq lib t s _ [key] w hr.1]
  obtain ⟨h1, h2⟩ := Read_of_Holds w s _ _ hr
  rw [h1]
  simp only [slice, List.foldl_cons, List.foldl_nil]
  rw [insertIntoSorted_of_mem r key hs hmem]
  refine ⟨?_, by rw [Write_now, Read_now]⟩
  rw [Write_of_Holds _ s _ _ (Holds_of_heap_eq w _ s _ _ h2 (Read_now s _ w) hr), h2]

theorem Tag_loop_noop (lib : Lib) (t : std) (s : Storage) (key : String) :
    ∀ (l : List String) (w : World), (∀ tag ∈ l, w.HoldsKeyOf t s tag key) →
      (l.foldl (fun w2 tag => (t.addKeysToTag lib s ("tag:" ++ tag ++ ":keys") [key] w2).2)
        w).heap = w.heap ∧
      (l.foldl (fun w2 tag => (t.addKeysToTag lib s ("tag:" ++ tag ++ ":keys") [key] w2).2)
        w).now = w.now := by
  intro l
  induction l with
  | nil => intro w _; exact ⟨rfl, rfl⟩
  | cons a rest ih =>
    intro w h
    rw [List.foldl_cons]
    obtain ⟨h1, h2⟩ := addKeysToTag_noop lib t s a key w (h a (List.mem_cons_self _ _))
    obtain ⟨h3, h4⟩ := ih (t.addKeysToTag lib s ("tag:" ++ a ++ ":keys") [key] w).2 (by
      intro tag htag
      obtain ⟨r, hr, hs, hmem⟩ := h tag (List.mem_cons_of_mem _ htag)
      exact ⟨r, Holds_of_heap_eq w _ s _ _ h1 h2 hr, hs, hmem⟩)
    exact ⟨h3.trans h1, h4.trans h2⟩

/-- In a state that satisfies the invariant, a second `Tag` with the same arguments changes
no storage. -/
theorem Tag_Tag_heap (lib : Lib) (t : std) (s : Storage) (key : String) (tags : List String)
    (w : World) (hw : TagInv t w) :
    (t.Tag lib s key tags (t.Tag lib s key tags w).2).2.heap =
        (t.Tag lib s key tags w).2.heap ∧
      (t.Tag lib s key tags (t.Tag lib s key tags w).2).2.now =
        (t.Tag lib s key tags w).2.now := by
  have hw1 := TagInv_Tag lib t s key tags w hw
  rw [Tag_eq lib t s key tags _ (hw1.inMem s)]
  rw [Tag_eq lib t s key tags w (hw.inMem s)] at hw1 ⊢
  simp only at hw1 ⊢
  obtain ⟨l, hl, hmem⟩ := Holds_addTagsToKey lib t s ("key:" ++ key ++ ":tags") tags w hw
  obtain ⟨p1, p2⟩ := Tag_loop_post lib t s key key (.strs l) tags
    (t.addTagsToKey lib s ("key:" ++ key ++ ":tags") tags w).2 (fun _ => False)
    (TagInv_addTagsToKey lib t s key tags w hw) hl (fun _ h => absurd h id)
  obtain ⟨n1, n2⟩ := addTagsToKey_noop lib t s ("key:" ++ key ++ ":tags") tags l _ p1 hmem
  obtain ⟨m1, m2⟩ := Tag_loop_noop lib t s key tags _ (by
    intro tag htag
    obtain ⟨r, hr, hs, hm⟩ := p2 tag (Or.inr htag)
    exact ⟨r, Holds_of_heap_eq _ _ s _ _ n1 n2 hr, hs, hm⟩)
  exact ⟨m1.trans n1, m2.trans n2⟩

theorem Tags_fst (lib : Lib) (t : std) (s : Storage) (key : String) (w : World) :
    (t.Tags lib s key w).1 =
      if (w.readResult s (t.nsKey ("key:" ++ key ++ ":tags"))).2 ≠ none ∧
          (w.readResult s (t.nsKey ("key:" ++ key ++ ":tags"))).2 ≠ some .keyNotExist then
        ([], (w.readResult s (t.nsKey ("key:" ++ key ++ ":tags"))).2)
      else (ToStringSlice lib (w.readResult s (t.nsKey ("key:" ++ key ++ ":tags"))).1, none) := by
  unfold std.Tags
  rw [← Read_fst]
  generalize Storage.Read s (t.nsKey ("key:" ++ key ++ ":tags")) w = r0
  obtain ⟨⟨v, err⟩, w1⟩ := r0
  simp only
  split <;> rfl

theorem Keys_fst (lib : Lib) (t : std) (s : Storage) (tag : String) (w : World) :
    (t.Keys lib s tag w).1 =
      if (w.readResult s (t.nsKey ("tag:" ++ tag ++ ":keys"))).2 ≠ none ∧
          (w.readResult s (t.nsKey ("tag:" ++ tag ++ ":keys"))).2 ≠ some .keyNotExist then
        ([], (w.readResult s (t.nsKey ("tag:" ++ tag ++ ":keys"))).2)
      else (slice lib (w.readResult s (t.nsKey ("tag:" ++ tag ++ ":keys"))).1, none) := by
  unfold std.Keys
  rw [← Read_fst]
  generalize Storage.Read s (t.nsKey ("tag:" ++ tag ++ ":keys")) w = r0
  obtain ⟨⟨v, err⟩, w1⟩ := r0
  simp only
  split <;> rfl

theorem readResult_of_heap_eq (w w1 : World) (hheap : w1.heap = w.heap) (hnow : w1.now = w.now)
    (s : Storage) (k : String) : w1.readResult s k = w.readResult s k := by
  unfold World.readResult
  rw [hheap, hnow]

/-- C12. In every state reachable from empty in-memory storages through `Tag`, `UnTag`,
`Set` and `Del`, for every storage, key and tag list: `Tag(s, key, tags...)` returns nil, and
calling it a second time returns nil and leaves every storage as the first call left it; in
particular the stored tag list of the key and the stored key-set of every tag are the same
after two calls as after one, and so are the answers of `Tags` and `Keys`. -/
theorem C12_tag_twice_is_tag_once (lib : Lib) (t : std) (w : World)
    (hw : Reachable lib t w) (s : Storage) (key : String) (tags : List String) :
    (t.Tag lib s key tags w).1 = none ∧
    (t.Tag lib s key tags (t.Tag lib s key tags w).2).1 = none ∧
    (t.Tag lib s key tags (t.Tag lib s key tags w).2).2.heap =
      (t.Tag lib s key tags w).2.heap ∧
    (t.Tag lib s key tags (t.Tag lib s key tags w).2).2.tagList t s key =
      (t.Tag lib s key tags w).2.tagList t s key ∧
    (∀ tag, (t.Tag lib s key tags (t.Tag lib s key tags w).2).2.keySet t s tag =
      (t.Tag lib s key tags w).2.keySet t s tag) ∧
    (t.Tags lib s key (t.Tag lib s key tags (t.Tag lib s key tags w).2).2).1 =
      (t.Tags lib s key (t.Tag lib s key tags w).2).1 ∧
    (∀ tag, (t.Keys lib s tag (t.Tag lib s key tags (t.Tag lib s key tags w).2).2).1 =
      (t.Keys lib s tag (t.Tag lib s key tags w).2).1) := by
  have hinv := TagInv_of_Reachable lib t w hw
  have hinv1 := TagInv_Tag lib t s key tags w hinv
  obtain ⟨hheap, hnow⟩ := Tag_Tag_heap lib t s key tags w hinv
  have hrr := readResult_of_heap_eq _ _ hheap hnow
  refine ⟨?_, ?_, hheap, ?_, ?_, ?_, ?_⟩
  · rw [Tag_eq lib t s key tags w (hinv.inMem s)]
  · rw [Tag_eq lib t s key tags _ (hinv1.inMem s)]
  · unfold World.tagList World.data
    rw [hheap]
  · intro tag
    unfold World.keySet World.data
    rw [hheap]
  · rw [Tags_fst, Tags_fst, hrr]
  · intro tag
    rw [Keys_fst, Keys_fst, hrr]

/-- C12 at a concrete input: the state reached by `Tag(s, "key2", "t")` and
`Tag(s, "key1", "t")`, then `Tag(s, "key3", "t", "u", "t")` once and twice. -/
theorem C12_tag_twice_is_tag_once_witness :
    Reachable exLib exTagger exWorldDescending ∧
    (exTagger.Tag exLib 0 "key3" ["t", "u", "t"]
        (exTagger.Tag exLib 0 "key3" ["t", "u", "t"] exWorldDescending).2).2.heap =
      (exTagger.Tag exLib 0 "key3" ["t", "u", "t"] exWorldDescending).2.heap :=
  ⟨Reachable.tag _ 0 "key1" ["t"]
      (Reachable.tag _ 0 "key2" ["t"] (Reachable.empty exWorld (fun _ => rfl))),
    (C12_tag_twice_is_tag_once exLib exTagger exWorldDescending
      (Reachable.tag _ 0 "key1" ["t"]
        (Reachable.tag _ 0 "key2" ["t"] (Reachable.empty exWorld (fun _ => rfl))))
      0 "key3" ["t", "u", "t"]).2.2.1⟩

/-! ## `ByTag`: the theorem -/

/-- The keys `Keys` returns in a state that satisfies the invariant are in strictly ascending
order. -/
theorem Keys_sorted (lib : Lib) (t : std) (s : Storage) (tag : String) (w : World)
    (hw : TagInv t w) : ((t.Keys lib s tag w).1.1).Pairwise (· < ·) := by
  rw [Keys_fst]
  split
  · exact List.Pairwise.nil
  · exact slice_sorted lib _ (keySet_read_ok t w hw s tag)

/-- What the handler of `ByTag` collects for a member, through `Cache.item`, is the stored
item value of the member. -/
theorem taggedValue_eq_storedItemValue (lib : Lib) (c : Cache) (w : World) (s : Storage)
    (key : String) :
    c.taggedValue lib w s key = storedItemValue lib (w.readResult s (c.NsKey key)).1 := by
  unfold Cache.taggedValue
  cases (w.readResult s (c.NsKey key)).1 <;> simp [Cache.item, storedItemValue, item.zero]

/-- C16. Let `s` be the first high-priority storage of a cache, and let `Keys(s, tag)`
succeed. The handler of `ByTag(tag, out)` on `s` decodes into `out` the list made, in the
order of `Keys(s, tag)`, of the stored item values of these keys in `s`: the value of a
stored item, the value of the item encoded by a stored JSON text, the value of the item that
any other stored value decodes to, where a key whose `Read` returns nil (as for a missing
key) and a key whose item has a nil value contribute nothing. When that decoding succeeds,
`ByTag` returns nil, `out` holds the result of that decoding, `s` is the only storage
visited, and every storage call made is a call on `s`. In a state reachable from empty
in-memory storages through `Tag`, `UnTag`, `Set` and `Del`, the order of `Keys(s, tag)` is
the strictly ascending order of the keys. -/
theorem C16_by_tag_decodes_values_of_first_storage (lib : Lib) (c : Cache) (tag : String)
    (out : Value) (w : World) (s : Storage) (rest : List Storage)
    (hs : c.storage .PriorityHigh = s :: rest)
    (hkeys : (c.tagger.Keys lib s tag w).1.2 = none) :
    (∃ st, c.byTagHandler lib tag s ⟨w, out⟩ =
        some ((true, (byTagDecode lib (((c.tagger.Keys lib s tag w).1.1).filterMap
          (fun key => storedItemValue lib (w.readResult s (c.NsKey key)).1)) out).1), st) ∧
      st.out = (byTagDecode lib (((c.tagger.Keys lib s tag w).1.1).filterMap
        (fun key => storedItemValue lib (w.readResult s (c.NsKey key)).1)) out).2) ∧
    ((byTagDecode lib (((c.tagger.Keys lib s tag w).1.1).filterMap
        (fun key => storedItemValue lib (w.readResult s (c.NsKey key)).1)) out).1 = none →
      ∃ res, c.ByTag lib tag out w = some res ∧ res.e = none ∧
        res.out = (byTagDecode lib (((c.tagger.Keys lib s tag w).1.1).filterMap
          (fun key => storedItemValue lib (w.readResult s (c.NsKey key)).1)) out).2 ∧
        res.calls = [⟨.PriorityHigh, s, true, none⟩] ∧
        World.logExt (fun ev => ev.storage = s) w res.world) ∧
    (Reachable lib c.tagger w → ((c.tagger.Keys lib s tag w).1.1).Pairwise (· < ·)) := by
  obtain ⟨w1, hh, hlog⟩ := byTagHandler_spec lib c tag s ⟨w, out⟩ hkeys
  have hfun : c.taggedValue lib w s =
      fun key => storedItemValue lib (w.readResult s (c.NsKey key)).1 :=
    funext (fun key => taggedValue_eq_storedItemValue lib c w s key)
  simp only [hfun] at hh hlog
  refine ⟨⟨_, hh, rfl⟩, ?_,
    fun hr => Keys_sorted lib c.tagger s tag w (TagInv_of_Reachable lib c.tagger w hr)⟩
  intro hdec
  rw [hdec] at hh
  refine ⟨⟨none, _, w1, [⟨.PriorityHigh, s, true, none⟩]⟩, ?_, rfl, rfl, rfl, hlog⟩
  simp [Cache.ByTag, Cache.Loop, hs, Loop.highPass, hh]

/-- C16 at a concrete input: the storage holds the key-set `["key1", "key2", "key3", "key4"]`
for the tag `t`, no value for `key1`, an item with a nil value for `key2`, an item with the
value `"v3"` for `key3` and, as JSON text, an item with the value `"v4"` for `key4`;
`ByTag("t", &out)` returns nil with `out = ["v3", "v4"]`. -/
theorem C16_by_tag_decodes_values_of_first_storage_witness :
    (exTest.tagger.Keys exLibItems 0 "t" exWorldTaggedText).1 =
      (["key1", "key2", "key3", "key4"], none) ∧
    exWorldTaggedText.readResult 0 "go:test:key1" = (.nil, some .keyNotExist) ∧
    exWorldTaggedText.readResult 0 "go:test:key2" = (.item "key2" .nil 0 0, none) ∧
    exWorldTaggedText.readResult 0 "go:test:key3" = (.item "key3" (.str "v3") 0 0, none) ∧
    exWorldTaggedText.readResult 0 "go:test:key4" =
      (.str "\x7b\"key\":\"key4\",\"val\":\"v4\"\x7d", none) ∧
    ∃ res, exTest.ByTag exLibItems "t" (.strs []) exWorldTaggedText = some res ∧
      res.e = none ∧ res.out = .strs ["v3", "v4"] ∧
      res.calls = [⟨.PriorityHigh, 0, true, none⟩] := by
  have hk : (exTest.tagger.Keys exLibItems 0 "t" exWorldTaggedText).1 =
      (["key1", "key2", "key3", "key4"], none) := by decide!
  have h := (C16_by_tag_decodes_values_of_first_storage exLibItems exTest "t" (.strs [])
    exWorldTaggedText 0 [] rfl (by rw [hk])).2.1
  have hv : (byTagDecode exLibItems
      (((exTest.tagger.Keys exLibItems 0 "t" exWorldTaggedText).1.1).filterMap
        (fun key => storedItemValue exLibItems
          (exWorldTaggedText.readResult 0 (exTest.NsKey key)).1)) (.strs [])) =
      (none, .strs ["v3", "v4"]) := by
    decide!
  rw [hv] at h
  obtain ⟨res, h1, h2, h3, h4, _⟩ := h rfl
  exact ⟨hk, by decide!, by decide!, by decide!, by decide!, res, h1, h2, h3, h4⟩

/-! ## removing a member from a sorted key-set -/

/-- One iteration of the `for` of `removeKeysFromTag` on a strictly sorted key-set that
holds the key: the result is strictly sorted and its members are the other members. -/
theorem removeAtSearch_of_mem (l : List String) (key : String) (hl : l.Pairwise (· < ·))
    (hmem : key ∈ l) :
    (removeAtSearch l key).Pairwise (· < ·) ∧
      ∀ x, x ∈ removeAtSearch l key ↔ x ∈ l ∧ x ≠ key := by
  refine ⟨List.Pairwise.sublist (removeAtSearch_sublist l key) hl, ?_⟩
  obtain ⟨hlen, hne, hval⟩ := Search_of_mem l key hl hmem
  have hpos : Search l.length (fun i => decide (key < l.getD i "")) > 0 := by omega
  have hsucc : Search l.length (fun i => decide (key < l.getD i "")) - 1 + 1 =
      Search l.length (fun i => decide (key < l.getD i "")) := by omega
  have hsplit : l = l.take (Search l.length (fun i => decide (key < l.getD i "")) - 1) ++
      key :: l.drop (Search l.length (fun i => decide (key < l.getD i ""))) := by
    conv => lhs; rw [← List.take_append_drop
      (Search l.length (fun i => decide (key < l.getD i "")) - 1) l]
    rw [List.drop_eq_getElem_cons hlen, hval, hsucc]
  have hp := hl
  rw [hsplit, List.pairwise_append] at hp
  obtain ⟨_, hp2, hp3⟩ := hp
  rw [List.pairwise_cons] at hp2
  intro x
  unfold removeAtSearch
  simp only [hpos, if_true]
  constructor
  · intro hx
    rw [List.mem_append] at hx
    constructor
    · rw [hsplit]
      rcases hx with hx | hx
      · exact List.mem_append_left _ hx
      · exact List.mem_append_right _ (List.mem_cons_of_mem _ hx)
    · intro hxk
      subst hxk
      rcases hx with hx | hx
      · exact lt_irrefl _ (hp3 x hx x (List.mem_cons_self _ _))
      · exact lt_irrefl _ (hp2.1 x hx)
  · intro ⟨hx, hxk⟩
    rw [hsplit, List.mem_append, List.mem_cons] at hx
    rw [List.mem_append]
    rcases hx with hx | hx | hx
    · exact Or.inl hx
    · exact absurd hx hxk
    · exact Or.inr hx

/-! ## expiry: `item.expired` and a write with no expiration -/

/-- C25. For every item and every instant, `expired` holds if and only if `Expires` is not
zero and `Created + Expires` is strictly before the instant; an item with `Expires = 0` is
never expired. -/
theorem C25_item_expired_iff (i : item) (now : Int) :
    (i.expired now = true ↔ i.Expires ≠ 0 ∧ i.Created + i.Expires < now) ∧
    (i.Expires = 0 → ∀ t, i.expired t = false) := by
  unfold item.expired
  constructor
  · by_cases h : i.Expires = 0 <;> simp [h]
  · intro h t
    simp [h]

/-- A `Write` with no expiration on an in-memory storage that has no expiry entry for the
key: every later `Read` returns the value and changes nothing. -/
theorem Write_zero_readable (data : String → Option Value) (expire : String → Option Int)
    (key : String) (v : Value) (t0 t : Int) (h : expire key = none) :
    (InMem.Write data expire t0 key v 0).2.Read t key =
      ((v, none), (InMem.Write data expire t0 key v 0).2) := by
  simp [InMem.Write, StorageState.Read, InMem.Read, mapSet, h]

/-- C21, the code at the failing input. On an empty in-memory storage, `Write("k", 1, 1ns)`
at instant 0 followed by `Write("k", 2, 0)` at instant 5 leaves the value 2 in the data map
and the expiry instant 1 of the first write in the expiry map; the `Read` at instant 5 reports
`key does not exist` and deletes the key. The same through a cache: after `Set("k", 1, 1ns)`
and `Set("k", 2, 0)` the storage reports the namespaced key absent. -/
theorem C21_zero_expiration_keeps_stale_expiry :
    (∃ data expire, exStaleStorage = .InMem data expire ∧ data "k" = some (.int 2) ∧
      expire "k" = some 1) ∧
    (exStaleStorage.Read 5 "k").1 = (.nil, some .keyNotExist) ∧
    (∃ data expire, (exStaleStorage.Read 5 "k").2 = .InMem data expire ∧ data "k" = none) ∧
    exWorldReset.data 0 "go:cache:k" = some (.item "k" (.int 2) 5 0) ∧
    exWorldReset.readResult 0 "go:cache:k" = (.nil, some .keyNotExist) :=
  ⟨⟨_, _, rfl, rfl, rfl⟩, rfl, ⟨_, _, rfl, rfl⟩, rfl, rfl⟩

/-- C22, the code at the failing input. The storage returns, for `go:cache:k`, an item that
expired at instant 1, at instant 5. `Cache.read` returns a nil item with a nil error, not
`key does not exist`; the `Delete` it makes is on the doubly namespaced key
`go:cache:go:cache:k`, so the expired item stays in the storage; and `Get` does not return:
its handler dereferences the nil item. -/
theorem C22_expired_item_read_returns_nil_nil :
    exWorldExpired.readResult 0 "go:cache:k" = (.item "k" (.int 1) 0 1, none) ∧
    (readItem exLib (.item "k" (.int 1) 0 1)).expired exWorldExpired.now = true ∧
    (exSingle.read exLib 0 "k" exWorldExpired).map (fun r => r.1) = some (none, none) ∧
    (exSingle.read exLib 0 "k" exWorldExpired).map (fun r => r.2.log) =
      some [⟨0, .Read "go:cache:k"⟩, ⟨0, .Delete "go:cache:go:cache:k"⟩,
        ⟨0, .Read "go:cache:tagger:key:go:cache:k:tags"⟩,
        ⟨0, .Read "go:cache:tagger:key:go:cache:k:tags"⟩,
        ⟨0, .Delete "go:cache:tagger:key:go:cache:k:tags"⟩,
        ⟨0, .Delete "go:cache:tagger:key:go:cache:k:tags"⟩] ∧
    (exSingle.read exLib 0 "k" exWorldExpired).map (fun r => r.2.data 0 "go:cache:k") =
      some (some (.item "k" (.int 1) 0 1)) ∧
    exSingle.Get exLib "k" .nil exWorldExpired = none :=
  ⟨rfl, rfl, rfl, rfl, rfl, rfl⟩

/-! ## the persisted representations of a tag list -/

/-- C26, the code at the failing input. For the list `["a", "b"]`: when the storage returns
its JSON text as a string or as a `[]byte`, `Keys` returns the list but `Tags` returns the
one-element list made of the JSON text; when the storage returns the delimited string
`"a b"`, `Tags` returns the list but `Keys` returns the empty list. Only the native
`[]string` is accepted by both. -/
theorem C26_tags_and_keys_accept_different_representations :
    (exTagger.Tags exLibText 0 "k" (exWorldReturning (.strs ["a", "b"]))).1 =
      (["a", "b"], none) ∧
    (exTagger.Keys exLibText 0 "t" (exWorldReturning (.strs ["a", "b"]))).1 =
      (["a", "b"], none) ∧
    (exTagger.Tags exLibText 0 "k" (exWorldReturning (.str "[\"a\",\"b\"]"))).1 =
      (["[\"a\",\"b\"]"], none) ∧
    (exTagger.Keys exLibText 0 "t" (exWorldReturning (.str "[\"a\",\"b\"]"))).1 =
      (["a", "b"], none) ∧
    (exTagger.Tags exLibText 0 "k" (exWorldReturning (.bytes "[\"a\",\"b\"]"))).1 =
      (["[\"a\",\"b\"]"], none) ∧
    (exTagger.Keys exLibText 0 "t" (exWorldReturning (.bytes "[\"a\",\"b\"]"))).1 =
      (["a", "b"], none) ∧
    (exTagger.Tags exLibText 0 "k" (exWorldReturning (.str "a b"))).1 = (["a", "b"], none) ∧
    (exTagger.Keys exLibText 0 "t" (exWorldReturning (.str "a b"))).1 = ([], none) :=
  ⟨rfl, rfl, rfl, rfl, rfl, rfl, rfl, rfl⟩

/-! ## `insertIntoSorted` -/

/-- C27, the code at the failing input. Inserting a value that falls before an element of
the list writes it over that element: `key1` into `["key2"]` gives `["key1"]`, `b` into
`["a", "c", "e"]` gives `["a", "b", "e"]`, and `a` into `["b", "c"]` gives `["a", "c"]`.
Only a value that falls after the last element is added without loss. -/
theorem C27_insert_overwrites_the_next_element :
    insertIntoSorted ["key2"] "key1" = ["key1"] ∧
    insertIntoSorted ["a", "c", "e"] "b" = ["a", "b", "e"] ∧
    insertIntoSorted ["b", "c"] "a" = ["a", "c"] ∧
    insertIntoSorted ["a", "c", "e"] "f" = ["a", "c", "e", "f"] := by
  decide!

/-- C28. For every strictly sorted list and every value, the result of `insertIntoSorted`
is strictly sorted, has no duplicates and holds the value; and when the value already
occurs in the list, the result is the list itself. -/
theorem C28_insert_keeps_sorted_and_holds_value (l : List String) (v : String)
    (hl : l.Pairwise (· < ·)) :
    (insertIntoSorted l v).Pairwise (· < ·) ∧ (insertIntoSorted l v).Nodup ∧
    v ∈ insertIntoSorted l v ∧ (v ∈ l → insertIntoSorted l v = l) := by
  have h := insertIntoSorted_sorted l v hl
  exact ⟨h, List.Pairwise.imp (fun hab => ne_of_lt hab) h, mem_insertIntoSorted l v,
    insertIntoSorted_of_mem l v hl⟩

/-- C28 at a concrete input: `b` into the strictly sorted `["a", "c", "e"]`, and `c` into the
same list. -/
theorem C28_insert_keeps_sorted_and_holds_value_witness :
    ["a", "c", "e"].Pairwise (fun (x y : String) => x < y) ∧
    (insertIntoSorted ["a", "c", "e"] "b").Pairwise (· < ·) ∧
    "b" ∈ insertIntoSorted ["a", "c", "e"] "b" ∧
    insertIntoSorted ["a", "c", "e"] "c" = ["a", "c", "e"] :=
  ⟨by decide!,
    (C28_insert_keeps_sorted_and_holds_value ["a", "c", "e"] "b" (by decide!)).1,
    (C28_insert_keeps_sorted_and_holds_value ["a", "c", "e"] "b" (by decide!)).2.2.1,
    (C28_insert_keeps_sorted_and_holds_value ["a", "c", "e"] "c" (by decide!)).2.2.2
      (by decide)⟩

/-! ## promotion: what `propagate` writes -/

theorem Tags_now (lib : Lib) (t : std) (s : Storage) (key : String) (w : World) :
    (t.Tags lib s key w).2.now = w.now := by
  rw [Tags_snd, Read_now]

/-- A `Set` through a cache over one high-priority storage is one `Cache.write` on it. -/
theorem Set_single (lib : Lib) (c : Cache) (s : Storage) (key : String) (v : Value) (d : Int)
    (tags : List String) (w : World) (hhigh : c.storage .PriorityHigh = [s])
    (hmed : c.storage .PriorityMedium = []) :
    ∃ r, c.Set lib key v d tags w = some r ∧
      r.state = (c.write lib s key (.item key v w.now d) d tags w).2 := by
  unfold Cache.Set Cache.set Cache.Loop
  simp only [hhigh, hmed, Loop.highPass, Cache.setHandler, item.toValue]
  rcases hw : c.write lib s key (.item key v w.now d) d tags w with ⟨err, w1⟩
  cases err <;> simp [Loop.mediumPass, Pass.addCall]

/-- What `propagate` does when the tag lookup succeeds: one `Write` of the re-stamped item
under the namespaced key, with the remaining time to live, then `Tag` with the tags found
(by the default tagger of the new cache) when there are any. -/
theorem propagate_eq (lib : Lib) (c : Cache) (s1 s2 : Storage) (it : item) (key : String)
    (w : World) (hok : (c.tagger.Tags lib s2 key w).1.2 = none) :
    c.propagate lib s1 (some s2) it key w =
      some (none,
        if (Storage.Write s1 (c.NsKey key)
              (.item key it.Val w.now (it.Expires - (w.now - it.Created)))
              (it.Expires - (w.now - it.Created)) (c.tagger.Tags lib s2 key w).2).1 = none ∧
            (c.tagger.Tags lib s2 key w).1.1.length > 0 then
          ((newStdTagger "go:cache:tagger").Tag lib s1 key (c.tagger.Tags lib s2 key w).1.1
            (Storage.Write s1 (c.NsKey key)
              (.item key it.Val w.now (it.Expires - (w.now - it.Created)))
              (it.Expires - (w.now - it.Created)) (c.tagger.Tags lib s2 key w).2).2).2
        else
          (Storage.Write s1 (c.NsKey key)
            (.item key it.Val w.now (it.Expires - (w.now - it.Created)))
            (it.Expires - (w.now - it.Created)) (c.tagger.Tags lib s2 key w).2).2) := by
  have hnow := Tags_now lib c.tagger s2 key w
  unfold Cache.propagate
  simp only
  generalize c.tagger.Tags lib s2 key w = r0 at hok hnow ⊢
  obtain ⟨⟨tags, err⟩, w1⟩ := r0
  simp only at hok hnow ⊢
  subst hok
  simp only
  obtain ⟨r, hr, hst⟩ := Set_single lib (New [WithStorage [s1], WithNamespace c.ns]) s1 key
    it.Val (it.Expires - (w1.now - it.Created)) tags w1 rfl rfl
  rw [hr]
  simp only [hst, hnow]
  congr 2
  unfold Cache.write
  have hk : (New [WithStorage [s1], WithNamespace c.ns]).NsKey key = c.NsKey key := rfl
  have ht : (New [WithStorage [s1], WithNamespace c.ns]).tagger =
      newStdTagger "go:cache:tagger" := rfl
  rw [hk, ht]
  rcases hwr : Storage.Write s1 (c.NsKey key)
      (.item key it.Val w.now (it.Expires - (w.now - it.Created)))
      (it.Expires - (w.now - it.Created)) w1 with ⟨e1, w2⟩
  cases e1 with
  | some e1 => simp
  | none =>
    simp only [true_and]
    by_cases hl : tags.length > 0
    · simp only [hl, if_true]
      rcases (newStdTagger "go:cache:tagger").Tag lib s1 key tags w2 with ⟨e2, w3⟩
      cases e2 <;> rfl
    · simp only [hl, if_false]

/-- When neither the difference of the instants nor the subtraction leaves the range of a
`Duration`, the time to live that `propagate` computes is `e - (now - c)`. -/
theorem propagateTTL_eq (it : item) (t1 : Int)
    (h1 : minDuration ≤ t1 - it.Created) (h2 : t1 - it.Created ≤ maxDuration)
    (h3 : minDuration ≤ it.Expires - (t1 - it.Created))
    (h4 : it.Expires - (t1 - it.Created) ≤ maxDuration) :
    propagateTTL it t1 = it.Expires - (t1 - it.Created) := by
  unfold minDuration at h1 h3
  unfold maxDuration at h2 h4
  have hs : Time.Sub t1 it.Created = t1 - it.Created := by
    unfold Time.Sub maxDuration minDuration
    rw [if_neg (by omega), if_neg (by omega)]
  unfold propagateTTL wrap64
  rw [hs]
  omega

/-- A `setAt` through a cache over one high-priority storage is one `Cache.write` on it, of
the item stamped with the reading of the clock in `set`. -/
theorem setAt_single (lib : Lib) (c : Cache) (s : Storage) (key : String) (v : Value) (d : Int)
    (tags : List String) (t2 : Int) (w : World) (hhigh : c.storage .PriorityHigh = [s])
    (hmed : c.storage .PriorityMedium = []) :
    ∃ r, c.setAt lib key v d tags t2 w = some r ∧
      r.state = (c.write lib s key (.item key v t2 d) d tags w).2 := by
  unfold Cache.setAt Cache.Loop
  simp only [hhigh, hmed, Loop.highPass, Cache.setHandler, item.toValue]
  rcases hw : c.write lib s key (.item key v t2 d) d tags w with ⟨err, w1⟩
  cases err <;> simp [Loop.mediumPass, Pass.addCall]

/-- `Cache.Set` is `Cache.setAt` at the clock of the world. -/
theorem Set_eq_setAt (lib : Lib) (c : Cache) (key : String) (v : Value) (d : Int)
    (tags : List String) (w : World) :
    c.Set lib key v d tags w = c.setAt lib key v d tags w.now w :=
  rfl

/-- `Cache.propagate` is `Cache.propagateAt` when the clock does not move during the
promotion and the durations stay in range. -/
theorem propagateAt_same_clock (lib : Lib) (c : Cache) (s1 s2 : Storage) (it : item)
    (key : String) (w : World)
    (h1 : minDuration ≤ w.now - it.Created) (h2 : w.now - it.Created ≤ maxDuration)
    (h3 : minDuration ≤ it.Expires - (w.now - it.Created))
    (h4 : it.Expires - (w.now - it.Created) ≤ maxDuration) :
    c.propagateAt lib s1 (some s2) it key w.now w.now w.now w =
      c.propagate lib s1 (some s2) it key w := by
  have hnow := Tags_now lib c.tagger s2 key w
  unfold Cache.propagateAt Cache.propagate
  simp only
  rw [propagateTTL_eq it w.now h1 h2 h3 h4]
  generalize c.tagger.Tags lib s2 key w = r0 at hnow ⊢
  obtain ⟨⟨tags, err⟩, w1⟩ := r0
  simp only at hnow
  cases err with
  | some err => rfl
  | none =>
    simp only [Set_eq_setAt, hnow]
    rw [← hnow]

/-- What `propagateAt` does when the tag lookup succeeds: one `Write`, when the clock shows
`t3`, of the item stamped `t2` under the namespaced key, with the time to live computed at
`t1`, then `Tag` with the tags found when there are any. -/
theorem propagateAt_eq (lib : Lib) (c : Cache) (s1 s2 : Storage) (it : item) (key : String)
    (t1 t2 t3 : Int) (w : World) (hok : (c.tagger.Tags lib s2 key w).1.2 = none) :
    c.propagateAt lib s1 (some s2) it key t1 t2 t3 w =
      some (none,
        if (Storage.Write s1 (c.NsKey key) (.item key it.Val t2 (propagateTTL it t1))
              (propagateTTL it t1) { (c.tagger.Tags lib s2 key w).2 with now := t3 }).1 = none ∧
            (c.tagger.Tags lib s2 key w).1.1.length > 0 then
          ((newStdTagger "go:cache:tagger").Tag lib s1 key (c.tagger.Tags lib s2 key w).1.1
            (Storage.Write s1 (c.NsKey key) (.item key it.Val t2 (propagateTTL it t1))
              (propagateTTL it t1) { (c.tagger.Tags lib s2 key w).2 with now := t3 }).2).2
        else
          (Storage.Write s1 (c.NsKey key) (.item key it.Val t2 (propagateTTL it t1))
            (propagateTTL it t1) { (c.tagger.Tags lib s2 key w).2 with now := t3 }).2) := by
  unfold Cache.propagateAt
  simp only
  generalize c.tagger.Tags lib s2 key w = r0 at hok ⊢
  obtain ⟨⟨tags, err⟩, w1⟩ := r0
  simp only at hok ⊢
  subst hok
  simp only
  obtain ⟨r, hr, hst⟩ := setAt_single lib (New [WithStorage [s1], WithNamespace c.ns]) s1 key
    it.Val (propagateTTL it t1) tags t2 { w1 with now := t3 } rfl rfl
  rw [hr]
  simp only [hst]
  congr 2
  unfold Cache.write
  have hk : (New [WithStorage [s1], WithNamespace c.ns]).NsKey key = c.NsKey key := rfl
  have ht : (New [WithStorage [s1], WithNamespace c.ns]).tagger =
      newStdTagger "go:cache:tagger" := rfl
  rw [hk, ht]
  rcases hwr : Storage.Write s1 (c.NsKey key) (.item key it.Val t2 (propagateTTL it t1))
      (propagateTTL it t1) { w1 with now := t3 } with ⟨e1, w2⟩
  cases e1 with
  | some e1 => simp
  | none =>
    simp only [true_and]
    by_cases hl : tags.length > 0
    · simp only [hl, if_true]
      rcases (newStdTagger "go:cache:tagger").Tag lib s1 key tags w2 with ⟨e2, w3⟩
      cases e2 <;> rfl
    · simp only [hl, if_false]

/-- C24, amended. Let `t1` be the reading of the clock in `propagate` and `t2` the later
reading in `set`. For an item with `Expires = e > 0` created at `c`, with `t1` strictly
before `c + e` and `e - (t1 - c)` within the range of a `Duration`, the time to live that
`propagate` passes to `Set` is `e - (t1 - c)`, which is positive, and the item written is
stamped `Created = t2` with that time to live as `Expires`, so that
`Created + Expires = c + e + (t2 - t1)`: the expiration instant of the copy is that of the
found item moved by the time elapsed between the two readings, never earlier when the clock
does not go back, and equal exactly when the two readings coincide. When the lookup of the
tags of the key in the winning storage `s2` succeeds, `propagate` returns after writing that
item into the candidate `s1` under the namespaced key with that time to live, and then
tagging the key in `s1` with the tags found, if any. -/
theorem C24_promotion_moves_expiration_by_elapsed_time (lib : Lib) (c : Cache)
    (s1 s2 : Storage) (it : item) (key : String) (t1 t2 t3 : Int) (w : World)
    (he : 0 < it.Expires) (hmax : it.Expires ≤ maxDuration)
    (hlive : t1 < it.Created + it.Expires)
    (hfit : it.Expires - (t1 - it.Created) ≤ maxDuration) :
    propagateTTL it t1 = it.Expires - (t1 - it.Created) ∧
    0 < propagateTTL it t1 ∧
    t2 + propagateTTL it t1 = it.Created + it.Expires + (t2 - t1) ∧
    (t1 ≤ t2 → it.Created + it.Expires ≤ t2 + propagateTTL it t1) ∧
    (t2 + propagateTTL it t1 = it.Created + it.Expires ↔ t2 = t1) ∧
    (∀ t, (item.mk key it.Val t2 (propagateTTL it t1)).expired t =
      decide (it.Created + it.Expires + (t2 - t1) < t)) ∧
    ((c.tagger.Tags lib s2 key w).1.2 = none →
      c.propagateAt lib s1 (some s2) it key t1 t2 t3 w =
        some (none,
          if (Storage.Write s1 (c.NsKey key) (.item key it.Val t2 (propagateTTL it t1))
                (propagateTTL it t1)
                { (c.tagger.Tags lib s2 key w).2 with now := t3 }).1 = none ∧
              (c.tagger.Tags lib s2 key w).1.1.length > 0 then
            ((newStdTagger "go:cache:tagger").Tag lib s1 key (c.tagger.Tags lib s2 key w).1.1
              (Storage.Write s1 (c.NsKey key) (.item key it.Val t2 (propagateTTL it t1))
                (propagateTTL it t1)
                { (c.tagger.Tags lib s2 key w).2 with now := t3 }).2).2
          else
            (Storage.Write s1 (c.NsKey key) (.item key it.Val t2 (propagateTTL it t1))
              (propagateTTL it t1) { (c.tagger.Tags lib s2 key w).2 with now := t3 }).2)) := by
  have hmax' := hmax
  have hfit' := hfit
  unfold maxDuration at hmax' hfit'
  have httl : propagateTTL it t1 = it.Expires - (t1 - it.Created) :=
    propagateTTL_eq it t1 (by unfold minDuration; omega) (by unfold maxDuration; omega)
      (by unfold minDuration; omega) hfit
  refine ⟨httl, by omega, by omega, fun _ => by omega, ⟨fun h => by omega, fun h => by omega⟩,
    ?_, propagateAt_eq lib c s1 s2 it key t1 t2 t3 w⟩
  intro t
  have hne : propagateTTL it t1 ≠ 0 := by omega
  have heq : t2 + propagateTTL it t1 = it.Created + it.Expires + (t2 - t1) := by omega
  simp only [item.expired, hne, if_false, heq]

/-- C24, amended, at a concrete input: an item created at instant 0 with `Expires = 10` is
promoted from storage 0 into storage 1; the clock reads 4 in `propagate`, 5 in `set` and 6 in
the `Write` of the in-memory storage. The copy is stamped `Created = 5`, `Expires = 6`, and
the in-memory storage expires it at instant 12. -/
theorem C24_promotion_moves_expiration_by_elapsed_time_witness :
    (0 : Int) < 10 ∧ (10 : Int) ≤ maxDuration ∧ (4 : Int) < 0 + 10 ∧
    (10 : Int) - (4 - 0) ≤ maxDuration ∧
    propagateTTL ⟨"k", .int 1, 0, 10⟩ 4 = 6 ∧
    (5 : Int) + propagateTTL ⟨"k", .int 1, 0, 10⟩ 4 = 0 + 10 + (5 - 4) ∧
    ∃ r, exTest.propagateAt exLib 1 (some 0) ⟨"k", .int 1, 0, 10⟩ "k" 4 5 6
        { exWorld with now := 4 } = some (none, r) ∧
      r.data 1 "go:test:k" = some (.item "k" (.int 1) 5 6) ∧
      r.expire 1 "go:test:k" = some 12 :=
  ⟨by decide, by decide, by decide, by decide,
    (C24_promotion_moves_expiration_by_elapsed_time exLib exTest 1 0 ⟨"k", .int 1, 0, 10⟩ "k"
      4 5 6 { exWorld with now := 4 } (by decide) (by decide) (by decide) (by decide)).1,
    (C24_promotion_moves_expiration_by_elapsed_time exLib exTest 1 0 ⟨"k", .int 1, 0, 10⟩ "k"
      4 5 6 { exWorld with now := 4 } (by decide) (by decide) (by decide) (by decide)).2.2.1,
    _,
    (C24_promotion_moves_expiration_by_elapsed_time exLib exTest 1 0 ⟨"k", .int 1, 0, 10⟩ "k"
      4 5 6 { exWorld with now := 4 } (by decide) (by decide) (by decide)
      (by decide)).2.2.2.2.2.2 rfl,
    rfl, rfl⟩

/-- Outside the range of the promotion theorem: at the instant `t1 = c + e`, at which the
found item is not yet expired, the time to live is 0, which `Set` and the storages read as
no expiration; and for an item stamped far enough in the future the `int64` subtraction
wraps to a negative time to live. -/
theorem propagateTTL_outside_the_hypotheses :
    (item.mk "k" (.int 1) 0 10).expired 10 = false ∧
    propagateTTL ⟨"k", .int 1, 0, 10⟩ 10 = 0 ∧
    (∀ t, (item.mk "k" (.int 1) 10 0).expired t = false) ∧
    Time.Sub (-10) maxDuration = minDuration ∧
    propagateTTL ⟨"k", .int 1, maxDuration, 10⟩ (-10) = 10 + minDuration := by
  refine ⟨by decide, by decide, fun t => rfl, by decide, by decide⟩

/-- C24 as stated fails: the clock is read in `propagate` for the time to live and again in
`set` for `Created`. With an item created at 0 with `Expires = 10`, found not expired, the
clock reading 4 in `propagate` and 5 in `set`, the copy written into the candidate has the
time to live `10 - (4 - 0) = 6` but `Created = 5`, so its `Created + Expires` is 11, not
`c + e = 10`. -/
theorem C24_counterexample_clock_read_twice :
    (item.mk "k" (.int 1) 0 10).expired 4 = false ∧
    (item.mk "k" (.int 1) 0 10).expired 5 = false ∧
    (exTest.propagateAt exLib 1 (some 0) ⟨"k", .int 1, 0, 10⟩ "k" 4 5 5
        { exWorld with now := 4 }).map (fun r => (r.1, r.2.data 1 "go:test:k", r.2.log)) =
      some (none, some (.item "k" (.int 1) 5 6),
        [⟨0, .Read "go:cache:tagger:key:k:tags"⟩,
         ⟨1, .Write "go:test:k" (.item "k" (.int 1) 5 6) 6⟩]) ∧
    (5 : Int) + 6 ≠ 0 + 10 := by
  decide!

/-! ## the loop: a high-priority error together with terminate -/

theorem highPass_head {σ : Type} (high : Handler σ) (s : Storage) (rest : List Storage)
    (e : Option Error) (w : σ) (q : Pass σ) (h : Loop.highPass high (s :: rest) e w = some q) :
    ∃ t err tail, q.calls = ⟨.PriorityHigh, s, t, err⟩ :: tail := by
  rw [Loop.highPass] at h
  cases hs : high s w with
  | none => simp [hs] at h
  | some r =>
    obtain ⟨⟨t, err⟩, w'⟩ := r
    cases err with
    | some err =>
      simp only [hs, Option.map_eq_some'] at h
      obtain ⟨q0, _, rfl⟩ := h
      exact ⟨t, some err, q0.calls, rfl⟩
    | none =>
      cases t with
      | true =>
        simp only [hs, Option.some.injEq] at h
        subst h
        exact ⟨true, none, [], rfl⟩
      | false =>
        simp only [hs, Option.map_eq_some'] at h
        obtain ⟨q0, _, rfl⟩ := h
        exact ⟨false, none, q0.calls, rfl⟩

theorem mediumPass_head {σ : Type} (medium : Handler σ) (e : Option Error) (s : Storage)
    (rest : List Storage) (w : σ) (q : Pass σ)
    (h : Loop.mediumPass medium e (s :: rest) w = some q) :
    ∃ t err tail, q.calls = ⟨.PriorityMedium, s, t, err⟩ :: tail := by
  rw [Loop.mediumPass] at h
  cases hs : medium s w with
  | none => simp [hs] at h
  | some r =>
    obtain ⟨⟨t, err⟩, w'⟩ := r
    cases t with
    | true =>
      simp only [hs, Option.some.injEq] at h
      subst h
      exact ⟨true, err, [], rfl⟩
    | false =>
      simp only [hs, Option.map_eq_some'] at h
      obtain ⟨q0, _, rfl⟩ := h
      exact ⟨false, err, q0.calls, rfl⟩

/-- The high pass after an invocation that returned an error: whatever the terminate flag,
the error is appended and the pass goes on over the remaining storages. -/
theorem highPass_after_error {σ : Type} (high : Handler σ) (pre post : List Storage)
    (s : Storage) (w w' : σ) (p q : Pass σ) (t : Bool) (err : Error)
    (hpre : Loop.highPass high pre none w = some p) (hcont : p.returned = false)
    (hs : high s p.state = some ((t, some err), w'))
    (hq : Loop.highPass high post (some (Append p.e err)) w' = some q) :
    Loop.highPass high (pre ++ s :: post) none w =
      some ⟨q.returned, q.e, q.state, p.calls ++ ⟨.PriorityHigh, s, t, some err⟩ :: q.calls⟩ := by
  rw [highPass_append high (s :: post) pre none w p hpre hcont]
  rw [Loop.highPass]
  simp only [hs, hq, Option.map_some', Pass.addCall]

/-- C29, amended. Let the high handler return an error, with any terminate flag, on a
high-priority storage `s` that the loop reaches. When the handlers do not panic, `Loop`
returns, and its invocations are those made before `s`, the one on `s`, and then `rest`,
where: if a high-priority storage is registered after `s`, `rest` starts with the invocation
on it; if `s` is the last high-priority storage and there is a medium-priority storage,
`rest` starts with the invocation on the first of them; if `s` is the last storage of the
cache, `rest` is empty. The result is nil only if a later invocation ended the loop, and
otherwise carries the error returned on `s`. So terminate = true is honoured in the high
tier only when it comes without an error. -/
theorem C29_high_error_overrides_terminate {σ : Type} (c : Cache) (high : Handler σ)
    (medium : Option (Handler σ)) (w w' : σ) (pre post : List Storage) (s : Storage)
    (p : Pass σ) (t : Bool) (err : Error)
    (hH : ∀ s w, (high s w).isSome = true)
    (hM : ∀ s w, ((medium.getD high) s w).isSome = true)
    (hc : c.storage .PriorityHigh = pre ++ s :: post)
    (hpre : Loop.highPass high pre none w = some p) (hcont : p.returned = false)
    (hs : high s p.state = some ((t, some err), w')) :
    ∃ out rest, c.Loop high medium w = some out ∧
      out.calls = p.calls ++ ⟨.PriorityHigh, s, t, some err⟩ :: rest ∧
      (∀ s2 post2, post = s2 :: post2 →
        ∃ t2 e2 rest2, rest = ⟨.PriorityHigh, s2, t2, e2⟩ :: rest2) ∧
      (post = [] → ∀ m mrest, c.storage .PriorityMedium = m :: mrest →
        ∃ t2 e2 rest2, rest = ⟨.PriorityMedium, m, t2, e2⟩ :: rest2) ∧
      (post = [] → c.storage .PriorityMedium = [] → rest = [] ∧ out.state = w') ∧
      (out.e = none ∨ ∀ x ∈ err.flatten, x ∈ errorsOf out.e) ∧
      ((∀ call ∈ rest, ¬ (call.terminate = true ∧
          (call.err = none ∨ call.prio = .PriorityMedium))) → out.e ≠ none) := by
  obtain ⟨q, hq⟩ := highPass_total high hH post (some (Append p.e err)) w'
  have hfull := highPass_after_error high pre post s w w' p q t err hpre hcont hs hq
  obtain ⟨q1, q2, q3, _⟩ := highPass_spec high _ _ _ _ hq
  have hA : ∀ s2 post2, post = s2 :: post2 → ∀ tail,
      ∃ t2 e2 rest2, q.calls ++ tail = ⟨.PriorityHigh, s2, t2, e2⟩ :: rest2 := by
    intro s2 post2 hpost tail
    rw [hpost] at hq
    obtain ⟨t2, e2, tl, htl⟩ := highPass_head high s2 post2 _ _ _ hq
    exact ⟨t2, e2, tl ++ tail, by rw [htl]; rfl⟩
  have hnil : post = [] → q = ⟨false, some (Append p.e err), w', []⟩ := by
    intro hpost
    rw [hpost] at hq
    simp only [Loop.highPass, Option.some.injEq] at hq
    exact hq.symm
  by_cases hr : q.returned = true
  · refine ⟨⟨none, q.state, p.calls ++ ⟨.PriorityHigh, s, t, some err⟩ :: q.calls⟩, q.calls,
      ?_, rfl, ?_, ?_, ?_, Or.inl rfl, ?_⟩
    · unfold Cache.Loop
      simp only [hc, hfull, hr, if_true]
    · intro s2 post2 hpost
      simpa using hA s2 post2 hpost []
    · intro hpost
      rw [hnil hpost] at hr
      cases hr
    · intro hpost
      rw [hnil hpost] at hr
      cases hr
    · intro hall
      obtain ⟨_, ⟨pre2, s2, hcalls⟩, _⟩ := q2 hr
      exact absurd ⟨rfl, Or.inl rfl⟩
        (hall ⟨.PriorityHigh, s2, true, none⟩ (by rw [hcalls]; simp))
  · have hr' : q.returned = false := by simpa using hr
    obtain ⟨m, hm⟩ := mediumPass_total (medium.getD high) hM q.e
      (c.storage .PriorityMedium) q.state
    obtain ⟨m1, m2, m3, m4⟩ := mediumPass_spec _ _ _ _ _ hm
    obtain ⟨_, hqe⟩ := q3 hr'
    refine ⟨⟨m.e, m.state, p.calls ++ ⟨.PriorityHigh, s, t, some err⟩ :: (q.calls ++ m.calls)⟩,
      q.calls ++ m.calls, ?_, rfl, ?_, ?_, ?_, ?_, ?_⟩
    · unfold Cache.Loop
      simp only [hc, hfull, hr', hm, Bool.false_eq_true, if_false, List.append_assoc,
        List.cons_append]
    · intro s2 post2 hpost
      exact hA s2 post2 hpost m.calls
    · intro hpost m0 mrest hmed
      rw [hnil hpost]
      rw [hmed] at hm
      obtain ⟨t2, e2, tl, htl⟩ := mediumPass_head _ _ m0 mrest _ _ hm
      exact ⟨t2, e2, tl, by simp [htl]⟩
    · intro hpost hmed
      rw [hmed] at hm
      simp only [Loop.mediumPass, Option.some.injEq] at hm
      subst hm
      rw [hnil hpost]
      exact ⟨rfl, rfl⟩
    · by_cases hmr : m.returned = true
      · exact Or.inl (m2 hmr)
      · have hmr' : m.returned = false := by simpa using hmr
        right
        intro x hx
        rw [(m3 hmr').2, hqe, mem_errorsOf_appendAll]
        left
        rw [errorsOf_Append]
        exact List.mem_append_right _ hx
    · intro hall
      have hmr' : m.returned = false := by
        apply m4
        intro call hcall
        have := hall call (List.mem_append_right _ hcall)
        cases hterm : call.terminate with
        | false => rfl
        | true => exact absurd ⟨hterm, Or.inr (m1 call hcall)⟩ this
      rw [(m3 hmr').2, hqe]
      exact appendAll_some_ne_none _ _

/-- C29 at a concrete input: five high-priority and two medium-priority storages; the
invocation on storage 2 returns terminate = true with the error `boom`; all seven storages
are visited and the result is the aggregate of that error. -/
theorem C29_high_error_overrides_terminate_witness :
    exTerminateWithError 2 2 = some ((true, some (.other "boom")), 3) ∧
    ∃ out, exCache52.Loop exTerminateWithError none 0 = some out ∧
      out.calls.map (fun call => call.storage) = [0, 1, 2, 3, 4, 5, 6] ∧
      out.e = some (.multi [.other "boom"]) := by
  obtain ⟨out, rest, hout, _, _, _, _, _, _⟩ :=
    C29_high_error_overrides_terminate exCache52 exTerminateWithError none 0 3 [0, 1] [3, 4] 2
      ⟨false, none, 2, [⟨.PriorityHigh, 0, false, none⟩, ⟨.PriorityHigh, 1, false, none⟩]⟩
      true (.other "boom") (fun _ _ => rfl) (fun _ _ => rfl) rfl rfl rfl rfl
  have hval : exCache52.Loop exTerminateWithError none 0 = some
      ⟨some (.multi [.other "boom"]), 7,
        [⟨.PriorityHigh, 0, false, none⟩, ⟨.PriorityHigh, 1, false, none⟩,
         ⟨.PriorityHigh, 2, true, some (.other "boom")⟩, ⟨.PriorityHigh, 3, false, none⟩,
         ⟨.PriorityHigh, 4, false, none⟩, ⟨.PriorityMedium, 5, false, none⟩,
         ⟨.PriorityMedium, 6, false, none⟩]⟩ := rfl
  rw [hval] at hout
  cases hout
  exact ⟨rfl, _, hval, rfl, rfl⟩

/-- C29, counterexample. Two high-priority in-memory storages hold the key `key1`, tagged
`t`, with the integer value 1; `ByTag("t", &out)` with an `out` that takes strings only: the
handler returns terminate = true with the decoding error on the first storage, the second
storage is consulted all the same, and the aggregate of the two errors is returned. -/
theorem C29_counterexample_by_tag_consults_next_storage :
    (exTwoHigh.ByTag exLib "t" (.strs []) exWorldIntTagged).map
        (fun r => (r.e, r.calls)) =
      some (some (.multi [.other "decode", .other "decode"]),
        [⟨.PriorityHigh, 0, true, some (.other "decode")⟩,
         ⟨.PriorityHigh, 1, true, some (.other "decode")⟩]) := by
  decide!

/-! ## which storage calls an operation makes, by kind and key -/

theorem opExt_Read (P : Event → Prop) (s : Storage) (key : String) (w : World)
    (h : P ⟨s, .Read key⟩) : World.logExt P w (Storage.Read s key w).2 :=
  ⟨[⟨s, .Read key⟩], rfl, by simp [h]⟩

theorem opExt_Write (P : Event → Prop) (s : Storage) (key : String) (v : Value) (d : Int)
    (w : World) (h : P ⟨s, .Write key v d⟩) : World.logExt P w (Storage.Write s key v d w).2 :=
  ⟨[⟨s, .Write key v d⟩], rfl, by simp [h]⟩

theorem opExt_Delete (P : Event → Prop) (s : Storage) (key : String) (w : World)
    (h : P ⟨s, .Delete key⟩) : World.logExt P w (Storage.Delete s key w).2 :=
  ⟨[⟨s, .Delete key⟩], rfl, by simp [h]⟩

theorem opExt_Tags (lib : Lib) (P : Event → Prop) (t : std) (s : Storage)
    (hR : ∀ k, P ⟨s, .Read (t.nsKey k)⟩) (key : String) (w : World) :
    World.logExt P w (t.Tags lib s key w).2 := by
  rw [Tags_snd]
  exact opExt_Read P s _ w (hR _)

theorem opExt_Keys (lib : Lib) (P : Event → Prop) (t : std) (s : Storage)
    (hR : ∀ k, P ⟨s, .Read (t.nsKey k)⟩) (tag : String) (w : World) :
    World.logExt P w (t.Keys lib s tag w).2 := by
  rw [Keys_snd]
  exact opExt_Read P s _ w (hR _)

theorem opExt_addTagsToKey (lib : Lib) (P : Event → Prop) (t : std) (s : Storage)
    (hR : ∀ k, P ⟨s, .Read (t.nsKey k)⟩) (hW : ∀ k v d, P ⟨s, .Write (t.nsKey k) v d⟩)
    (key : String) (tags : List String) (w : World) :
    World.logExt P w (t.addTagsToKey lib s key tags w).2 := by
  unfold std.addTagsToKey
  have h := opExt_Read P s (t.nsKey key) w (hR key)
  generalize Storage.Read s (t.nsKey key) w = r0 at h ⊢
  obtain ⟨⟨v, err⟩, w1⟩ := r0
  simp only at h ⊢
  split
  · exact h
  · exact logExt_trans P _ _ _ h (opExt_Write P s _ _ _ w1 (hW _ _ _))

theorem opExt_addKeysToTag (lib : Lib) (P : Event → Prop) (t : std) (s : Storage)
    (hR : ∀ k, P ⟨s, .Read (t.nsKey k)⟩) (hW : ∀ k v d, P ⟨s, .Write (t.nsKey k) v d⟩)
    (tag : String) (keys : List String) (w : World) :
    World.logExt P w (t.addKeysToTag lib s tag keys w).2 := by
  unfold std.addKeysToTag
  have h := opExt_Read P s (t.nsKey tag) w (hR tag)
  generalize Storage.Read s (t.nsKey tag) w = r0 at h ⊢
  obtain ⟨⟨v, err⟩, w1⟩ := r0
  simp only at h ⊢
  split
  · exact h
  · exact logExt_trans P _ _ _ h (opExt_Write P s _ _ _ w1 (hW _ _ _))

theorem opExt_removeTagsFromKey (lib : Lib) (P : Event → Prop) (t : std) (s : Storage)
    (hR : ∀ k, P ⟨s, .Read (t.nsKey k)⟩) (hW : ∀ k v d, P ⟨s, .Write (t.nsKey k) v d⟩)
    (hD : ∀ k, P ⟨s, .Delete (t.nsKey k)⟩)
    (key : String) (tags : List String) (w : World) :
    World.logExt P w (t.removeTagsFromKey lib s key tags w).2 := by
  unfold std.removeTagsFromKey
  have h := opExt_Read P s (t.nsKey key) w (hR key)
  generalize Storage.Read s (t.nsKey key) w = r0 at h ⊢
  obtain ⟨⟨v, err⟩, w1⟩ := r0
  simp only at h ⊢
  split
  · exact h
  · split
    · exact logExt_trans P _ _ _ h (opExt_Delete P s _ w1 (hD _))
    · exact logExt_trans P _ _ _ h (opExt_Write P s _ _ _ w1 (hW _ _ _))

theorem opExt_removeKeysFromTag (lib : Lib) (P : Event → Prop) (t : std) (s : Storage)
    (hR : ∀ k, P ⟨s, .Read (t.nsKey k)⟩) (hW : ∀ k v d, P ⟨s, .Write (t.nsKey k) v d⟩)
    (hD : ∀ k, P ⟨s, .Delete (t.nsKey k)⟩)
    (tag : String) (keys : List String) (w : World) :
    World.logExt P w (t.removeKeysFromTag lib s tag keys w).2 := by
  unfold std.removeKeysFromTag
  have h := opExt_Read P s (t.nsKey tag) w (hR tag)
  generalize Storage.Read s (t.nsKey tag) w = r0 at h ⊢
  obtain ⟨⟨v, err⟩, w1⟩ := r0
  simp only at h ⊢
  split
  · exact h
  · split
    · exact logExt_trans P _ _ _ h (opExt_Delete P s _ w1 (hD _))
    · exact logExt_trans P _ _ _ h (opExt_Write P s _ _ _ w1 (hW _ _ _))

theorem opExt_Tag (lib : Lib) (P : Event → Prop) (t : std) (s : Storage)
    (hR : ∀ k, P ⟨s, .Read (t.nsKey k)⟩) (hW : ∀ k v d, P ⟨s, .Write (t.nsKey k) v d⟩)
    (key : String) (tags : List String) (w : World) :
    World.logExt P w (t.Tag lib s key tags w).2 := by
  unfold std.Tag
  have h := opExt_addTagsToKey lib P t s hR hW ("key:" ++ key ++ ":tags") tags w
  generalize t.addTagsToKey lib s ("key:" ++ key ++ ":tags") tags w = r0 at h ⊢
  obtain ⟨err, w1⟩ := r0
  cases err with
  | some err => exact h
  | none =>
    exact logExt_trans P _ _ _ h
      (logExt_foldl P _ (fun w2 tag => opExt_addKeysToTag lib P t s hR hW _ _ w2) tags w1)

theorem opExt_UnTag (lib : Lib) (P : Event → Prop) (t : std) (s : Storage)
    (hR : ∀ k, P ⟨s, .Read (t.nsKey k)⟩) (hW : ∀ k v d, P ⟨s, .Write (t.nsKey k) v d⟩)
    (hD : ∀ k, P ⟨s, .Delete (t.nsKey k)⟩)
    (key : String) (tags : List String) (w : World) :
    World.logExt P w (t.UnTag lib s key tags w).2 := by
  have hstep : ∀ (tags : List String) (w0 : World),
      World.logExt P w0
        (match t.removeTagsFromKey lib s ("key:" ++ key ++ ":tags") tags w0 with
          | (some err, w1) => (some err, w1)
          | (none, w1) =>
            Storage.Delete s (t.nsKey ("key:" ++ key ++ ":tags"))
              (tags.foldl
                (fun w2 tag => (t.removeKeysFromTag lib s ("tag:" ++ tag ++ ":keys") [key] w2).2)
                w1)).2 := by
    intro tags w0
    have h1 := opExt_removeTagsFromKey lib P t s hR hW hD ("key:" ++ key ++ ":tags") tags w0
    generalize t.removeTagsFromKey lib s ("key:" ++ key ++ ":tags") tags w0 = r0 at h1 ⊢
    obtain ⟨err, w1⟩ := r0
    cases err with
    | some err => exact h1
    | none =>
      exact logExt_trans P _ _ _ h1
        (logExt_trans P _ _ _
          (logExt_foldl P _
            (fun w2 tag => opExt_removeKeysFromTag lib P t s hR hW hD _ _ w2) tags w1)
          (opExt_Delete P s _ _ (hD _)))
  unfold std.UnTag
  by_cases hlen : tags.length = 0
  · simp only [hlen, if_true]
    have h1 := opExt_Tags lib P t s hR key w
    generalize t.Tags lib s key w = r0 at h1 ⊢
    obtain ⟨⟨l, e⟩, w'⟩ := r0
    exact logExt_trans P _ _ _ h1 (hstep l w')
  · simp only [hlen, if_false]
    exact hstep tags w

/-! ## the loop keeps what every returning invocation keeps -/

theorem highPass_preserves {σ : Type} (h : Handler σ) (Inv : σ → Prop) :
    ∀ (l : List Storage),
      (∀ s ∈ l, ∀ st r st', Inv st → h s st = some (r, st') → Inv st') →
      ∀ (e : Option Error) (w : σ) (p : Pass σ), Inv w →
        Loop.highPass h l e w = some p → Inv p.state := by
  intro l
  induction l with
  | nil =>
    intro _ e w p hw hp
    simp only [Loop.highPass, Option.some.injEq] at hp
    subst hp
    exact hw
  | cons s rest ih =>
    intro hstep e w p hw hp
    rw [Loop.highPass] at hp
    cases hs : h s w with
    | none => simp [hs] at hp
    | some r =>
      obtain ⟨⟨t, err⟩, w'⟩ := r
      have hw' : Inv w' := hstep s (by simp) w _ w' hw hs
      have hrest : ∀ x ∈ rest, ∀ st r st', Inv st → h x st = some (r, st') → Inv st' :=
        fun x hx => hstep x (by simp [hx])
      cases err with
      | some err =>
        simp only [hs, Option.map_eq_some'] at hp
        obtain ⟨q, hq, rfl⟩ := hp
        exact ih hrest _ _ q hw' hq
      | none =>
        cases t with
        | true =>
          simp only [hs, Option.some.injEq] at hp
          subst hp
          exact hw'
        | false =>
          simp only [hs, Option.map_eq_some'] at hp
          obtain ⟨q, hq, rfl⟩ := hp
          exact ih hrest _ _ q hw' hq

theorem mediumPass_preserves {σ : Type} (h : Handler σ) (Inv : σ → Prop) (e : Option Error) :
    ∀ (l : List Storage),
      (∀ s ∈ l, ∀ st r st', Inv st → h s st = some (r, st') → Inv st') →
      ∀ (w : σ) (p : Pass σ), Inv w → Loop.mediumPass h e l w = some p → Inv p.state := by
  intro l
  induction l with
  | nil =>
    intro _ w p hw hp
    simp only [Loop.mediumPass, Option.some.injEq] at hp
    subst hp
    exact hw
  | cons s rest ih =>
    intro hstep w p hw hp
    rw [Loop.mediumPass] at hp
    cases hs : h s w with
    | none => simp [hs] at hp
    | some r =>
      obtain ⟨⟨t, err⟩, w'⟩ := r
      have hw' : Inv w' := hstep s (by simp) w _ w' hw hs
      cases t with
      | true =>
        simp only [hs, Option.some.injEq] at hp
        subst hp
        exact hw'
      | false =>
        simp only [hs, Option.map_eq_some'] at hp
        obtain ⟨q, hq, rfl⟩ := hp
        exact ih (fun x hx => hstep x (by simp [hx])) _ q hw' hq

/-- If every invocation that returns keeps `Inv`, the state `Loop` returns satisfies it. -/
theorem Loop_preserves {σ : Type} (c : Cache) (high : Handler σ) (medium : Option (Handler σ))
    (Inv : σ → Prop)
    (hH : ∀ s ∈ c.storage .PriorityHigh, ∀ st r st', Inv st → high s st = some (r, st') →
      Inv st')
    (hM : ∀ s ∈ c.storage .PriorityMedium, ∀ st r st', Inv st →
      (medium.getD high) s st = some (r, st') → Inv st')
    (w : σ) (out : LoopOut σ) (hw : Inv w) (hout : c.Loop high medium w = some out) :
    Inv out.state := by
  unfold Cache.Loop at hout
  simp only at hout
  cases hp : Loop.highPass high (c.storage .PriorityHigh) none w with
  | none => simp [hp] at hout
  | some p =>
    have hpi := highPass_preserves high Inv _ hH none w p hw hp
    by_cases hr : p.returned = true
    · simp only [hp, hr, if_true, Option.some.injEq] at hout
      subst hout
      exact hpi
    · have hr' : p.returned = false := by simpa using hr
      simp only [hp, hr'] at hout
      cases hq : Loop.mediumPass (medium.getD high) p.e (c.storage .PriorityMedium) p.state with
      | none => simp [hq] at hout
      | some q =>
        simp only [hq, Bool.false_eq_true, if_false, Option.some.injEq] at hout
        subst hout
        exact mediumPass_preserves _ Inv p.e _ hM p.state q hpi hq

/-! ## the storage calls of the cache operations, by kind and key -/

theorem opExt_write (lib : Lib) (P : Event → Prop) (c : Cache) (s : Storage)
    (cW : ∀ k v d, P ⟨s, .Write (c.NsKey k) v d⟩)
    (tR : ∀ k, P ⟨s, .Read (c.tagger.nsKey k)⟩)
    (tW : ∀ k v d, P ⟨s, .Write (c.tagger.nsKey k) v d⟩)
    (key : String) (v : Value) (d : Int) (tags : List String) (w : World) :
    World.logExt P w (c.write lib s key v d tags w).2 := by
  unfold Cache.write
  have h := opExt_Write P s (c.NsKey key) v d w (cW _ _ _)
  generalize Storage.Write s (c.NsKey key) v d w = r0 at h ⊢
  obtain ⟨err, w1⟩ := r0
  cases err with
  | some err => exact h
  | none =>
    simp only at h ⊢
    split
    · have h2 := opExt_Tag lib P c.tagger s tR tW key tags w1
      generalize c.tagger.Tag lib s key tags w1 = r1 at h2 ⊢
      obtain ⟨err2, w2⟩ := r1
      cases err2 <;> exact logExt_trans P _ _ _ h h2
    · exact h

theorem opExt_Set (lib : Lib) (P : Event → Prop) (c : Cache)
    (cW : ∀ s ∈ c.storage .PriorityHigh ++ c.storage .PriorityMedium,
      ∀ k v d, P ⟨s, .Write (c.NsKey k) v d⟩)
    (tR : ∀ s ∈ c.storage .PriorityHigh ++ c.storage .PriorityMedium,
      ∀ k, P ⟨s, .Read (c.tagger.nsKey k)⟩)
    (tW : ∀ s ∈ c.storage .PriorityHigh ++ c.storage .PriorityMedium,
      ∀ k v d, P ⟨s, .Write (c.tagger.nsKey k) v d⟩)
    (key : String) (v : Value) (d : Int) (tags : List String) (w : World)
    (r : LoopOut World) (hr : c.Set lib key v d tags w = some r) :
    World.logExt P w r.state := by
  have hstep : ∀ s ∈ c.storage .PriorityHigh ++ c.storage .PriorityMedium, ∀ st res st',
      World.logExt P w st →
      c.setHandler lib key ⟨key, v, w.now, d⟩ d tags s st = some (res, st') →
      World.logExt P w st' := by
    intro s hs st res st' hst hh
    have h := opExt_write lib P c s (cW s hs) (tR s hs) (tW s hs) key
      (item.toValue ⟨key, v, w.now, d⟩) d tags st
    unfold Cache.setHandler at hh
    generalize c.write lib s key (item.toValue ⟨key, v, w.now, d⟩) d tags st = r1 at h hh
    obtain ⟨err, w1⟩ := r1
    simp only [Option.some.injEq, Prod.mk.injEq] at hh
    obtain ⟨_, rfl⟩ := hh
    exact logExt_trans P _ _ _ hst h
  exact Loop_preserves c _ none (World.logExt P w)
    (fun s hs => hstep s (by simp [hs])) (fun s hs => hstep s (by simp [hs])) w r
    (logExt_refl P w) hr

theorem opExt_delKeys (lib : Lib) (P : Event → Prop) (c : Cache) (s : Storage)
    (cD : ∀ k, P ⟨s, .Delete (c.NsKey k)⟩)
    (tR : ∀ k, P ⟨s, .Read (c.tagger.nsKey k)⟩)
    (tW : ∀ k v d, P ⟨s, .Write (c.tagger.nsKey k) v d⟩)
    (tD : ∀ k, P ⟨s, .Delete (c.tagger.nsKey k)⟩) :
    ∀ (keys : List String) (w : World), World.logExt P w (c.delKeys lib s keys w).2 := by
  intro keys
  induction keys with
  | nil => intro w; exact logExt_refl P w
  | cons key rest ih =>
    intro w
    rw [Cache.delKeys]
    have h1 := opExt_Delete P s (c.NsKey key) w (cD _)
    generalize Storage.Delete s (c.NsKey key) w = r0 at h1 ⊢
    obtain ⟨err, w1⟩ := r0
    cases err with
    | some err => exact h1
    | none =>
      simp only at h1 ⊢
      have h2 := opExt_UnTag lib P c.tagger s tR tW tD key [] w1
      generalize c.tagger.UnTag lib s key [] w1 = r1 at h2 ⊢
      obtain ⟨err2, w2⟩ := r1
      cases err2 with
      | some err2 => exact logExt_trans P _ _ _ h1 h2
      | none => exact logExt_trans P _ _ _ (logExt_trans P _ _ _ h1 h2) (ih w2)

theorem opExt_Del (lib : Lib) (P : Event → Prop) (c : Cache)
    (cD : ∀ s ∈ c.storage .PriorityHigh ++ c.storage .PriorityMedium,
      ∀ k, P ⟨s, .Delete (c.NsKey k)⟩)
    (tR : ∀ s ∈ c.storage .PriorityHigh ++ c.storage .PriorityMedium,
      ∀ k, P ⟨s, .Read (c.tagger.nsKey k)⟩)
    (tW : ∀ s ∈ c.storage .PriorityHigh ++ c.storage .PriorityMedium,
      ∀ k v d, P ⟨s, .Write (c.tagger.nsKey k) v d⟩)
    (tD : ∀ s ∈ c.storage .PriorityHigh ++ c.storage .PriorityMedium,
      ∀ k, P ⟨s, .Delete (c.tagger.nsKey k)⟩)
    (keys : List String) (w : World) (r : LoopOut World)
    (hr : c.Del lib keys w = some r) : World.logExt P w r.state := by
  have hstep : ∀ s ∈ c.storage .PriorityHigh ++ c.storage .PriorityMedium, ∀ st res st',
      World.logExt P w st → c.delHandler lib keys s st = some (res, st') →
      World.logExt P w st' := by
    intro s hs st res st' hst hh
    have h := opExt_delKeys lib P c s (cD s hs) (tR s hs) (tW s hs) (tD s hs) keys st
    unfold Cache.delHandler at hh
    generalize c.delKeys lib s keys st = r1 at h hh
    obtain ⟨err, w1⟩ := r1
    simp only [Option.some.injEq, Prod.mk.injEq] at hh
    obtain ⟨_, rfl⟩ := hh
    exact logExt_trans P _ _ _ hst h
  exact Loop_preserves c _ none (World.logExt P w)
    (fun s hs => hstep s (by simp [hs])) (fun s hs => hstep s (by simp [hs])) w r
    (logExt_refl P w) hr

theorem opExt_read (lib : Lib) (P : Event → Prop) (c : Cache) (s : Storage)
    (cR : ∀ k, P ⟨s, .Read (c.NsKey k)⟩)
    (cD : ∀ r ∈ c.storage .PriorityHigh ++ c.storage .PriorityMedium,
      ∀ k, P ⟨r, .Delete (c.NsKey k)⟩)
    (tR : ∀ r ∈ c.storage .PriorityHigh ++ c.storage .PriorityMedium,
      ∀ k, P ⟨r, .Read (c.tagger.nsKey k)⟩)
    (tW : ∀ r ∈ c.storage .PriorityHigh ++ c.storage .PriorityMedium,
      ∀ k v d, P ⟨r, .Write (c.tagger.nsKey k) v d⟩)
    (tD : ∀ r ∈ c.storage .PriorityHigh ++ c.storage .PriorityMedium,
      ∀ k, P ⟨r, .Delete (c.tagger.nsKey k)⟩)
    (key : String) (w : World) (res : (Option item × Option Error) × World)
    (hres : c.read lib s key w = some res) : World.logExt P w res.2 := by
  unfold Cache.read at hres
  have h := opExt_Read P s (c.NsKey key) w (cR _)
  generalize Storage.Read s (c.NsKey key) w = r0 at h hres
  obtain ⟨⟨v, err⟩, w1⟩ := r0
  cases err with
  | some err =>
    simp only [Option.some.injEq] at hres
    subst hres
    exact h
  | none =>
    simp only at hres h
    split at hres
    · cases hdel : c.del lib [c.NsKey key] w1 with
      | none => simp [hdel] at hres
      | some r =>
        simp only [hdel, Option.some.injEq] at hres
        subst hres
        exact logExt_trans P _ _ _ h (opExt_Del lib P c cD tR tW tD _ w1 r hdel)
    · simp only [Option.some.injEq] at hres
      subst hres
      exact h

theorem opExt_getHigh (lib : Lib) (P : Event → Prop) (c : Cache) (s : Storage)
    (cR : ∀ k, P ⟨s, .Read (c.NsKey k)⟩)
    (cD : ∀ r ∈ c.storage .PriorityHigh ++ c.storage .PriorityMedium,
      ∀ k, P ⟨r, .Delete (c.NsKey k)⟩)
    (tR : ∀ r ∈ c.storage .PriorityHigh ++ c.storage .PriorityMedium,
      ∀ k, P ⟨r, .Read (c.tagger.nsKey k)⟩)
    (tW : ∀ r ∈ c.storage .PriorityHigh ++ c.storage .PriorityMedium,
      ∀ k v d, P ⟨r, .Write (c.tagger.nsKey k) v d⟩)
    (tD : ∀ r ∈ c.storage .PriorityHigh ++ c.storage .PriorityMedium,
      ∀ k, P ⟨r, .Delete (c.tagger.nsKey k)⟩)
    (key : String) (st : GetState) (res : Bool × Option Error) (st' : GetState)
    (hres : c.getHigh lib key s st = some (res, st')) :
    World.logExt P st.world st'.world := by
  unfold Cache.getHigh at hres
  cases hread : c.read lib s key st.world with
  | none => simp [hread] at hres
  | some r =>
    have h := opExt_read lib P c s cR cD tR tW tD key st.world r hread
    obtain ⟨⟨it, err⟩, w1⟩ := r
    cases err with
    | some err =>
      simp only [hread, Option.some.injEq, Prod.mk.injEq] at hres
      obtain ⟨_, rfl⟩ := hres
      exact h
    | none =>
      cases it with
      | none => simp [hread] at hres
      | some it =>
        simp only [hread] at hres
        rcases hd : lib.Decode it.Val st.out with ⟨derr, o1⟩
        rw [hd] at hres
        cases derr with
        | some derr =>
          simp only [Option.some.injEq, Prod.mk.injEq] at hres
          obtain ⟨_, rfl⟩ := hres
          exact h
        | none =>
          simp only [Option.some.injEq, Prod.mk.injEq] at hres
          obtain ⟨_, rfl⟩ := hres
          exact h

theorem opExt_getMedium (lib : Lib) (P : Event → Prop) (c : Cache) (s : Storage)
    (cR : ∀ k, P ⟨s, .Read (c.NsKey k)⟩)
    (cD : ∀ r ∈ c.storage .PriorityHigh ++ c.storage .PriorityMedium,
      ∀ k, P ⟨r, .Delete (c.NsKey k)⟩)
    (tR : ∀ r ∈ c.storage .PriorityHigh ++ c.storage .PriorityMedium,
      ∀ k, P ⟨r, .Read (c.tagger.nsKey k)⟩)
    (tW : ∀ r ∈ c.storage .PriorityHigh ++ c.storage .PriorityMedium,
      ∀ k v d, P ⟨r, .Write (c.tagger.nsKey k) v d⟩)
    (tD : ∀ r ∈ c.storage .PriorityHigh ++ c.storage .PriorityMedium,
      ∀ k, P ⟨r, .Delete (c.tagger.nsKey k)⟩)
    (key : String) (st : GetState) (res : Bool × Option Error) (st' : GetState)
    (hres : c.getMedium lib key s st = some (res, st')) :
    World.logExt P st.world st'.world := by
  unfold Cache.getMedium at hres
  cases hread : c.read lib s key st.world with
  | none => simp [hread] at hres
  | some r =>
    have h := opExt_read lib P c s cR cD tR tW tD key st.world r hread
    obtain ⟨⟨it, err⟩, w1⟩ := r
    cases err with
    | some err =>
      simp only [hread, Option.some.injEq, Prod.mk.injEq] at hres
      obtain ⟨_, rfl⟩ := hres
      exact h
    | none =>
      cases it with
      | none => simp [hread] at hres
      | some it =>
        simp only [hread] at hres
        rcases hd : lib.Decode it.Val st.out with ⟨derr, o1⟩
        rw [hd] at hres
        cases derr with
        | some derr =>
          simp only [Option.some.injEq, Prod.mk.injEq] at hres
          obtain ⟨_, rfl⟩ := hres
          exact h
        | none =>
          simp only [Option.some.injEq, Prod.mk.injEq] at hres
          obtain ⟨_, rfl⟩ := hres
          exact h

/-- The storage calls of `propagate`: a read of the tag list in the winning storage, then
the calls of a `Set` on the candidate, whose tagger is the default one. -/
theorem opExt_propagate (lib : Lib) (P : Event → Prop) (c : Cache) (s1 s2 : Storage)
    (tR2 : ∀ k, P ⟨s2, .Read (c.tagger.nsKey k)⟩)
    (cW : ∀ k v d, P ⟨s1, .Write (c.NsKey k) v d⟩)
    (dR : ∀ k, P ⟨s1, .Read ((newStdTagger "go:cache:tagger").nsKey k)⟩)
    (dW : ∀ k v d, P ⟨s1, .Write ((newStdTagger "go:cache:tagger").nsKey k) v d⟩)
    (it : item) (key : String) (w : World)
    (r : Option Error × World) (hr : c.propagate lib s1 (some s2) it key w = some r) :
    World.logExt P w r.2 := by
  unfold Cache.propagate at hr
  simp only at hr
  have h := opExt_Tags lib P c.tagger s2 tR2 key w
  generalize c.tagger.Tags lib s2 key w = r0 at h hr
  obtain ⟨⟨tags, err⟩, w1⟩ := r0
  cases err with
  | some err =>
    have hr' : r = (some err, w1) := (Option.some.inj hr).symm
    subst hr'
    exact h
  | none =>
    change (match (New [WithStorage [s1], WithNamespace c.ns]).Set lib key it.Val
        (it.Expires - (w1.now - it.Created)) tags w1 with
      | none => none
      | some r => some (none, r.state)) = some r at hr
    cases hset : (New [WithStorage [s1], WithNamespace c.ns]).Set lib key it.Val
        (it.Expires - (w1.now - it.Created)) tags w1 with
    | none =>
      rw [hset] at hr
      cases hr
    | some res =>
      rw [hset] at hr
      have hr' : r = (none, res.state) := (Option.some.inj hr).symm
      subst hr'
      have hmem : ∀ s ∈ (New [WithStorage [s1], WithNamespace c.ns]).storage .PriorityHigh ++
          (New [WithStorage [s1], WithNamespace c.ns]).storage .PriorityMedium, s = s1 := by
        intro s hs
        have hh : (New [WithStorage [s1], WithNamespace c.ns]).storage .PriorityHigh ++
            (New [WithStorage [s1], WithNamespace c.ns]).storage .PriorityMedium = [s1] := rfl
        rw [hh] at hs
        simpa using hs
      refine logExt_trans P _ _ _ h
        (opExt_Set lib P (New [WithStorage [s1], WithNamespace c.ns]) ?_ ?_ ?_ key _ _ tags w1
          res hset)
      · intro s hs k v d
        rw [hmem s hs]
        exact cW k v d
      · intro s hs k
        rw [hmem s hs]
        exact dR k
      · intro s hs k v d
        rw [hmem s hs]
        exact dW k v d

theorem opExt_propagateAll (lib : Lib) (P : Event → Prop) (c : Cache) (s2 : Storage)
    (tR2 : ∀ k, P ⟨s2, .Read (c.tagger.nsKey k)⟩) (it : item) (key : String) :
    ∀ (l : List Storage),
      (∀ s1 ∈ l, (∀ k v d, P ⟨s1, .Write (c.NsKey k) v d⟩) ∧
        (∀ k, P ⟨s1, .Read ((newStdTagger "go:cache:tagger").nsKey k)⟩) ∧
        (∀ k v d, P ⟨s1, .Write ((newStdTagger "go:cache:tagger").nsKey k) v d⟩)) →
      ∀ (w w1 : World),
        c.propagateAll lib (some s2) it key l w = some w1 → World.logExt P w w1 := by
  intro l
  induction l with
  | nil =>
    intro _ w w1 h
    simp only [Cache.propagateAll, Option.some.injEq] at h
    subst h
    exact logExt_refl P w
  | cons s rest ih =>
    intro hl w w1 h
    simp only [Cache.propagateAll] at h
    cases hp : c.propagate lib s (some s2) it key w with
    | none => simp [hp] at h
    | some r =>
      simp only [hp] at h
      obtain ⟨h1, h2, h3⟩ := hl s (by simp)
      exact logExt_trans P _ _ _
        (opExt_propagate lib P c s s2 tR2 h1 h2 h3 it key w r hp)
        (ih (fun x hx => hl x (by simp [hx])) r.2 w1 h)

/-! ## the loop of `Get` when no storage returns an expired item -/

theorem getHigh_of_value (lib : Lib) (c : Cache) (key : String) (s : Storage) (st : GetState)
    (v : Value) (h : st.world.readResult s (c.NsKey key) = (v, none))
    (hexp : (readItem lib v).expired st.world.now = false) :
    c.getHigh lib key s st =
      some ((decide ((lib.Decode (readItem lib v).Val st.out).1 = none),
          (lib.Decode (readItem lib v).Val st.out).1),
        { st with world := (Storage.Read s (c.NsKey key) st.world).2,
                  it := some (readItem lib v), w := some s,
                  out := (lib.Decode (readItem lib v).Val st.out).2 }) := by
  unfold Cache.getHigh
  rw [read_of_value lib c s key st.world v h hexp]
  rcases hd : lib.Decode (readItem lib v).Val st.out with ⟨derr, o1⟩
  cases derr <;> simp [hd]

theorem getMedium_of_value (lib : Lib) (c : Cache) (key : String) (s : Storage)
    (st : GetState) (v : Value) (h : st.world.readResult s (c.NsKey key) = (v, none))
    (hexp : (readItem lib v).expired st.world.now = false) :
    c.getMedium lib key s st =
      some ((decide ((lib.Decode (readItem lib v).Val st.out).1 = none),
          (lib.Decode (readItem lib v).Val st.out).1),
        { st with world := (Storage.Read s (c.NsKey key) st.world).2,
                  it := some (readItem lib v), w := some s,
                  out := (lib.Decode (readItem lib v).Val st.out).2 }) := by
  unfold Cache.getMedium
  rw [read_of_value lib c s key st.world v h hexp]
  rcases hd : lib.Decode (readItem lib v).Val st.out with ⟨derr, o1⟩
  cases derr <;> simp [hd]

/-- The high pass of `Get` over storages that return no expired item: it returns; the
candidates it records are the visited storages that report the key absent; it only reads;
an item is remembered exactly when a visited storage returned a value, together with a
storage that returned one. -/
theorem get_highPass_track (lib : Lib) (c : Cache) (key : String) (w0 : World) :
    ∀ (l : List Storage) (e : Option Error) (st : GetState), GetInv w0 st →
      (∀ s ∈ l, w0.regular lib s (c.NsKey key)) →
      ∃ pass, Loop.highPass (c.getHigh lib key) l e st = some pass ∧ GetInv w0 pass.state ∧
        pass.state.p =
          st.p ++ missing w0 (c.NsKey key) (pass.calls.map (fun call => call.storage)) ∧
        pass.state.world.log =
          st.world.log ++ pass.calls.map (fun call => ⟨call.storage, .Read (c.NsKey key)⟩) ∧
        (pass.state.it.isSome = true ↔ st.it.isSome = true ∨
          ∃ call ∈ pass.calls, (w0.readResult call.storage (c.NsKey key)).2 = none) ∧
        (∀ s2, pass.state.w = some s2 →
          st.w = some s2 ∨ (w0.readResult s2 (c.NsKey key)).2 = none) := by
  intro l
  induction l with
  | nil =>
    intro e st hst _
    exact ⟨⟨false, e, st, []⟩, rfl, hst, by simp [missing], by simp, by simp,
      fun s2 h => Or.inl h⟩
  | cons s rest ih =>
    intro e st hst hreg
    obtain ⟨h1, h2, h3⟩ := hst
    have hinv' : ∀ r k, (Storage.Read s (c.NsKey key) st.world).2.readResult r k =
        w0.readResult r k := fun r k => by rw [Read_readResult, h1]
    have hnow' : (Storage.Read s (c.NsKey key) st.world).2.now = w0.now := by
      rw [Read_now, h2]
    have hregr : ∀ x ∈ rest, w0.regular lib x (c.NsKey key) :=
      fun x hx => hreg x (by simp [hx])
    rcases hrr : w0.readResult s (c.NsKey key) with ⟨v, err⟩
    have hrr' : st.world.readResult s (c.NsKey key) = (v, err) := by rw [h1, hrr]
    cases err with
    | some er =>
      have hstep := getHigh_of_error lib c key s st v er hrr'
      obtain ⟨q, hq, qinv, qp, qlog, qit, qw⟩ := ih (some (Append e er))
        { st with world := (Storage.Read s (c.NsKey key) st.world).2,
                  p := if er = .keyNotExist then st.p ++ [s] else st.p }
        ⟨hinv', hnow', h3⟩ hregr
      refine ⟨Pass.addCall ⟨.PriorityHigh, s, false, some er⟩ q, ?_, qinv, ?_, ?_, ?_, ?_⟩
      · rw [Loop.highPass, hstep]
        simp only [hq, Option.map_some']
      · simp only [Pass.addCall, List.map_cons, missing, List.filter_cons, hrr] at qp ⊢
        rw [qp]
        by_cases hk : er = .keyNotExist
        · simp [hk, missing]
        · simp [hk, missing]
      · simp only [Pass.addCall, List.map_cons] at qlog ⊢
        rw [qlog, Read_log]
        simp
      · simp only [Pass.addCall, List.mem_cons] at qit ⊢
        rw [qit]
        constructor
        · rintro (h | ⟨call, hc, hcall⟩)
          · exact Or.inl h
          · exact Or.inr ⟨call, Or.inr hc, hcall⟩
        · rintro (h | ⟨call, hc | hc, hcall⟩)
          · exact Or.inl h
          · subst hc
            simp only [hrr] at hcall
            cases hcall
          · exact Or.inr ⟨call, hc, hcall⟩
      · intro s2 hs2
        exact qw s2 hs2
    | none =>
      have hexp : (readItem lib v).expired st.world.now = false := by
        rw [h2]
        exact hreg s (by simp) v hrr
      have hstep := getHigh_of_value lib c key s st v hrr' hexp
      have hinv1 : GetInv w0
          { st with world := (Storage.Read s (c.NsKey key) st.world).2,
                    it := some (readItem lib v), w := some s,
                    out := (lib.Decode (readItem lib v).Val st.out).2 } :=
        ⟨hinv', hnow', fun _ => rfl⟩
      have hmiss : missing w0 (c.NsKey key) [s] = [] := by
        simp [missing, hrr]
      cases hd : (lib.Decode (readItem lib v).Val st.out).1 with
      | some derr =>
        obtain ⟨q, hq, qinv, qp, qlog, qit, qw⟩ := ih (some (Append e derr))
          { st with world := (Storage.Read s (c.NsKey key) st.world).2,
                    it := some (readItem lib v), w := some s,
                    out := (lib.Decode (readItem lib v).Val st.out).2 } hinv1 hregr
        refine ⟨Pass.addCall ⟨.PriorityHigh, s, false, some derr⟩ q, ?_, qinv, ?_, ?_, ?_, ?_⟩
        · rw [Loop.highPass, hstep]
          simp [hd, hq]
        · simp only [Pass.addCall, List.map_cons, missing, List.filter_cons, hrr] at qp ⊢
          rw [qp]
          simp [missing]
        · simp only [Pass.addCall, List.map_cons] at qlog ⊢
          rw [qlog, Read_log]
          simp
        · simp only [Pass.addCall, List.mem_cons] at qit ⊢
          rw [qit]
          simp only [Option.isSome_some, true_or, true_iff]
          exact Or.inr ⟨_, Or.inl rfl, by simp [hrr]⟩
        · intro s2 hs2
          rcases qw s2 hs2 with h | h
          · simp only [Option.some.injEq] at h
            subst h
            right
            rw [hrr]
          · exact Or.inr h
      | none =>
        refine ⟨⟨true, none,
          { st with world := (Storage.Read s (c.NsKey key) st.world).2,
                    it := some (readItem lib v), w := some s,
                    out := (lib.Decode (readItem lib v).Val st.out).2 },
          [⟨.PriorityHigh, s, true, none⟩]⟩, ?_, hinv1, ?_, ?_, ?_, ?_⟩
        · rw [Loop.highPass, hstep]
          simp only [hd]
          simp
        · simp only [List.map_cons, List.map_nil, hmiss, List.append_nil]
        · simp only [List.map_cons, List.map_nil, Read_log]
        · simp only [Option.isSome_some, List.mem_singleton, true_iff]
          exact Or.inr ⟨_, rfl, by simp [hrr]⟩
        · intro s2 hs2
          simp only [Option.some.injEq] at hs2
          subst hs2
          right
          rw [hrr]

/-- The medium pass of `Get` over storages that return no expired item: as the high pass,
without recording candidates. -/
theorem get_mediumPass_track (lib : Lib) (c : Cache) (key : String) (w0 : World)
    (e : Option Error) :
    ∀ (l : List Storage) (st : GetState), GetInv w0 st →
      (∀ s ∈ l, w0.regular lib s (c.NsKey key)) →
      ∃ pass, Loop.mediumPass (c.getMedium lib key) e l st = some pass ∧
        GetInv w0 pass.state ∧ pass.state.p = st.p ∧
        pass.state.world.log =
          st.world.log ++ pass.calls.map (fun call => ⟨call.storage, .Read (c.NsKey key)⟩) ∧
        (pass.state.it.isSome = true ↔ st.it.isSome = true ∨
          ∃ call ∈ pass.calls, (w0.readResult call.storage (c.NsKey key)).2 = none) ∧
        (∀ s2, pass.state.w = some s2 →
          st.w = some s2 ∨ (w0.readResult s2 (c.NsKey key)).2 = none) := by
  intro l
  induction l with
  | nil =>
    intro st hst _
    exact ⟨⟨false, e, st, []⟩, rfl, hst, rfl, by simp, by simp, fun s2 h => Or.inl h⟩
  | cons s rest ih =>
    intro st hst hreg
    obtain ⟨h1, h2, h3⟩ := hst
    have hinv' : ∀ r k, (Storage.Read s (c.NsKey key) st.world).2.readResult r k =
        w0.readResult r k := fun r k => by rw [Read_readResult, h1]
    have hnow' : (Storage.Read s (c.NsKey key) st.world).2.now = w0.now := by
      rw [Read_now, h2]
    have hregr : ∀ x ∈ rest, w0.regular lib x (c.NsKey key) :=
      fun x hx => hreg x (by simp [hx])
    rcases hrr : w0.readResult s (c.NsKey key) with ⟨v, err⟩
    have hrr' : st.world.readResult s (c.NsKey key) = (v, err) := by rw [h1, hrr]
    cases err with
    | some er =>
      have hstep := getMedium_of_error lib c key s st v er hrr'
      obtain ⟨q, hq, qinv, qp, qlog, qit, qw⟩ := ih
        { st with world := (Storage.Read s (c.NsKey key) st.world).2 }
        ⟨hinv', hnow', h3⟩ hregr
      refine ⟨Pass.addCall ⟨.PriorityMedium, s, false, some er⟩ q, ?_, qinv, qp, ?_, ?_, ?_⟩
      · rw [Loop.mediumPass, hstep]
        simp only [hq, Option.map_some']
      · simp only [Pass.addCall, List.map_cons] at qlog ⊢
        rw [qlog, Read_log]
        simp
      · simp only [Pass.addCall, List.mem_cons] at qit ⊢
        rw [qit]
        constructor
        · rintro (h | ⟨call, hc, hcall⟩)
          · exact Or.inl h
          · exact Or.inr ⟨call, Or.inr hc, hcall⟩
        · rintro (h | ⟨call, hc | hc, hcall⟩)
          · exact Or.inl h
          · subst hc
            simp only [hrr] at hcall
            cases hcall
          · exact Or.inr ⟨call, hc, hcall⟩
      · intro s2 hs2
        exact qw s2 hs2
    | none =>
      have hexp : (readItem lib v).expired st.world.now = false := by
        rw [h2]
        exact hreg s (by simp) v hrr
      have hstep := getMedium_of_value lib c key s st v hrr' hexp
      have hinv1 : GetInv w0
          { st with world := (Storage.Read s (c.NsKey key) st.world).2,
                    it := some (readItem lib v), w := some s,
                    out := (lib.Decode (readItem lib v).Val st.out).2 } :=
        ⟨hinv', hnow', fun _ => rfl⟩
      cases hd : (lib.Decode (readItem lib v).Val st.out).1 with
      | some derr =>
        obtain ⟨q, hq, qinv, qp, qlog, qit, qw⟩ := ih
          { st with world := (Storage.Read s (c.NsKey key) st.world).2,
                    it := some (readItem lib v), w := some s,
                    out := (lib.Decode (readItem lib v).Val st.out).2 } hinv1 hregr
        refine ⟨Pass.addCall ⟨.PriorityMedium, s, false, some derr⟩ q, ?_, qinv, qp, ?_, ?_,
          ?_⟩
        · rw [Loop.mediumPass, hstep]
          simp [hd, hq]
        · simp only [Pass.addCall, List.map_cons] at qlog ⊢
          rw [qlog, Read_log]
          simp
        · simp only [Pass.addCall, List.mem_cons] at qit ⊢
          rw [qit]
          simp only [Option.isSome_some, true_or, true_iff]
          exact Or.inr ⟨_, Or.inl rfl, by simp [hrr]⟩
        · intro s2 hs2
          rcases qw s2 hs2 with h | h
          · simp only [Option.some.injEq] at h
            subst h
            right
            rw [hrr]
          · exact Or.inr h
      | none =>
        refine ⟨⟨true, none,
          { st with world := (Storage.Read s (c.NsKey key) st.world).2,
                    it := some (readItem lib v), w := some s,
                    out := (lib.Decode (readItem lib v).Val st.out).2 },
          [⟨.PriorityMedium, s, true, none⟩]⟩, ?_, hinv1, rfl, ?_, ?_, ?_⟩
        · rw [Loop.mediumPass, hstep]
          simp only [hd]
          simp
        · simp only [List.map_cons, List.map_nil, Read_log]
        · simp only [Option.isSome_some, List.mem_singleton, true_iff]
          exact Or.inr ⟨_, rfl, by simp [hrr]⟩
        · intro s2 hs2
          simp only [Option.some.injEq] at hs2
          subst hs2
          right
          rw [hrr]

/-! ## what `Get` writes -/

/-- When the lookup of the tags of the key on the winning storage returns no error,
`propagate` makes a `Write` of the namespaced key on the candidate. -/
theorem propagate_writes_of_tags (lib : Lib) (c : Cache) (s1 s2 : Storage) (it : item)
    (key : String) (w : World) (hok : (c.tagger.Tags lib s2 key w).1.2 = none) :
    ∃ r es, c.propagate lib s1 (some s2) it key w = some r ∧ r.2.log = w.log ++ es ∧
      ∃ v d, (⟨s1, .Write (c.NsKey key) v d⟩ : Event) ∈ es := by
  have heq := propagate_eq lib c s1 s2 it key w hok
  have hlog1 : (c.tagger.Tags lib s2 key w).2.log =
      w.log ++ [⟨s2, .Read (c.tagger.nsKey ("key:" ++ key ++ ":tags"))⟩] := by
    rw [Tags_snd, Read_log]
  split at heq
  · obtain ⟨es2, hes2, _⟩ := opExt_Tag lib (fun _ => True) (newStdTagger "go:cache:tagger")
      s1 (fun _ => trivial) (fun _ _ _ => trivial) key (c.tagger.Tags lib s2 key w).1.1
      (Storage.Write s1 (c.NsKey key)
        (.item key it.Val w.now (it.Expires - (w.now - it.Created)))
        (it.Expires - (w.now - it.Created)) (c.tagger.Tags lib s2 key w).2).2
    refine ⟨_, [⟨s2, .Read (c.tagger.nsKey ("key:" ++ key ++ ":tags"))⟩] ++
      ([⟨s1, .Write (c.NsKey key) (.item key it.Val w.now (it.Expires - (w.now - it.Created)))
        (it.Expires - (w.now - it.Created))⟩] ++ es2), heq, ?_, ?_⟩
    · simp only
      rw [hes2, Write_log, hlog1, List.append_assoc, List.append_assoc]
    · exact ⟨_, _, List.mem_append_right _ (List.mem_append_left es2
        (List.mem_singleton_self _))⟩
  · refine ⟨_, [⟨s2, .Read (c.tagger.nsKey ("key:" ++ key ++ ":tags"))⟩] ++
      [⟨s1, .Write (c.NsKey key) (.item key it.Val w.now (it.Expires - (w.now - it.Created)))
        (it.Expires - (w.now - it.Created))⟩], heq, ?_, ?_⟩
    · simp only
      rw [Write_log, hlog1, List.append_assoc]
    · exact ⟨_, _, List.mem_append_right _ (List.mem_singleton_self _)⟩

/-- When the lookup of the tags of the key on the winning storage returns an error,
`propagate` returns that error right after the lookup, before the `Set`: the one storage
call made is the `Read` of the lookup. -/
theorem propagate_of_tags_error (lib : Lib) (c : Cache) (s1 s2 : Storage) (it : item)
    (key : String) (w : World) (err : Error)
    (herr : (c.tagger.Tags lib s2 key w).1.2 = some err) :
    c.propagate lib s1 (some s2) it key w = some (some err, (c.tagger.Tags lib s2 key w).2) ∧
    (c.tagger.Tags lib s2 key w).2.log =
      w.log ++ [⟨s2, .Read (c.tagger.nsKey ("key:" ++ key ++ ":tags"))⟩] := by
  refine ⟨?_, by rw [Tags_snd, Read_log]⟩
  unfold Cache.propagate
  simp only
  generalize c.tagger.Tags lib s2 key w = r0 at herr
  obtain ⟨⟨tags, e⟩, w1⟩ := r0
  simp only at herr
  subst herr
  rfl

/-- The promotion into the candidates, call by call: every candidate has its call of
`propagate`, and a candidate whose tag lookup on the winning storage returns no error
receives a `Write` of the namespaced key. -/
theorem propagateAll_starts (lib : Lib) (c : Cache) (s2 : Storage) (it : item)
    (key : String) :
    ∀ (l : List Storage) (w w1 : World),
      c.propagateAll lib (some s2) it key l w = some w1 →
      (c.propagateStarts lib (some s2) it key l w).map Prod.fst = l ∧
      ∃ es, w1.log = w.log ++ es ∧
        ∀ sw ∈ c.propagateStarts lib (some s2) it key l w,
          (c.tagger.Tags lib s2 key sw.2).1.2 = none →
          ∃ v d, (⟨sw.1, .Write (c.NsKey key) v d⟩ : Event) ∈ es := by
  intro l
  induction l with
  | nil =>
    intro w w1 h
    simp only [Cache.propagateAll, Option.some.injEq] at h
    subst h
    exact ⟨rfl, [], by simp, by simp [Cache.propagateStarts]⟩
  | cons s rest ih =>
    intro w w1 h
    simp only [Cache.propagateAll] at h
    cases hp : c.propagate lib s (some s2) it key w with
    | none => simp [hp] at h
    | some r =>
      simp only [hp] at h
      obtain ⟨hmap, es2, hlog2, hall⟩ := ih r.2 w1 h
      obtain ⟨es1, hlog1, _⟩ := opExt_propagate lib (fun _ => True) c s s2
        (fun _ => trivial) (fun _ _ _ => trivial) (fun _ => trivial) (fun _ _ _ => trivial)
        it key w r hp
      have hstarts : c.propagateStarts lib (some s2) it key (s :: rest) w =
          (s, w) :: c.propagateStarts lib (some s2) it key rest r.2 := by
        simp only [Cache.propagateStarts, hp]
      rw [hstarts]
      refine ⟨by simp [hmap], es1 ++ es2, by rw [hlog2, hlog1, List.append_assoc], ?_⟩
      intro sw hsw hok
      rcases List.mem_cons.1 hsw with h1 | h1
      · subst h1
        obtain ⟨r', es', hr', hlog', v, d, hmem⟩ :=
          propagate_writes_of_tags lib c s s2 it key w hok
        rw [hp] at hr'
        cases hr'
        have hes : es1 = es' := List.append_cancel_left (hlog1.symm.trans hlog')
        subst hes
        exact ⟨v, d, List.mem_append_left _ hmem⟩
      · obtain ⟨v, d, hmem⟩ := hall sw h1 hok
        exact ⟨v, d, List.mem_append_right _ hmem⟩

theorem highVisited_append (a b : List Call) (ha : ∀ call ∈ a, call.prio = .PriorityHigh)
    (hb : ∀ call ∈ b, call.prio = .PriorityMedium) :
    highVisited (a ++ b) = a.map (fun call => call.storage) := by
  unfold highVisited
  rw [List.filter_append]
  have h1 : a.filter (fun call => decide (call.prio = .PriorityHigh)) = a :=
    List.filter_eq_self.2 (fun call hc => by simp [ha call hc])
  have h2 : b.filter (fun call => decide (call.prio = .PriorityHigh)) = [] :=
    List.filter_eq_nil_iff.2 (fun call hc => by simp [hb call hc])
  rw [h1, h2, List.append_nil]

/-- The loop of `Get` when no storage returns an expired item: it returns; the candidates
are the visited high-priority storages that reported `ErrKeyNotExist`; the storage calls
are the `Read`s of the namespaced key on the visited storages; an item was found exactly
when a visited storage returned a value, and the winning storage returned one. -/
theorem get_Loop_track (lib : Lib) (c : Cache) (key : String) (out : Value) (w : World)
    (hreg : ∀ s ∈ c.storage .PriorityHigh ++ c.storage .PriorityMedium,
      w.regular lib s (c.NsKey key)) :
    ∃ r, c.Loop (c.getHigh lib key) (some (c.getMedium lib key)) ⟨w, [], none, none, out⟩ =
        some r ∧
      GetInv w r.state ∧
      r.state.p = missing w (c.NsKey key) (highVisited r.calls) ∧
      r.state.world.log =
        w.log ++ r.calls.map (fun call => ⟨call.storage, .Read (c.NsKey key)⟩) ∧
      (r.state.it.isSome = true ↔
        ∃ call ∈ r.calls, (w.readResult call.storage (c.NsKey key)).2 = none) ∧
      (∀ s2, r.state.w = some s2 → (w.readResult s2 (c.NsKey key)).2 = none) := by
  have hinv0 : GetInv w ⟨w, [], none, none, out⟩ :=
    ⟨fun _ _ => rfl, rfl, fun h => by simp at h⟩
  obtain ⟨p, hp, pinv, pp, plog, pit, pw⟩ :=
    get_highPass_track lib c key w (c.storage .PriorityHigh) none ⟨w, [], none, none, out⟩
      hinv0 (fun s hs => hreg s (List.mem_append_left _ hs))
  have hprio := (highPass_spec (c.getHigh lib key) _ _ _ _ hp).1
  simp only [List.nil_append] at pp
  have pit' : p.state.it.isSome = true ↔
      ∃ call ∈ p.calls, (w.readResult call.storage (c.NsKey key)).2 = none := by
    rw [pit]
    simp
  have pw' : ∀ s2, p.state.w = some s2 → (w.readResult s2 (c.NsKey key)).2 = none := by
    intro s2 h
    rcases pw s2 h with h1 | h1
    · simp at h1
    · exact h1
  by_cases hret : p.returned = true
  · refine ⟨⟨none, p.state, p.calls⟩, ?_, pinv, ?_, plog, pit', pw'⟩
    · simp [Cache.Loop, hp, hret]
    · simp only
      rw [pp]
      have := highVisited_append p.calls [] hprio (by simp)
      rw [List.append_nil] at this
      rw [this]
  · obtain ⟨q, hq, qinv, qp, qlog, qit, qw⟩ :=
      get_mediumPass_track lib c key w p.e (c.storage .PriorityMedium) p.state pinv
        (fun s hs => hreg s (List.mem_append_right _ hs))
    have hprioq := (mediumPass_spec (c.getMedium lib key) _ _ _ _ hq).1
    refine ⟨⟨q.e, q.state, p.calls ++ q.calls⟩, ?_, qinv, ?_, ?_, ?_, ?_⟩
    · simp [Cache.Loop, hp, hret, hq]
    · simp only
      rw [qp, pp, highVisited_append p.calls q.calls hprio hprioq]
    · simp only
      rw [qlog, plog, List.map_append, List.append_assoc]
    · simp only
      rw [qit, pit']
      constructor
      · rintro (⟨call, hc, h⟩ | ⟨call, hc, h⟩)
        · exact ⟨call, List.mem_append_left _ hc, h⟩
        · exact ⟨call, List.mem_append_right _ hc, h⟩
      · rintro ⟨call, hc, h⟩
        rcases List.mem_append.1 hc with hc | hc
        · exact Or.inl ⟨call, hc, h⟩
        · exact Or.inr ⟨call, hc, h⟩
    · intro s2 h
      rcases qw s2 h with h1 | h1
      · exact pw' s2 h1
      · exact h1

/-- C30, amended: when no storage of the cache returns an expired item for the key, `Get`
returns, its storage calls are `Read`s and `Write`s, every `Write` goes to a high-priority
storage that was visited and reported `ErrKeyNotExist` for the namespaced key, and only
when some visited storage returned a value. When some visited storage returned a value,
the loop is followed by one call of `propagate` for each visited high-priority storage that
reported `ErrKeyNotExist`, in order, whether it was visited before or after the storage the
item came from; a candidate receives a `Write` of the namespaced key when the lookup of the
tags of the key on the winning storage, made first in its call, returns no error, and when
that lookup returns an error the call returns it before any `Write`. -/
theorem C30_get_writes_to_missing_high_storages (lib : Lib) (c : Cache) (key : String)
    (out : Value) (w : World)
    (hreg : ∀ s ∈ c.storage .PriorityHigh ++ c.storage .PriorityMedium,
      w.regular lib s (c.NsKey key)) :
    ∃ res evs, c.Get lib key out w = some res ∧ res.world.log = w.log ++ evs ∧
      (∀ ev ∈ evs, ev.op.isRead = true ∨ ev.op.isWrite = true) ∧
      (∀ ev ∈ evs, ev.op.isWrite = true →
        ev.storage ∈ missing w (c.NsKey key) (highVisited res.calls) ∧
        ∃ call ∈ res.calls, (w.readResult call.storage (c.NsKey key)).2 = none) ∧
      ((∃ call ∈ res.calls, (w.readResult call.storage (c.NsKey key)).2 = none) →
        ∃ it s2 w1,
          (w.readResult s2 (c.NsKey key)).2 = none ∧
          w1.log = w.log ++
            res.calls.map (fun call => (⟨call.storage, .Read (c.NsKey key)⟩ : Event)) ∧
          (∀ r k, w1.readResult r k = w.readResult r k) ∧ w1.now = w.now ∧
          c.propagateAll lib (some s2) it key
            (missing w (c.NsKey key) (highVisited res.calls)) w1 = some res.world ∧
          (c.propagateStarts lib (some s2) it key
            (missing w (c.NsKey key) (highVisited res.calls)) w1).map Prod.fst =
              missing w (c.NsKey key) (highVisited res.calls) ∧
          ∀ sw ∈ c.propagateStarts lib (some s2) it key
              (missing w (c.NsKey key) (highVisited res.calls)) w1,
            ((c.tagger.Tags lib s2 key sw.2).1.2 = none →
              ∃ v d, (⟨sw.1, .Write (c.NsKey key) v d⟩ : Event) ∈ evs) ∧
            (∀ err, (c.tagger.Tags lib s2 key sw.2).1.2 = some err →
              c.propagate lib sw.1 (some s2) it key sw.2 =
                some (some err, (c.tagger.Tags lib s2 key sw.2).2))) := by
  obtain ⟨r, hr, rinv, rp, rlog, rit, rw2⟩ := get_Loop_track lib c key out w hreg
  have hreads : ∀ ev ∈ r.calls.map (fun call => (⟨call.storage, .Read (c.NsKey key)⟩ : Event)),
      ev.op.isRead = true ∧ ev.op.isWrite = false := by
    intro ev hev
    obtain ⟨call, _, rfl⟩ := List.mem_map.1 hev
    exact ⟨rfl, rfl⟩
  cases hit : r.state.it with
  | none =>
    have hno : ¬ ∃ call ∈ r.calls, (w.readResult call.storage (c.NsKey key)).2 = none := by
      rw [← rit, hit]
      simp
    refine ⟨⟨r.e, r.state.out, r.state.world, r.calls⟩, _, ?_, rlog, ?_, ?_, ?_⟩
    · simp [Cache.Get, Cache.get, hr, hit]
    · exact fun ev hev => Or.inl (hreads ev hev).1
    · intro ev hev hw
      rw [(hreads ev hev).2] at hw
      cases hw
    · exact fun h => absurd h hno
  | some it =>
    have hfound : ∃ call ∈ r.calls, (w.readResult call.storage (c.NsKey key)).2 = none := by
      rw [← rit, hit]
      rfl
    have hw : r.state.w.isSome = true := rinv.2.2 (by rw [hit]; rfl)
    obtain ⟨s2, hs2⟩ := Option.isSome_iff_exists.1 hw
    obtain ⟨w1, hw1⟩ := propagateAll_total lib c s2 it key r.state.p r.state.world
    obtain ⟨hmap, es, hlog, hall⟩ :=
      propagateAll_starts lib c s2 it key r.state.p r.state.world w1 hw1
    obtain ⟨es', hlog', hP⟩ := opExt_propagateAll lib
      (fun ev => ev.op.isRead = true ∨ (ev.op.isWrite = true ∧ ev.storage ∈ r.state.p))
      c s2 (fun _ => Or.inl rfl) it key r.state.p
      (fun s1 hs1 => ⟨fun _ _ _ => Or.inr ⟨rfl, hs1⟩, fun _ => Or.inl rfl,
        fun _ _ _ => Or.inr ⟨rfl, hs1⟩⟩) r.state.world w1 hw1
    have hes : es' = es := List.append_cancel_left (hlog'.symm.trans hlog)
    subst hes
    refine ⟨⟨r.e, r.state.out, w1, r.calls⟩,
      r.calls.map (fun call => (⟨call.storage, .Read (c.NsKey key)⟩ : Event)) ++ es', ?_, ?_,
      ?_, ?_, ?_⟩
    · simp [Cache.Get, Cache.get, hr, hit, hs2, hw1]
    · simp only
      rw [hlog, rlog, List.append_assoc]
    · intro ev hev
      rcases List.mem_append.1 hev with h | h
      · exact Or.inl (hreads ev h).1
      · rcases hP ev h with h1 | h1
        · exact Or.inl h1
        · exact Or.inr h1.1
    · intro ev hev hwr
      rcases List.mem_append.1 hev with h | h
      · rw [(hreads ev h).2] at hwr
        cases hwr
      · rcases hP ev h with h1 | h1
        · cases hop : ev.op <;> simp [hop, Op.isRead, Op.isWrite] at h1 hwr
        · refine ⟨?_, hfound⟩
          simp only
          rw [← rp]
          exact h1.2
    · intro _
      simp only
      rw [← rp]
      refine ⟨it, s2, r.state.world, rw2 s2 hs2, rlog, rinv.1, rinv.2.1, hw1, hmap, ?_⟩
      intro sw hsw
      refine ⟨?_, ?_⟩
      · intro hok
        obtain ⟨v, d, hmem⟩ := hall sw hsw hok
        exact ⟨v, d, List.mem_append_right _ hmem⟩
      · intro err herr
        exact (propagate_of_tags_error lib c sw.1 s2 it key sw.2 err herr).1

/-- C30, instantiated: the high tier `[A, B]` misses the key and the medium storage `C`
holds it; the hypothesis holds there, `Get` visits `A`, `B` and `C` and then writes into `A`
and into `B`, and the two calls of `propagate` are made for `A` and `B`. -/
theorem C30_get_writes_to_missing_high_storages_witness :
    (∀ s ∈ exTiers.storage .PriorityHigh ++ exTiers.storage .PriorityMedium,
      exWorldOnlyC.regular exLib s (exTiers.NsKey "key1")) ∧
    (exTiers.Get exLib "key1" .nil exWorldOnlyC).map
        (fun r => (r.calls.map (fun call => call.storage),
          ((r.world.log.drop exWorldOnlyC.log.length).filter
            (fun ev => ev.op.isWrite)).map (fun ev => ev.storage))) =
      some ([0, 1, 2], [0, 1]) ∧
    ∃ res evs, exTiers.Get exLib "key1" .nil exWorldOnlyC = some res ∧
      res.world.log = exWorldOnlyC.log ++ evs ∧
      (∀ ev ∈ evs, ev.op.isRead = true ∨ ev.op.isWrite = true) ∧
      (∀ ev ∈ evs, ev.op.isWrite = true →
        ev.storage ∈ missing exWorldOnlyC (exTiers.NsKey "key1") (highVisited res.calls) ∧
        ∃ call ∈ res.calls,
          (exWorldOnlyC.readResult call.storage (exTiers.NsKey "key1")).2 = none) ∧
      ((∃ call ∈ res.calls,
          (exWorldOnlyC.readResult call.storage (exTiers.NsKey "key1")).2 = none) →
        ∃ it s2 w1,
          (exWorldOnlyC.readResult s2 (exTiers.NsKey "key1")).2 = none ∧
          w1.log = exWorldOnlyC.log ++
            res.calls.map
              (fun call => (⟨call.storage, .Read (exTiers.NsKey "key1")⟩ : Event)) ∧
          (∀ r k, w1.readResult r k = exWorldOnlyC.readResult r k) ∧
          w1.now = exWorldOnlyC.now ∧
          exTiers.propagateAll exLib (some s2) it "key1"
            (missing exWorldOnlyC (exTiers.NsKey "key1") (highVisited res.calls)) w1 =
              some res.world ∧
          (exTiers.propagateStarts exLib (some s2) it "key1"
            (missing exWorldOnlyC (exTiers.NsKey "key1") (highVisited res.calls)) w1).map
              Prod.fst =
            missing exWorldOnlyC (exTiers.NsKey "key1") (highVisited res.calls) ∧
          ∀ sw ∈ exTiers.propagateStarts exLib (some s2) it "key1"
              (missing exWorldOnlyC (exTiers.NsKey "key1") (highVisited res.calls)) w1,
            ((exTiers.tagger.Tags exLib s2 "key1" sw.2).1.2 = none →
              ∃ v d, (⟨sw.1, .Write (exTiers.NsKey "key1") v d⟩ : Event) ∈ evs) ∧
            (∀ err, (exTiers.tagger.Tags exLib s2 "key1" sw.2).1.2 = some err →
              exTiers.propagate exLib sw.1 (some s2) it "key1" sw.2 =
                some (some err, (exTiers.tagger.Tags exLib s2 "key1" sw.2).2))) := by
  have hreg : ∀ s ∈ exTiers.storage .PriorityHigh ++ exTiers.storage .PriorityMedium,
      exWorldOnlyC.regular exLib s (exTiers.NsKey "key1") := by
    intro s hs
    have hl : exTiers.storage .PriorityHigh ++ exTiers.storage .PriorityMedium = [0, 1, 2] :=
      rfl
    rw [hl] at hs
    simp only [List.mem_cons, List.mem_singleton, List.not_mem_nil, or_false] at hs
    intro v hv
    rcases hs with rfl | rfl | rfl
    · have h2 : exWorldOnlyC.readResult 0 (exTiers.NsKey "key1") =
          (.nil, some .keyNotExist) := rfl
      rw [h2] at hv
      cases hv
    · have h2 : exWorldOnlyC.readResult 1 (exTiers.NsKey "key1") =
          (.nil, some .keyNotExist) := rfl
      rw [h2] at hv
      cases hv
    · have h2 : exWorldOnlyC.readResult 2 (exTiers.NsKey "key1") =
          (.item "key1" (.int 12345) 0 0, none) := rfl
      rw [h2] at hv
      cases hv
      rfl
  exact ⟨hreg, rfl,
    C30_get_writes_to_missing_high_storages exLib exTiers "key1" .nil exWorldOnlyC hreg⟩

/-- C30 as stated fails: with the high tier `[A, B]`, where `A` holds a non-expired item
whose value cannot be decoded and `B` does not hold the key, the item is taken from `A`,
`B` is visited after `A` and reports `ErrKeyNotExist`, and `Get` then writes the item into
`B`. -/
theorem C30_counterexample_write_to_storage_visited_later :
    exTwoHighDefault.storage .PriorityHigh = [0, 1] ∧
    exWorldUndecodableFirst.readResult 0 (exTwoHighDefault.NsKey "k") =
      (.item "k" (.str "undecodable") 0 0, none) ∧
    exWorldUndecodableFirst.readResult 1 (exTwoHighDefault.NsKey "k") =
      (.nil, some .keyNotExist) ∧
    (exTwoHighDefault.Get exLib "k" .nil exWorldUndecodableFirst).map
        (fun r => (r.calls, r.world.log)) =
      some ([⟨.PriorityHigh, 0, false, some (.other "decode")⟩,
             ⟨.PriorityHigh, 1, false, some .keyNotExist⟩],
        [⟨0, .Read "go:cache:k"⟩, ⟨1, .Read "go:cache:k"⟩,
         ⟨0, .Read "go:cache:tagger:key:k:tags"⟩,
         ⟨1, .Write "go:cache:k" (.item "k" (.str "undecodable") 0 0) 0⟩]) :=
  ⟨rfl, rfl, rfl, rfl⟩

/-! ## the keys the operations pass to the storages -/

theorem beginsWith_append (p k : String) : beginsWith p (p ++ k) = true := by
  unfold beginsWith
  rw [String.data_append, List.isPrefixOf_iff_prefix]
  exact List.prefix_append _ _

theorem ownKey_NsKey (c : Cache) (k : String) : c.ownKey (c.NsKey k) = true := by
  unfold Cache.ownKey Cache.NsKey
  rw [beginsWith_append]
  rfl

theorem ownKey_nsKey (c : Cache) (k : String) : c.ownKey (c.tagger.nsKey k) = true := by
  unfold Cache.ownKey std.nsKey
  rw [beginsWith_append (c.tagger.ns ++ ":") k]
  simp

theorem opExt_byTagRead (lib : Lib) (P : Event → Prop) (c : Cache) (s : Storage)
    (cR : ∀ k, P ⟨s, .Read (c.NsKey k)⟩) :
    ∀ (keys : List String) (output : List Value) (w : World),
      World.logExt P w (c.byTagRead lib s keys output w).2 := by
  intro keys
  induction keys with
  | nil => intro output w; exact logExt_refl P w
  | cons key rest ih =>
    intro output w
    rw [Cache.byTagRead]
    have h1 := opExt_Read P s (c.NsKey key) w (cR _)
    generalize Storage.Read s (c.NsKey key) w = r0 at h1 ⊢
    obtain ⟨⟨v, err⟩, w1⟩ := r0
    exact logExt_trans P _ _ _ h1 (ih _ w1)

theorem opExt_ByTag (lib : Lib) (P : Event → Prop) (c : Cache)
    (cR : ∀ s k, P ⟨s, .Read (c.NsKey k)⟩)
    (tR : ∀ s k, P ⟨s, .Read (c.tagger.nsKey k)⟩)
    (tag : String) (out : Value) (w : World) (r : ByTagOut)
    (hr : c.ByTag lib tag out w = some r) : World.logExt P w r.world := by
  have hstep : ∀ s, ∀ (st : ByTagState) res st',
      World.logExt P w st.world →
      c.byTagHandler lib tag s st = some (res, st') →
      World.logExt P w st'.world := by
    intro s st res st' hst hh
    unfold Cache.byTagHandler at hh
    have h1 := opExt_Keys lib P c.tagger s (tR s) tag st.world
    generalize c.tagger.Keys lib s tag st.world = r0 at h1 hh
    obtain ⟨⟨keys, err⟩, w1⟩ := r0
    cases err with
    | some err =>
      simp only [Option.some.injEq, Prod.mk.injEq] at hh
      obtain ⟨_, rfl⟩ := hh
      exact logExt_trans P _ _ _ hst h1
    | none =>
      simp only [Option.some.injEq, Prod.mk.injEq] at hh
      obtain ⟨_, rfl⟩ := hh
      exact logExt_trans P _ _ _ hst
        (logExt_trans P _ _ _ h1 (opExt_byTagRead lib P c s (cR s) keys [] w1))
  unfold Cache.ByTag at hr
  cases hl : c.Loop (c.byTagHandler lib tag) none ⟨w, out⟩ with
  | none => simp [hl] at hr
  | some lo =>
    simp only [hl, Option.some.injEq] at hr
    subst hr
    exact Loop_preserves c _ none (fun st => World.logExt P w st.world)
      (fun s _ => hstep s) (fun s _ => hstep s) ⟨w, out⟩ lo (logExt_refl P w) hl

theorem opExt_delByTagTags (lib : Lib) (P : Event → Prop) (c : Cache) (s : Storage)
    (cD : ∀ s k, P ⟨s, .Delete (c.NsKey k)⟩)
    (tR : ∀ s k, P ⟨s, .Read (c.tagger.nsKey k)⟩)
    (tW : ∀ s k v d, P ⟨s, .Write (c.tagger.nsKey k) v d⟩)
    (tD : ∀ s k, P ⟨s, .Delete (c.tagger.nsKey k)⟩) :
    ∀ (tags : List String) (w : World) (r : Option Error × World),
      c.delByTagTags lib s tags w = some r → World.logExt P w r.2 := by
  intro tags
  induction tags with
  | nil =>
    intro w r h
    simp only [Cache.delByTagTags, Option.some.injEq] at h
    subst h
    exact logExt_refl P w
  | cons tag rest ih =>
    intro w r h
    rw [Cache.delByTagTags] at h
    have h1 := opExt_Keys lib P c.tagger s (tR s) tag w
    generalize c.tagger.Keys lib s tag w = r0 at h1 h
    obtain ⟨⟨keys, err⟩, w1⟩ := r0
    cases err with
    | some err =>
      simp only [Option.some.injEq] at h
      subst h
      exact h1
    | none =>
      simp only at h
      cases hd : c.Del lib keys w1 with
      | none => simp [hd] at h
      | some rd =>
        have h2 := opExt_Del lib P c (fun s _ => cD s) (fun s _ => tR s) (fun s _ => tW s)
          (fun s _ => tD s) keys w1 rd hd
        simp only [hd] at h
        cases he : rd.e with
        | some err =>
          simp only [he, Option.some.injEq] at h
          subst h
          exact logExt_trans P _ _ _ h1 h2
        | none =>
          simp only [he] at h
          exact logExt_trans P _ _ _ h1 (logExt_trans P _ _ _ h2 (ih _ _ h))

theorem opExt_DelByTag (lib : Lib) (P : Event → Prop) (c : Cache)
    (cD : ∀ s k, P ⟨s, .Delete (c.NsKey k)⟩)
    (tR : ∀ s k, P ⟨s, .Read (c.tagger.nsKey k)⟩)
    (tW : ∀ s k v d, P ⟨s, .Write (c.tagger.nsKey k) v d⟩)
    (tD : ∀ s k, P ⟨s, .Delete (c.tagger.nsKey k)⟩)
    (tags : List String) (w : World) (r : LoopOut World)
    (hr : c.DelByTag lib tags w = some r) : World.logExt P w r.state := by
  have hstep : ∀ s, ∀ (st : World) res st',
      World.logExt P w st →
      c.delByTagHandler lib tags s st = some (res, st') →
      World.logExt P w st' := by
    intro s st res st' hst hh
    unfold Cache.delByTagHandler at hh
    cases hd : c.delByTagTags lib s tags st with
    | none => simp [hd] at hh
    | some r1 =>
      have h1 := opExt_delByTagTags lib P c s cD tR tW tD tags st r1 hd
      obtain ⟨err, w1⟩ := r1
      simp only [hd, Option.some.injEq, Prod.mk.injEq] at hh
      obtain ⟨_, rfl⟩ := hh
      exact logExt_trans P _ _ _ hst h1
  exact Loop_preserves c _ none (World.logExt P w)
    (fun s _ => hstep s) (fun s _ => hstep s) w r (logExt_refl P w) hr

theorem opExt_Extend (P : Event → Prop) (c : Cache) (key : String)
    (cR : ∀ s, P ⟨s, .Read (c.NsKey key)⟩)
    (bW : ∀ s v d, P ⟨s, .Write key v d⟩)
    (expiration : Int) (w : World) (r : LoopOut World)
    (hr : c.Extend key expiration w = some r) : World.logExt P w r.state := by
  have hstep : ∀ s, ∀ (st : World) res st',
      World.logExt P w st →
      c.extendHandler key expiration s st = some (res, st') →
      World.logExt P w st' := by
    intro s st res st' hst hh
    unfold Cache.extendHandler at hh
    have h1 := opExt_Read P s (c.NsKey key) st (cR s)
    generalize Storage.Read s (c.NsKey key) st = r0 at h1 hh
    obtain ⟨⟨v, err⟩, w1⟩ := r0
    cases err with
    | some err =>
      simp only [Option.some.injEq, Prod.mk.injEq] at hh
      obtain ⟨_, rfl⟩ := hh
      exact logExt_trans P _ _ _ hst h1
    | none =>
      cases v with
      | item k v cr ex =>
        simp only [Option.some.injEq, Prod.mk.injEq] at hh
        obtain ⟨_, rfl⟩ := hh
        exact logExt_trans P _ _ _ hst
          (logExt_trans P _ _ _ h1 (opExt_Write P s key _ _ w1 (bW s _ _)))
      | _ => simp at hh
  exact Loop_preserves c _ none (World.logExt P w)
    (fun s _ => hstep s) (fun s _ => hstep s) w r (logExt_refl P w) hr

theorem opExt_Get (lib : Lib) (P : Event → Prop) (c : Cache)
    (cR : ∀ s k, P ⟨s, .Read (c.NsKey k)⟩)
    (cW : ∀ s k v d, P ⟨s, .Write (c.NsKey k) v d⟩)
    (cD : ∀ s k, P ⟨s, .Delete (c.NsKey k)⟩)
    (tR : ∀ s k, P ⟨s, .Read (c.tagger.nsKey k)⟩)
    (tW : ∀ s k v d, P ⟨s, .Write (c.tagger.nsKey k) v d⟩)
    (tD : ∀ s k, P ⟨s, .Delete (c.tagger.nsKey k)⟩)
    (dR : ∀ s k, P ⟨s, .Read ((newStdTagger "go:cache:tagger").nsKey k)⟩)
    (dW : ∀ s k v d, P ⟨s, .Write ((newStdTagger "go:cache:tagger").nsKey k) v d⟩)
    (key : String) (out : Value) (w : World) (res : GetOut)
    (hres : c.Get lib key out w = some res) : World.logExt P w res.world := by
  unfold Cache.Get Cache.get at hres
  cases hl : c.Loop (c.getHigh lib key) (some (c.getMedium lib key)) ⟨w, [], none, none, out⟩
    with
  | none => simp [hl] at hres
  | some lo =>
    have hloop : World.logExt P w lo.state.world :=
      Loop_preserves c _ (some (c.getMedium lib key)) (fun st => World.logExt P w st.world)
        (fun s _ st r st' hst hh => logExt_trans P _ _ _ hst
          (opExt_getHigh lib P c s (cR s) (fun r _ => cD r) (fun r _ => tR r)
            (fun r _ => tW r) (fun r _ => tD r) key st r st' hh))
        (fun s _ st r st' hst hh => logExt_trans P _ _ _ hst
          (opExt_getMedium lib P c s (cR s) (fun r _ => cD r) (fun r _ => tR r)
            (fun r _ => tW r) (fun r _ => tD r) key st r st' hh))
        ⟨w, [], none, none, out⟩ lo (logExt_refl P w) hl
    simp only [hl] at hres
    cases hit : lo.state.it with
    | none =>
      simp only [hit, Option.some.injEq] at hres
      subst hres
      exact hloop
    | some it =>
      simp only [hit] at hres
      cases hp : c.propagateAll lib lo.state.w it key lo.state.p lo.state.world with
      | none => simp [hp] at hres
      | some w1 =>
        simp only [hp, Option.some.injEq] at hres
        subst hres
        simp only
        cases hw : lo.state.w with
        | none =>
          rw [hw] at hp
          cases hpl : lo.state.p with
          | nil =>
            rw [hpl] at hp
            simp only [Cache.propagateAll, Option.some.injEq] at hp
            subst hp
            exact hloop
          | cons s rest =>
            rw [hpl] at hp
            simp [Cache.propagateAll, Cache.propagate] at hp
        | some s2 =>
          rw [hw] at hp
          exact logExt_trans P _ _ _ hloop
            (opExt_propagateAll lib P c s2 (tR s2) it key lo.state.p
              (fun s1 _ => ⟨cW s1, dR s1, dW s1⟩) lo.state.world w1 hp)

/-- C23, amended: in every run of `Set`, `Del`, `ByTag` and `DelByTag` that returns, each
key passed to `Read`, `Write` or `Delete` begins with the namespace of the cache and `:` or
with the namespace of its tagger and `:`; the same holds in every run of `Get` that returns
when the tagger of the cache is the default one; and in every run of `Extend` that returns,
each `Read` made is a `Read` of the namespaced key. -/
theorem C23_keys_begin_with_cache_or_tagger_namespace (lib : Lib) (c : Cache) (w : World) :
    (∀ key v d tags r, c.Set lib key v d tags w = some r →
      World.logExt (fun ev => ev.op.keyAll c.ownKey = true) w r.state) ∧
    (∀ keys r, c.Del lib keys w = some r →
      World.logExt (fun ev => ev.op.keyAll c.ownKey = true) w r.state) ∧
    (∀ tag out r, c.ByTag lib tag out w = some r →
      World.logExt (fun ev => ev.op.keyAll c.ownKey = true) w r.world) ∧
    (∀ tags r, c.DelByTag lib tags w = some r →
      World.logExt (fun ev => ev.op.keyAll c.ownKey = true) w r.state) ∧
    (c.tagger = newStdTagger "go:cache:tagger" → ∀ key out r, c.Get lib key out w = some r →
      World.logExt (fun ev => ev.op.keyAll c.ownKey = true) w r.world) ∧
    (∀ key d r, c.Extend key d w = some r →
      World.logExt (fun ev => ev.op = .Read (c.NsKey key) ∨ ev.op.isWrite = true)
        w r.state) := by
  refine ⟨?_, ?_, ?_, ?_, ?_, ?_⟩
  · intro key v d tags r hr
    exact opExt_Set lib _ c (fun _ _ k _ _ => ownKey_NsKey c k)
      (fun _ _ k => ownKey_nsKey c k) (fun _ _ k _ _ => ownKey_nsKey c k) key v d tags w r hr
  · intro keys r hr
    exact opExt_Del lib _ c (fun _ _ k => ownKey_NsKey c k) (fun _ _ k => ownKey_nsKey c k)
      (fun _ _ k _ _ => ownKey_nsKey c k) (fun _ _ k => ownKey_nsKey c k) keys w r hr
  · intro tag out r hr
    exact opExt_ByTag lib _ c (fun _ k => ownKey_NsKey c k) (fun _ k => ownKey_nsKey c k)
      tag out w r hr
  · intro tags r hr
    exact opExt_DelByTag lib _ c (fun _ k => ownKey_NsKey c k) (fun _ k => ownKey_nsKey c k)
      (fun _ k _ _ => ownKey_nsKey c k) (fun _ k => ownKey_nsKey c k) tags w r hr
  · intro htag key out r hr
    have hd : ∀ k, c.ownKey ((newStdTagger "go:cache:tagger").nsKey k) = true := by
      intro k
      rw [← htag]
      exact ownKey_nsKey c k
    exact opExt_Get lib _ c (fun _ k => ownKey_NsKey c k) (fun _ k _ _ => ownKey_NsKey c k)
      (fun _ k => ownKey_NsKey c k) (fun _ k => ownKey_nsKey c k)
      (fun _ k _ _ => ownKey_nsKey c k) (fun _ k => ownKey_nsKey c k)
      (fun _ k => hd k) (fun _ k _ _ => hd k) key out w r hr
  · intro key d r hr
    exact opExt_Extend _ c key (fun _ => Or.inl rfl) (fun _ _ _ => Or.inr rfl) d w r hr

/-- C23, instantiated: `Set` with a tag through a cache with namespace `go:test` and the
default tagger returns, and each key it passes begins with `go:test:` or with
`go:cache:tagger:`; so does each key passed by a `Get` that promotes the item found in the
medium tier into the two storages of the high tier. -/
theorem C23_keys_begin_with_cache_or_tagger_namespace_witness :
    (∃ r, exTest.Set exLib "k" (.int 1) 0 ["a"] exWorld = some r ∧
      World.logExt (fun ev => ev.op.keyAll exTest.ownKey = true) exWorld r.state) ∧
    exTiers.tagger = newStdTagger "go:cache:tagger" ∧
    (∃ r, exTiers.Get exLib "key1" .nil exWorldOnlyC = some r ∧
      World.logExt (fun ev => ev.op.keyAll exTiers.ownKey = true) exWorldOnlyC r.world) :=
  ⟨⟨_, rfl, (C23_keys_begin_with_cache_or_tagger_namespace exLib exTest exWorld).1
      "k" (.int 1) 0 ["a"] _ rfl⟩,
    rfl,
    ⟨_, rfl, (C23_keys_begin_with_cache_or_tagger_namespace exLib exTiers exWorldOnlyC).2.2.2.2.1
      rfl "key1" .nil _ rfl⟩⟩

/-- C23 as stated fails: a cache made with `WithNamespace("go:test")` keeps the default
tagger, and its `Set` with a tag reads and writes the keys of the tag index under
`go:cache:tagger:`, which do not begin with `go:test:`. -/
theorem C23_counterexample_tag_index_keys :
    exTest.ns = "go:test" ∧
    (exTest.Set exLib "k" (.int 1) 0 ["a"] exWorld).map (fun r => (r.e, r.state.log)) =
      some (none,
        [⟨0, .Write "go:test:k" (.item "k" (.int 1) 0 0) 0⟩,
         ⟨0, .Read "go:cache:tagger:key:k:tags"⟩,
         ⟨0, .Write "go:cache:tagger:key:k:tags" (.strs ["a"]) 0⟩,
         ⟨0, .Read "go:cache:tagger:tag:a:keys"⟩,
         ⟨0, .Write "go:cache:tagger:tag:a:keys" (.strs ["k"]) 0⟩]) ∧
    beginsWith (exTest.ns ++ ":") "go:cache:tagger:key:k:tags" = false ∧
    beginsWith (exTest.ns ++ ":") "go:cache:tagger:tag:a:keys" = false := by
  decide!

/-! ## the in-memory storage under sequences of calls -/

theorem expireWithinData_after (st : StorageState) (now : Int) (call : InMemCall)
    (h : st.expireWithinData) : (st.after now call).expireWithinData := by
  cases st with
  | mock err cl val => exact absurd h (by simp [StorageState.expireWithinData])
  | InMem data expire =>
    simp only [StorageState.expireWithinData] at h
    cases call with
    | Write key v d =>
      simp only [StorageState.after, StorageState.Write, InMem.Write,
        StorageState.expireWithinData]
      intro k e he
      by_cases hk : k = key
      · exact ⟨v, by simp [mapSet, hk]⟩
      · have he2 : expire k = some e := by
          by_cases hd : d = 0
          · simpa [hd] using he
          · simpa [hd, mapSet, hk] using he
        obtain ⟨x, hx⟩ := h k e he2
        exact ⟨x, by simp [mapSet, hk, hx]⟩
    | Read key =>
      simp only [StorageState.after, StorageState.Read, InMem.Read]
      cases hdk : data key with
      | none => exact h
      | some v =>
        cases hek : expire key with
        | none => exact h
        | some t =>
          by_cases ht : t < now
          · simp only [ht, if_true, StorageState.expireWithinData]
            intro k e he
            by_cases hk : k = key
            · simp [mapDelete, hk] at he
            · simp only [mapDelete, hk, if_false] at he ⊢
              exact h k e he
          · simp only [ht, if_false]
            exact h
    | Delete key =>
      simp only [StorageState.after, StorageState.Delete, InMem.Delete,
        StorageState.expireWithinData]
      intro k e he
      by_cases hk : k = key
      · simp [mapDelete, hk] at he
      · simp only [mapDelete, hk, if_false] at he ⊢
        exact h k e he
    | Flush =>
      simp only [StorageState.after, StorageState.Flush, InMem.Flush, InMemory,
        StorageState.expireWithinData]
      intro k e he
      cases he

theorem expireWithinData_afterAll (calls : List (Int × InMemCall)) :
    ∀ (st : StorageState), st.expireWithinData → (st.afterAll calls).expireWithinData := by
  induction calls with
  | nil => intro st h; exact h
  | cons call rest ih =>
    intro st h
    exact ih _ (expireWithinData_after st call.1 call.2 h)

/-- C31. After every sequence of `Write`, `Read`, `Delete` and `Flush` calls, made at any
instants, on a storage created by `InMemory()`, the storage is an in-memory storage in
which every key with an entry in the expiry map has an entry in the data map, and a `Read`
of a key without an entry in the data map, at any instant, returns
`(nil, ErrKeyNotExist)` and leaves the storage as it is. -/
theorem C31_in_memory_expiry_entries_have_data (calls : List (Int × InMemCall)) :
    ∃ data expire, InMemory.afterAll calls = .InMem data expire ∧
      (∀ k e, expire k = some e → ∃ v, data k = some v) ∧
      (∀ k now, data k = none →
        (InMemory.afterAll calls).Read now k =
          ((.nil, some .keyNotExist), InMemory.afterAll calls)) := by
  have h0 : InMemory.expireWithinData := by
    simp [InMemory, StorageState.expireWithinData]
  have h := expireWithinData_afterAll calls InMemory h0
  cases hst : InMemory.afterAll calls with
  | mock err cl val =>
    rw [hst] at h
    exact absurd h (by simp [StorageState.expireWithinData])
  | InMem data expire =>
    rw [hst] at h
    refine ⟨data, expire, rfl, h, ?_⟩
    intro k now hk
    simp [StorageState.Read, InMem.Read, hk]

/-! ## `Flush` on the Redis storage -/

theorem redis_Flush_none (r : redis) : ∀ (fuel : Nat), r.Flush fuel = none := by
  intro fuel
  induction fuel with
  | zero => rfl
  | succ n ih =>
    rw [redis.Flush]
    exact ih

theorem highPass_returned_of_stuck {σ : Type} (h : Handler σ) (s : Storage)
    (hs : ∀ w, h s w = none) :
    ∀ (l : List Storage), s ∈ l → ∀ (e : Option Error) (w : σ),
      (∀ p, Loop.highPass h l e w = some p → p.returned = true) := by
  intro l
  induction l with
  | nil => intro hmem; simp at hmem
  | cons s0 rest ih =>
    intro hmem e w p hp
    cases hh : h s0 w with
    | none => simp [Loop.highPass, hh] at hp
    | some r =>
      have hne : s ≠ s0 := by
        intro heq
        rw [← heq, hs w] at hh
        cases hh
      have hrest : s ∈ rest := by
        rcases List.mem_cons.1 hmem with h1 | h1
        · exact absurd h1 hne
        · exact h1
      obtain ⟨⟨t, err⟩, w'⟩ := r
      cases err with
      | some err =>
        simp only [Loop.highPass, hh, Option.map_eq_some'] at hp
        obtain ⟨q, hq, rfl⟩ := hp
        exact ih hrest _ _ q hq
      | none =>
        cases t with
        | true =>
          simp only [Loop.highPass, hh, Option.some.injEq] at hp
          subst hp
          rfl
        | false =>
          simp only [Loop.highPass, hh, Option.map_eq_some'] at hp
          obtain ⟨q, hq, rfl⟩ := hp
          exact ih hrest _ _ q hq

theorem mediumPass_returned_of_stuck {σ : Type} (h : Handler σ) (e : Option Error) (s : Storage)
    (hs : ∀ w, h s w = none) :
    ∀ (l : List Storage), s ∈ l → ∀ (w : σ),
      (∀ p, Loop.mediumPass h e l w = some p → p.returned = true) := by
  intro l
  induction l with
  | nil => intro hmem; simp at hmem
  | cons s0 rest ih =>
    intro hmem w p hp
    cases hh : h s0 w with
    | none => simp [Loop.mediumPass, hh] at hp
    | some r =>
      have hne : s ≠ s0 := by
        intro heq
        rw [← heq, hs w] at hh
        cases hh
      have hrest : s ∈ rest := by
        rcases List.mem_cons.1 hmem with h1 | h1
        · exact absurd h1 hne
        · exact h1
      obtain ⟨⟨t, err⟩, w'⟩ := r
      cases t with
      | true =>
        simp only [Loop.mediumPass, hh, Option.some.injEq] at hp
        subst hp
        rfl
      | false =>
        simp only [Loop.mediumPass, hh, Option.map_eq_some'] at hp
        obtain ⟨q, hq, rfl⟩ := hp
        exact ih hrest _ q hq

theorem flushHandler_never_terminates (rs : Storage → Option redis) (fuel : Nat) (s : Storage)
    (w : World) (r : (Bool × Option Error) × World)
    (h : Cache.flushHandler rs fuel s w = some r) : r.1.1 = false := by
  unfold Cache.flushHandler at h
  cases hf : Storage.FlushOf rs fuel s w with
  | none => simp [hf] at h
  | some x =>
    obtain ⟨err, w1⟩ := x
    simp only [hf, Option.some.injEq] at h
    subst h
    rfl

theorem flushHandler_of_redis (rs : Storage → Option redis) (fuel : Nat) (s : Storage)
    (r : redis) (hr : rs s = some r) (w : World) : Cache.flushHandler rs fuel s w = none := by
  simp [Cache.flushHandler, Storage.FlushOf, hr, redis_Flush_none]

theorem highPass_not_returned {σ : Type} (h : Handler σ)
    (hh : ∀ s w r, h s w = some r → r.1.1 = false) :
    ∀ (l : List Storage) (e : Option Error) (w : σ) (p : Pass σ),
      Loop.highPass h l e w = some p → p.returned = false := by
  intro l
  induction l with
  | nil =>
    intro e w p hp
    simp only [Loop.highPass, Option.some.injEq] at hp
    subst hp
    rfl
  | cons s0 rest ih =>
    intro e w p hp
    cases hs : h s0 w with
    | none => simp [Loop.highPass, hs] at hp
    | some r =>
      have ht := hh s0 w r hs
      obtain ⟨⟨t, err⟩, w'⟩ := r
      simp only at ht
      subst ht
      cases err with
      | some err =>
        simp only [Loop.highPass, hs, Option.map_eq_some'] at hp
        obtain ⟨q, hq, rfl⟩ := hp
        exact ih _ _ q hq
      | none =>
        simp only [Loop.highPass, hs, Option.map_eq_some'] at hp
        obtain ⟨q, hq, rfl⟩ := hp
        exact ih _ _ q hq

theorem mediumPass_not_returned {σ : Type} (h : Handler σ) (e : Option Error)
    (hh : ∀ s w r, h s w = some r → r.1.1 = false) :
    ∀ (l : List Storage) (w : σ) (p : Pass σ),
      Loop.mediumPass h e l w = some p → p.returned = false := by
  intro l
  induction l with
  | nil =>
    intro w p hp
    simp only [Loop.mediumPass, Option.some.injEq] at hp
    subst hp
    rfl
  | cons s0 rest ih =>
    intro w p hp
    cases hs : h s0 w with
    | none => simp [Loop.mediumPass, hs] at hp
    | some r =>
      have ht := hh s0 w r hs
      obtain ⟨⟨t, err⟩, w'⟩ := r
      simp only at ht
      subst ht
      simp only [Loop.mediumPass, hs, Option.map_eq_some'] at hp
      obtain ⟨q, hq, rfl⟩ := hp
      exact ih _ q hq

/-- A loop whose handler never signals terminate and does not return on one of the storages
of the cache does not return. -/
theorem Loop_none_of_stuck {σ : Type} (c : Cache) (h : Handler σ) (s : Storage)
    (hmem : s ∈ c.storage .PriorityHigh ++ c.storage .PriorityMedium)
    (hs : ∀ w, h s w = none) (hh : ∀ s w r, h s w = some r → r.1.1 = false) (w : σ) :
    c.Loop h none w = none := by
  unfold Cache.Loop
  simp only [Option.getD_none]
  cases hp : Loop.highPass h (c.storage .PriorityHigh) none w with
  | none => rfl
  | some p =>
    have hret := highPass_not_returned h hh _ _ _ p hp
    simp only [hret, Bool.false_eq_true, if_false]
    rcases List.mem_append.1 hmem with hm | hm
    · have := highPass_returned_of_stuck h s hs _ hm none w p hp
      rw [hret] at this
      cases this
    · cases hq : Loop.mediumPass h p.e (c.storage .PriorityMedium) p.state with
      | none => rfl
      | some q =>
        have h1 := mediumPass_not_returned h p.e hh _ _ q hq
        have h2 := mediumPass_returned_of_stuck h p.e s hs _ hm p.state q hq
        rw [h1] at h2
        cases h2

/-- `Cache.Flush` over a cache that includes a Redis storage does not return, whatever bound
is put on the depth of the calls. -/
theorem Flush_none_of_redis (c : Cache) (rs : Storage → Option redis) (s : Storage)
    (r : redis) (hmem : s ∈ c.storage .PriorityHigh ++ c.storage .PriorityMedium)
    (hr : rs s = some r) (fuel : Nat) (w : World) : c.Flush rs fuel w = none :=
  Loop_none_of_stuck c (Cache.flushHandler rs fuel) s hmem
    (flushHandler_of_redis rs fuel s r hr)
    (flushHandler_never_terminates rs fuel) w

/-- C32, the code at the failing input. The body of `redis.Flush` is `return r.Flush()`: for
every Redis storage value and every bound on the depth of the calls, no result is reached.
Accordingly `Cache.Flush` over a cache whose high tier is an in-memory storage followed by a
Redis storage does not return, from any state; over the in-memory storage alone it returns
nil after one `Flush` call. -/
theorem C32_redis_flush_never_returns :
    (∀ (r : redis) (fuel : Nat), r.Flush fuel = none) ∧
    (∀ (fuel : Nat) (w : World), exTwoHighDefault.Flush exRedisAt fuel w = none) ∧
    (exSingle.Flush exRedisAt 0 exWorld).map (fun r => (r.e, r.state.log)) =
      some (none, [⟨0, .Flush⟩]) := by
  refine ⟨redis_Flush_none, ?_, rfl⟩
  intro fuel w
  exact Flush_none_of_redis exTwoHighDefault exRedisAt 1 ⟨0⟩ (by decide) rfl fuel w

end GoCache
